import Mathlib

/-!
Verification of the grappler `GraphPartitioner` memory-swapping optimizer
(`graph_partitioner.cc`): the wave partitioner (`PartitionGraph`), the
swap-eligibility analyzer (`IsSwappable`), the swap planner / rewriter
(`SwapTensors`, `AddSwapNodesForOneNode`) and the driver
(`SwappingPass`, `GraphPartitioner::Optimize`).

The development is a shallow embedding of the source.  Machine `int32`
priorities and partition ids are modelled as unbounded `Nat`/`Int`
(no claim under study concerns integer overflow); `CHECK` failures,
null-pointer dereferences and the unbounded `IsSwappable` recursion are
modelled with `Option` (`none` = the process aborts or diverges).
Functions of the host framework that are not part of this translation unit
(`SimpleGraphView`, `GraphView`, `IsMerge`, `IsNextIteration`,
`DeviceNameUtils`, the op registry) are either parameters of the
embedding or are modelled from the spec, as marked.
-/

namespace GraphPart

/-! ## Part A: the wave partitioner (`PartitionGraph`)

`PartitionGraph` consumes the graph through a `SimpleGraphView` built by the
framework.  The view is modelled abstractly: node indices `0 .. n-1`, and for
each index its op string, device string, and the lists of input and output
node indices. -/

/-- Modelled from the spec (§4.1, §6): the read-only indexed view
(`SimpleGraphView`) over the graph that `PartitionGraph` traverses.
`inputs i` / `outputs i` are the upstream / downstream node indices. -/
structure PGView where
  n : Nat
  op : Nat → String
  device : Nat → String
  inputs : Nat → List Nat
  outputs : Nat → List Nat

/-- Modelled from the spec (§6): `is_merge`, a predicate on op kinds. -/
def IsMergeOp (op : String) : Bool := op == "Merge" || op == "RefMerge"

/-- Modelled from the spec (§6): `is_next_iteration`, a predicate on op kinds. -/
def IsNextIterationOp (op : String) : Bool :=
  op == "NextIteration" || op == "RefNextIteration"

/-- `device_name_to_index_map` lookup.  The map is populated with the device
names of the catalog, indexed in catalog order; `operator[]` on a missing key
default-inserts `0`. -/
def devIndex (devs : List String) (d : String) : Nat :=
  if d ∈ devs then devs.indexOf d else 0

/-- The mutable state of one `PartitionGraph` run: `partition_id`,
`per_device_num_ops_curr_partition`, `per_device_ready_nodes` (head of the
list = top of the `std::stack`), `num_ready_inputs`, the `priority` field of
each graph node (0 = unassigned), and the `(*node_partitions)` content
recorded as an assignment log of `(node, partition_id)` pairs in execution
order. -/
structure PState where
  pid : Nat
  counts : Nat → Nat
  ready : Nat → List Nat
  numReady : Nat → Nat
  prio : Nat → Nat
  log : List (Nat × Nat)

/-- Push node `i` onto the ready stack of the device named `dstr`. -/
def pushNode (devs : List String) (s : PState) (dstr : String) (i : Nat) : PState :=
  let d := devIndex devs dstr
  { s with ready := fun e => if e = d then i :: s.ready e else s.ready e }

/-- The number of inputs of node `i` that come from a `NextIteration` op —
the `Merge` preseeding of `num_ready_inputs`. -/
def preseedCount (v : PGView) (i : Nat) : Nat :=
  ((v.inputs i).filter (fun u => IsNextIterationOp (v.op u))).length

/-- The effective preseed: only `Merge` nodes are preseeded. -/
def preseedEff (v : PGView) (i : Nat) : Nat :=
  if IsMergeOp (v.op i) then preseedCount v i else 0

/-- One iteration of the initialization loop: push node `i` if it has no
inputs, and preseed `num_ready_inputs[i]` if it is a `Merge`. -/
def initStep (v : PGView) (devs : List String) (s : PState) (i : Nat) : PState :=
  let s := if (v.inputs i).isEmpty then pushNode devs s (v.device i) i else s
  if IsMergeOp (v.op i) then
    { s with numReady := fun j => if j = i then preseedCount v i else s.numReady j }
  else s

/-- The state before the main loop: `partition_id = 1`, empty ready and
counters, then the initialization loop over all nodes. -/
def initState (v : PGView) (devs : List String) : PState :=
  (List.range v.n).foldl (initStep v devs)
    { pid := 1, counts := fun _ => 0, ready := fun _ => [], numReady := fun _ => 0,
      prio := fun _ => 0, log := [] }

/-- Process one fanout `m` of an executed node: increment
`num_ready_inputs[m]` and, if it just reached `m`'s in-degree, push `m` onto
its own device's ready stack. -/
def procFanout (v : PGView) (devs : List String) (s : PState) (m : Nat) : PState :=
  let nr := s.numReady m + 1
  let s := { s with numReady := fun j => if j = m then nr else s.numReady j }
  if nr = (v.inputs m).length then pushNode devs s (v.device m) m else s

/-- The bookkeeping part of executing node `i` popped from the stack of
device index `d`: pop it, assign `priority := partition_id`, record it in
`node_partitions`, and bump the device's per-wave counter. -/
def execMark (d i : Nat) (rest : List Nat) (s : PState) : PState :=
  { s with ready := fun e => if e = d then rest else s.ready e,
           prio := fun j => if j = i then s.pid else s.prio j,
           log := s.log ++ [(i, s.pid)],
           counts := fun e => if e = d then s.counts e + 1 else s.counts e }

/-- Execute node `i`, popped from the ready stack of device index `d`:
the bookkeeping of `execMark` followed by the fanout loop. -/
def execNode (v : PGView) (devs : List String) (d : Nat) (i : Nat) (rest : List Nat)
    (s : PState) : PState :=
  (v.outputs i).foldl (procFanout v devs) (execMark d i rest s)

/-- The wave-closing check at the head of the per-device loop body: when the
device's counter has reached `kPartitionSize`, increment `partition_id` and
zero every device's counter. -/
def closeWave (K d : Nat) (s : PState) : PState :=
  if s.counts d = K then { s with pid := s.pid + 1, counts := fun _ => 0 } else s

/-- The body of the per-device loop: the wave-closing check, then pop and
execute one ready node when available.  The boolean accumulator is
`executed_all`. -/
def stepDev (v : PGView) (devs : List String) (K : Nat) (acc : PState × Bool)
    (d : Nat) : PState × Bool :=
  match (closeWave K d acc.1).ready d with
  | [] => (closeWave K d acc.1, acc.2)
  | i :: rest => (execNode v devs d i rest (closeWave K d acc.1), false)

/-- One pass of the `for (dev_index …)` loop over all devices, starting from
`executed_all = true`. -/
def passAll (v : PGView) (devs : List String) (K : Nat) (s : PState) : PState × Bool :=
  (List.range devs.length).foldl (stepDev v devs K) (s, true)

/-- The `while (!executed_all)` loop, fuel-indexed.  The C++ loop runs the
pass and stops as soon as a pass executes nothing. -/
def runLoop (v : PGView) (devs : List String) (K : Nat) : Nat → PState → PState
  | 0, s => s
  | fuel + 1, s =>
      let r := passAll v devs K s
      if r.2 then r.1 else runLoop v devs K fuel r.1

/-- `PartitionGraph` with the wave capacity `kPartitionSize = K` factored out
as an argument.  Fuel `v.n + 1` is sufficient: every non-final pass executes
at least one node and each node is executed at most once. -/
def PartitionGraphCore (v : PGView) (devs : List String) (K : Nat) : PState :=
  runLoop v devs K (v.n + 1) (initState v devs)

/-- `std::atoi`: optional sign, leading decimal digits, 0 on garbage. -/
def atoiDigits : List Char → Int
  | [] => 0
  | c :: cs =>
      if c.isDigit then (c.toNat - 48 : Int) * (10 : Int) ^ cs.length + atoiDigits cs
      else 0

/-- Keep the longest digit prefix (what `atoi` consumes). -/
def digitPrefix (cs : List Char) : List Char := cs.takeWhile (·.isDigit)

/-- `std::atoi` on a C string. -/
def atoi (s : String) : Int :=
  match s.data with
  | '-' :: cs => - atoiDigits (digitPrefix cs)
  | '+' :: cs => atoiDigits (digitPrefix cs)
  | cs => atoiDigits (digitPrefix cs)

/-- `const size_t kPartitionSize = std::atoi(std::getenv("KPART"));` —
the process environment is a partial map from variable names to strings;
a missing `KPART` makes `atoi` dereference a null pointer (`none`), and the
`int → size_t` conversion wraps modulo `2^64`. -/
def kPartitionSizeOf (env : String → Option String) : Option Nat :=
  (env "KPART").map (fun s => ((atoi s) % ((2 : Int) ^ 64)).toNat)

/-- `PartitionGraph(graph, devices, node_partitions)`: reads the wave
capacity from the `KPART` environment variable and runs the bounded-batch
topological partitioning loop. -/
def PartitionGraph (env : String → Option String) (v : PGView) (devs : List String) :
    Option PState :=
  (kPartitionSizeOf env).map (fun K => PartitionGraphCore v devs K)

end GraphPart

namespace GraphPart

/-! ### Invariants of the partitioning loop -/

/-- The nodes executed so far, in execution order (`node_partitions` keys
flattened). -/
def logNodes (s : PState) : List Nat := s.log.map Prod.fst

/-- How many times node `j` currently sits on some tracked ready stack. -/
def stackCount (devs : List String) (s : PState) (j : Nat) : Nat :=
  ∑ d ∈ Finset.range devs.length, (s.ready d).count j

/-- Node `j` has been seen by the loop: executed, or waiting on a stack. -/
def Seen (devs : List String) (s : PState) (j : Nat) : Prop :=
  j ∈ logNodes s ∨ 0 < stackCount devs s j

/-- Number of executed nodes assigned to device index `d` in wave `w`. -/
def countLogIdx (v : PGView) (devs : List String) (s : PState) (d w : Nat) : Nat :=
  s.log.countP (fun e => decide (devIndex devs (v.device e.1) = d ∧ e.2 = w))

/-- The contribution of the executed nodes to `num_ready_inputs[i]`. -/
def readySum (v : PGView) (s : PState) (i : Nat) : Nat :=
  ((logNodes s).map (fun u => (v.outputs u).count i)).sum

/-- Well-formedness of a `SimpleGraphView`: edges stay in range and the
input and output adjacency lists list the same edges with the same
multiplicities. -/
structure VOk (v : PGView) : Prop where
  hin : ∀ i, i < v.n → ∀ u ∈ v.inputs i, u < v.n
  hout : ∀ u, u < v.n → ∀ m ∈ v.outputs u, m < v.n
  hsym : ∀ u, u < v.n → ∀ i, i < v.n → (v.outputs u).count i = (v.inputs i).count u

/-- The loop invariant of `PartitionGraph`.  `pending j` is the number of
`num_ready_inputs[j]` increments still owed by the executed nodes (non-zero
only in the middle of the fanout loop of `execNode`). -/
structure Inv (v : PGView) (devs : List String) (K : Nat) (pending : Nat → Nat)
    (s : PState) : Prop where
  pid_pos : 1 ≤ s.pid
  log_waves : ∀ e ∈ s.log, 1 ≤ e.2 ∧ e.2 ≤ s.pid
  nodes_once : ∀ j, (logNodes s).count j + stackCount devs s j ≤ 1
  seen_ready : ∀ j, Seen devs s j → (v.inputs j).length ≤ s.numReady j
  nodes_lt : ∀ j, Seen devs s j → j < v.n
  stack_dev : ∀ d, d < devs.length → ∀ j ∈ s.ready d, devIndex devs (v.device j) = d
  numReady_eq : ∀ j, j < v.n → s.numReady j + pending j = preseedEff v j + readySum v s j
  prio_log : ∀ e ∈ s.log, s.prio e.1 = e.2
  prio_notlog : ∀ j, j ∉ logNodes s → s.prio j = 0
  counts_eq : ∀ d, s.counts d = countLogIdx v devs s d s.pid
  counts_le : ∀ d w, countLogIdx v devs s d w ≤ K
  mono : ∀ e ∈ s.log, preseedEff v e.1 = 0 →
    ∀ u ∈ v.inputs e.1, ∃ w', (u, w') ∈ s.log ∧ w' ≤ e.2

/-- `countP` of membership in `i :: S` splits off the count of `i` when
`i ∉ S`. -/
theorem countP_mem_cons {i : Nat} {S : List Nat} (hiS : i ∉ S) (L : List Nat) :
    L.countP (fun a => decide (a ∈ i :: S)) =
      L.count i + L.countP (fun a => decide (a ∈ S)) := by
  induction L with
  | nil => simp
  | cons x L ihL =>
      rw [List.countP_cons, List.countP_cons, List.count_cons, ihL]
      by_cases hx : x = i
      · subst hx
        have h1 : x ∈ x :: S := List.mem_cons_self x S
        simp [h1, hiS]
        omega
      · by_cases hxS : x ∈ S
        · have h1 : x ∈ i :: S := List.mem_cons_of_mem _ hxS
          simp [h1, hxS, hx]
          omega
        · have h1 : x ∉ i :: S := by
            intro hc
            rcases List.mem_cons.mp hc with h | h
            · exact hx h
            · exact hxS h
          simp [h1, hxS, hx]

/-- Counting members of a duplicate-free list through `countP`. -/
theorem countP_mem_sum {S L : List Nat} (h : S.Nodup) :
    L.countP (fun a => decide (a ∈ S)) = (S.map (fun i => L.count i)).sum := by
  induction S with
  | nil => simp [List.countP_eq_zero]
  | cons i S ih =>
      have hiS : i ∉ S := (List.nodup_cons.mp h).1
      have hS : S.Nodup := (List.nodup_cons.mp h).2
      rw [countP_mem_cons hiS, ih hS]
      simp

end GraphPart

namespace GraphPart

/-- Changing a function at one point of `Finset.range D` exchanges the two
values in the sum. -/
theorem sum_update_point (D : Nat) (f g : Nat → Nat) {d : Nat} (hd : d < D)
    (h : ∀ e, e ≠ d → g e = f e) :
    (∑ e ∈ Finset.range D, g e) + f d = (∑ e ∈ Finset.range D, f e) + g d := by
  have hdm : d ∈ Finset.range D := Finset.mem_range.mpr hd
  have hg := (Finset.sum_erase_add (Finset.range D) g hdm).symm
  have hf := (Finset.sum_erase_add (Finset.range D) f hdm).symm
  have he : ∑ e ∈ (Finset.range D).erase d, g e = ∑ e ∈ (Finset.range D).erase d, f e :=
    Finset.sum_congr rfl (fun e hee => h e (Finset.ne_of_mem_erase hee))
  rw [hg, hf, he]
  omega

theorem devIndex_lt {devs : List String} (hD : 0 < devs.length) (dstr : String) :
    devIndex devs dstr < devs.length := by
  unfold devIndex
  by_cases hm : dstr ∈ devs
  · simp [hm]
    exact List.indexOf_lt_length.mpr hm
  · simp [hm]
    exact hD

theorem stackCount_pos_iff (devs : List String) (s : PState) (j : Nat) :
    0 < stackCount devs s j ↔ ∃ d, d < devs.length ∧ j ∈ s.ready d := by
  unfold stackCount
  constructor
  · intro h
    by_contra hc
    push_neg at hc
    have hz : ∑ d ∈ Finset.range devs.length, (s.ready d).count j = 0 := by
      apply Finset.sum_eq_zero
      intro d hdm
      exact List.count_eq_zero.mpr (hc d (Finset.mem_range.mp hdm))
    omega
  · rintro ⟨d, hd, hmem⟩
    have h1 : 0 < (s.ready d).count j := List.count_pos_iff.mpr hmem
    have h2 : (s.ready d).count j ≤ ∑ e ∈ Finset.range devs.length, (s.ready e).count j :=
      @Finset.single_le_sum Nat Nat _ (fun e => (s.ready e).count j)
        (Finset.range devs.length) (fun e _ => Nat.zero_le _) d (Finset.mem_range.mpr hd)
    omega

/-- Replacing the stack of device `d` (with `d` in range). -/
theorem stackCount_set {devs : List String} (s : PState) {d : Nat}
    (hd : d < devs.length) (newl : List Nat) (j : Nat) :
    stackCount devs { s with ready := fun e => if e = d then newl else s.ready e } j
      + (s.ready d).count j = stackCount devs s j + newl.count j := by
  have h := sum_update_point devs.length
    (fun e => (s.ready e).count j)
    (fun e => ((if e = d then newl else s.ready e) : List Nat).count j) hd
    (fun e he => by simp [he])
  have h2 : (∑ e ∈ Finset.range devs.length, (s.ready e).count j)
      + ((if d = d then newl else s.ready d) : List Nat).count j
      = stackCount devs s j + newl.count j := by
    unfold stackCount
    simp
  exact h.trans h2

theorem pushNode_stackCount {devs : List String} (hD : 0 < devs.length)
    (s : PState) (dstr : String) (i j : Nat) :
    stackCount devs (pushNode devs s dstr i) j =
      stackCount devs s j + if j = i then 1 else 0 := by
  unfold pushNode stackCount
  have hd := devIndex_lt hD dstr
  have hpt : ∀ e, ((if e = devIndex devs dstr then i :: s.ready e else s.ready e) : List Nat).count j
      = (s.ready e).count j + (if e = devIndex devs dstr then (if j = i then 1 else 0) else 0) := by
    intro e
    by_cases he : e = devIndex devs dstr
    · subst he
      rw [if_pos rfl, if_pos rfl, List.count_cons]
      by_cases hj : j = i
      · simp [hj]
      · have : ¬ (i == j) = true := by simp [Ne.symm hj]
        simp [hj, this]
    · simp [he]
  rw [Finset.sum_congr rfl (fun e _ => hpt e), Finset.sum_add_distrib]
  have h3 : (∑ e ∈ Finset.range devs.length,
      (if e = devIndex devs dstr then (if j = i then 1 else 0) else 0))
      = (if j = i then 1 else 0) := by
    rw [Finset.sum_ite_eq' (Finset.range devs.length) (devIndex devs dstr)
      (fun _ => (if j = i then 1 else 0))]
    simp [Finset.mem_range.mpr hd]
  rw [h3]

theorem pushNode_mem {devs : List String} (s : PState) (dstr : String) (i d j : Nat) :
    j ∈ (pushNode devs s dstr i).ready d ↔
      (d = devIndex devs dstr ∧ j = i) ∨ j ∈ s.ready d := by
  unfold pushNode
  by_cases hd : d = devIndex devs dstr
  · subst hd
    simp [List.mem_cons]
  · simp [hd]

end GraphPart

namespace GraphPart

/-- The established invariant (no pending fanout increments). -/
def Inv0 (v : PGView) (devs : List String) (K : Nat) (s : PState) : Prop :=
  Inv v devs K (fun _ => 0) s

/-- What holds of the state while the initialization loop has processed
exactly the nodes of `P`. -/
structure InitOk (v : PGView) (devs : List String) (P : List Nat) (s : PState) : Prop where
  hpid : s.pid = 1
  hlog : s.log = []
  hcounts : ∀ d, s.counts d = 0
  hprio : ∀ j, s.prio j = 0
  hnum : ∀ j, s.numReady j =
    if IsMergeOp (v.op j) = true ∧ j ∈ P then preseedCount v j else 0
  hstack_mem : ∀ d, d < devs.length → ∀ j ∈ s.ready d,
    j ∈ P ∧ (v.inputs j).isEmpty = true ∧ j < v.n ∧ devIndex devs (v.device j) = d
  hstack_le : ∀ j, stackCount devs s j ≤ 1

theorem stackCount_nil_devs {devs : List String} (hD : devs.length = 0)
    (s : PState) (j : Nat) : stackCount devs s j = 0 := by
  unfold stackCount
  rw [hD]
  simp

end GraphPart

namespace GraphPart

theorem stackCount_eq_of_ready {devs : List String} {s t : PState}
    (h : t.ready = s.ready) (j : Nat) : stackCount devs t j = stackCount devs s j := by
  unfold stackCount
  rw [h]

theorem initStep_pid (v : PGView) (devs : List String) (s : PState) (i : Nat) :
    (initStep v devs s i).pid = s.pid := by
  unfold initStep pushNode
  by_cases h1 : (v.inputs i).isEmpty <;> by_cases h2 : IsMergeOp (v.op i) <;> simp [h1, h2]

theorem initStep_log (v : PGView) (devs : List String) (s : PState) (i : Nat) :
    (initStep v devs s i).log = s.log := by
  unfold initStep pushNode
  by_cases h1 : (v.inputs i).isEmpty <;> by_cases h2 : IsMergeOp (v.op i) <;> simp [h1, h2]

theorem initStep_counts (v : PGView) (devs : List String) (s : PState) (i : Nat) :
    (initStep v devs s i).counts = s.counts := by
  unfold initStep pushNode
  by_cases h1 : (v.inputs i).isEmpty <;> by_cases h2 : IsMergeOp (v.op i) <;> simp [h1, h2]

theorem initStep_prio (v : PGView) (devs : List String) (s : PState) (i : Nat) :
    (initStep v devs s i).prio = s.prio := by
  unfold initStep pushNode
  by_cases h1 : (v.inputs i).isEmpty <;> by_cases h2 : IsMergeOp (v.op i) <;> simp [h1, h2]

theorem initStep_numReady (v : PGView) (devs : List String) (s : PState) (i j : Nat) :
    (initStep v devs s i).numReady j =
      if IsMergeOp (v.op i) = true ∧ j = i then preseedCount v i else s.numReady j := by
  unfold initStep pushNode
  by_cases h1 : (v.inputs i).isEmpty <;> by_cases h2 : IsMergeOp (v.op i) <;>
    by_cases h3 : j = i <;> simp [h1, h2, h3]

theorem initStep_ready (v : PGView) (devs : List String) (s : PState) (i : Nat) :
    (initStep v devs s i).ready =
      if (v.inputs i).isEmpty then (pushNode devs s (v.device i) i).ready else s.ready := by
  unfold initStep pushNode
  by_cases h1 : (v.inputs i).isEmpty <;> by_cases h2 : IsMergeOp (v.op i) <;> simp [h1, h2]

end GraphPart

namespace GraphPart

/-- One initialization step preserves `InitOk`. -/
theorem initStep_ok {v : PGView} {devs : List String} {P : List Nat} {s : PState}
    {i : Nat} (hiP : i ∉ P) (hi : i < v.n) (hs : InitOk v devs P s) :
    InitOk v devs (P ++ [i]) (initStep v devs s i) := by
  have hmem : ∀ j, j ∈ P ++ [i] ↔ j ∈ P ∨ j = i := by
    intro j
    simp [List.mem_append]
  refine ⟨?_, ?_, ?_, ?_, ?_, ?_, ?_⟩
  · rw [initStep_pid]
    exact hs.hpid
  · rw [initStep_log]
    exact hs.hlog
  · intro d
    rw [initStep_counts]
    exact hs.hcounts d
  · intro j
    rw [initStep_prio]
    exact hs.hprio j
  · intro j
    rw [initStep_numReady, hs.hnum j]
    by_cases hj : j = i
    · subst hj
      have hjP : ¬ (IsMergeOp (v.op j) = true ∧ j ∈ P) := fun hc => hiP hc.2
      by_cases hM : IsMergeOp (v.op j) = true
      · simp [hM, hjP, (hmem j).mpr (Or.inr rfl)]
      · simp [hM, hjP]
    · have hiff : (IsMergeOp (v.op j) = true ∧ j ∈ P ++ [i]) ↔
          (IsMergeOp (v.op j) = true ∧ j ∈ P) := by
        rw [hmem]
        constructor
        · rintro ⟨h1, h2 | h2⟩
          · exact ⟨h1, h2⟩
          · exact absurd h2 hj
        · rintro ⟨h1, h2⟩
          exact ⟨h1, Or.inl h2⟩
      have hji : ¬ (j = i) := hj
      by_cases hc : IsMergeOp (v.op j) = true ∧ j ∈ P
      · simp [hji, hc, hiff.mpr hc]
      · simp [hji, hc, fun hcc => hc (hiff.mp hcc)]
  · intro d hd j hj
    have hr := congrFun (initStep_ready v devs s i) d
    rw [hr] at hj
    by_cases hc : (v.inputs i).isEmpty
    · rw [if_pos hc] at hj
      rcases (pushNode_mem s (v.device i) i d j).mp hj with ⟨hde, hje⟩ | hj
      · subst hje
        exact ⟨(hmem j).mpr (Or.inr rfl), hc, hi, hde.symm⟩
      · have h0 := hs.hstack_mem d hd j hj
        exact ⟨(hmem j).mpr (Or.inl h0.1), h0.2.1, h0.2.2.1, h0.2.2.2⟩
    · rw [if_neg hc] at hj
      have h0 := hs.hstack_mem d hd j hj
      exact ⟨(hmem j).mpr (Or.inl h0.1), h0.2.1, h0.2.2.1, h0.2.2.2⟩
  · intro j
    by_cases hc : (v.inputs i).isEmpty
    · have hr : (initStep v devs s i).ready = (pushNode devs s (v.device i) i).ready := by
        rw [initStep_ready, if_pos hc]
      rw [stackCount_eq_of_ready hr]
      by_cases hD : 0 < devs.length
      · rw [pushNode_stackCount hD]
        by_cases hj : j = i
        · subst hj
          have hz : stackCount devs s j = 0 := by
            by_contra hcc
            rcases (stackCount_pos_iff devs s j).mp (Nat.pos_of_ne_zero hcc) with ⟨d, hd, hmemd⟩
            exact hiP (hs.hstack_mem d hd j hmemd).1
          simp [hz]
        · simp [hj]
          exact hs.hstack_le j
      · rw [stackCount_nil_devs (by omega)]
        exact Nat.zero_le _
    · have hr : (initStep v devs s i).ready = s.ready := by
        rw [initStep_ready, if_neg hc]
      rw [stackCount_eq_of_ready hr]
      exact hs.hstack_le j

/-- The initialization fold preserves `InitOk` along a duplicate-free list. -/
theorem initFold_ok {v : PGView} {devs : List String} :
    ∀ (L P : List Nat) (s : PState), (P ++ L).Nodup → (∀ i ∈ L, i < v.n) →
      InitOk v devs P s → InitOk v devs (P ++ L) (L.foldl (initStep v devs) s)
  | [], P, s, _, _, hs => by simpa using hs
  | i :: L, P, s, hnd, hlt, hs => by
      have hndP : P.Disjoint (i :: L) := (List.nodup_append.mp hnd).2.2
      have hiP : i ∉ P := fun hc => hndP hc (List.mem_cons_self i L)
      have hstep := initStep_ok hiP (hlt i (List.mem_cons_self i L)) hs
      have hnd' : ((P ++ [i]) ++ L).Nodup := by
        rw [List.append_assoc]
        simpa using hnd
      have hrec := initFold_ok L (P ++ [i]) (initStep v devs s i) hnd'
        (fun m hm => hlt m (List.mem_cons_of_mem i hm)) hstep
      rw [List.append_assoc] at hrec
      simpa using hrec

/-- `InitOk` holds of `initState`. -/
theorem initState_ok (v : PGView) (devs : List String) :
    InitOk v devs (List.range v.n) (initState v devs) := by
  have hbase : InitOk v devs []
      { pid := 1, counts := fun _ => 0, ready := fun _ => [], numReady := fun _ => 0,
        prio := fun _ => 0, log := [] } := by
    refine ⟨rfl, rfl, fun _ => rfl, fun _ => rfl, ?_, ?_, ?_⟩
    · intro j
      simp
    · intro d _ j hj
      simp at hj
    · intro j
      unfold stackCount
      simp
  have := @initFold_ok v devs (List.range v.n) [] _
    (by simpa using List.nodup_range v.n) (fun i hi => List.mem_range.mp hi) hbase
  simpa using this

end GraphPart

namespace GraphPart

/-- The loop invariant holds on entry to the main loop. -/
theorem inv_initState (v : PGView) (devs : List String) (K : Nat) :
    Inv0 v devs K (initState v devs) := by
  have h := initState_ok v devs
  have hlogn : logNodes (initState v devs) = [] := by
    unfold logNodes
    rw [h.hlog]
    rfl
  have hmemstack : ∀ j, 0 < stackCount devs (initState v devs) j →
      (v.inputs j).isEmpty = true ∧ j < v.n := by
    intro j hj
    rcases (stackCount_pos_iff devs _ j).mp hj with ⟨d, hd, hmemd⟩
    have := h.hstack_mem d hd j hmemd
    exact ⟨this.2.1, this.2.2.1⟩
  refine ⟨?_, ?_, ?_, ?_, ?_, ?_, ?_, ?_, ?_, ?_, ?_, ?_⟩
  · rw [h.hpid]
  · rw [h.hlog]
    intro e he
    simp at he
  · intro j
    rw [hlogn]
    simpa using h.hstack_le j
  · intro j hseen
    rcases hseen with hl | hst
    · rw [hlogn] at hl
      simp at hl
    · have := (hmemstack j hst).1
      rw [List.isEmpty_iff.mp this]
      exact Nat.zero_le _
  · intro j hseen
    rcases hseen with hl | hst
    · rw [hlogn] at hl
      simp at hl
    · exact (hmemstack j hst).2
  · intro d hd j hj
    exact (h.hstack_mem d hd j hj).2.2.2
  · intro j hjn
    rw [h.hnum j]
    unfold readySum preseedEff
    rw [hlogn]
    by_cases hM : IsMergeOp (v.op j) = true
    · simp [hM, List.mem_range.mpr hjn]
    · simp [hM]
  · rw [h.hlog]
    intro e he
    simp at he
  · intro j _
    exact h.hprio j
  · intro d
    rw [h.hcounts d]
    unfold countLogIdx
    rw [h.hlog]
    simp
  · intro d w
    unfold countLogIdx
    rw [h.hlog]
    simp
  · rw [h.hlog]
    intro e he
    simp at he

/-- Bumping `num_ready_inputs[m]` transfers one pending increment. -/
theorem bumpReady_inv {v : PGView} {devs : List String} {K : Nat}
    {pend pend2 : Nat → Nat} {s : PState} {m : Nat} (hm : m < v.n)
    (hp1 : pend m = pend2 m + 1) (hp2 : ∀ j, j ≠ m → pend j = pend2 j)
    (h : Inv v devs K pend s) :
    Inv v devs K pend2
      { s with numReady := fun j => if j = m then s.numReady m + 1 else s.numReady j } := by
  refine ⟨h.pid_pos, h.log_waves, h.nodes_once, ?_, h.nodes_lt, h.stack_dev, ?_,
    h.prio_log, h.prio_notlog, h.counts_eq, h.counts_le, h.mono⟩
  · intro j hseen
    have := h.seen_ready j hseen
    by_cases hj : j = m
    · subst hj
      simp
      omega
    · simpa [hj] using this
  · intro j hjn
    have hq := h.numReady_eq j hjn
    by_cases hj : j = m
    · subst hj
      show (if j = j then s.numReady j + 1 else s.numReady j) + pend2 j =
        preseedEff v j + readySum v s j
      rw [if_pos rfl]
      rw [hp1] at hq
      omega
    · show (if j = m then s.numReady m + 1 else s.numReady j) + pend2 j =
        preseedEff v j + readySum v s j
      rw [if_neg hj, ← hp2 j hj]
      exact hq

/-- Pushing a newly ready, unseen node preserves the invariant. -/
theorem pushNode_inv {v : PGView} {devs : List String} {K : Nat}
    {pend : Nat → Nat} {s : PState} {m : Nat} (hm : m < v.n)
    (hns : ¬ Seen devs s m) (hrm : (v.inputs m).length ≤ s.numReady m)
    (h : Inv v devs K pend s) :
    Inv v devs K pend (pushNode devs s (v.device m) m) := by
  have hready0 : ∀ j, (pushNode devs s (v.device m) m).numReady j = s.numReady j := by
    intro j
    unfold pushNode
    rfl
  have hlog0 : (pushNode devs s (v.device m) m).log = s.log := by
    unfold pushNode
    rfl
  have hlogn : logNodes (pushNode devs s (v.device m) m) = logNodes s := by
    unfold logNodes
    rw [hlog0]
  have hsc : ∀ j, j ≠ m → stackCount devs (pushNode devs s (v.device m) m) j =
      stackCount devs s j := by
    intro j hj
    by_cases hD : 0 < devs.length
    · rw [pushNode_stackCount hD s (v.device m) m j, if_neg hj]
      omega
    · rw [stackCount_nil_devs (by omega), stackCount_nil_devs (by omega)]
  have hscm : stackCount devs (pushNode devs s (v.device m) m) m ≤
      stackCount devs s m + 1 := by
    by_cases hD : 0 < devs.length
    · rw [pushNode_stackCount hD s (v.device m) m m, if_pos rfl]
    · rw [stackCount_nil_devs (by omega)]
      exact Nat.zero_le _
  have hnsm : m ∉ logNodes s ∧ stackCount devs s m = 0 := by
    constructor
    · intro hc
      exact hns (Or.inl hc)
    · by_contra hc
      exact hns (Or.inr (Nat.pos_of_ne_zero hc))
  refine ⟨h.pid_pos, ?_, ?_, ?_, ?_, ?_, ?_, ?_, ?_, ?_, h.counts_le, ?_⟩
  · rw [hlog0]
    exact h.log_waves
  · intro j
    rw [hlogn]
    by_cases hj : j = m
    · subst hj
      have h1 := List.count_eq_zero.mpr hnsm.1
      have h2 := hnsm.2
      rw [h1]
      omega
    · rw [hsc j hj]
      exact h.nodes_once j
  · intro j hseen
    rw [hready0]
    by_cases hj : j = m
    · subst hj
      exact hrm
    · apply h.seen_ready j
      rcases hseen with hl | hst
      · rw [hlogn] at hl
        exact Or.inl hl
      · rw [hsc j hj] at hst
        exact Or.inr hst
  · intro j hseen
    rcases hseen with hl | hst
    · rw [hlogn] at hl
      exact h.nodes_lt j (Or.inl hl)
    · by_cases hj : j = m
      · subst hj
        exact hm
      · rw [hsc j hj] at hst
        exact h.nodes_lt j (Or.inr hst)
  · intro d hd j hj
    rcases (pushNode_mem s (v.device m) m d j).mp hj with ⟨hde, hje⟩ | hj
    · subst hje
      exact hde.symm
    · exact h.stack_dev d hd j hj
  · intro j hjn
    rw [hready0]
    unfold readySum
    rw [hlogn]
    exact h.numReady_eq j hjn
  · intro e he
    rw [hlog0] at he
    show s.prio e.1 = e.2
    exact h.prio_log e he
  · intro j hj
    rw [hlogn] at hj
    exact h.prio_notlog j hj
  · intro d
    show s.counts d = _
    unfold countLogIdx
    rw [hlog0]
    exact h.counts_eq d
  · intro e he
    rw [hlog0] at he
    intro hpe u hu
    have := h.mono e he hpe u hu
    rw [hlog0]
    exact this

end GraphPart

namespace GraphPart

/-- One fanout-processing step preserves the invariant, consuming one
pending increment for `m`. -/
theorem procFanout_inv {v : PGView} {devs : List String} {K : Nat}
    {pend pend2 : Nat → Nat} {s : PState} {m : Nat} (hm : m < v.n)
    (hp1 : pend m = pend2 m + 1) (hp2 : ∀ j, j ≠ m → pend j = pend2 j)
    (h : Inv v devs K pend s) :
    Inv v devs K pend2 (procFanout v devs s m) := by
  unfold procFanout
  have hbump := @bumpReady_inv v devs K _ _ _ _ hm hp1 hp2 h
  by_cases hcross : s.numReady m + 1 = (v.inputs m).length
  · rw [if_pos hcross]
    have hns : ¬ Seen devs s m := by
      intro hc
      have := h.seen_ready m hc
      omega
    have hns2 : ¬ Seen devs
        { s with numReady := fun j => if j = m then s.numReady m + 1 else s.numReady j } m := hns
    apply pushNode_inv hm hns2 _ hbump
    show (v.inputs m).length ≤ (if m = m then s.numReady m + 1 else s.numReady m)
    rw [if_pos rfl]
    omega
  · rw [if_neg hcross]
    exact hbump

/-- The fanout loop of `execNode` discharges all pending increments. -/
theorem foldProc_inv {v : PGView} {devs : List String} {K : Nat} :
    ∀ (L : List Nat) (pend2 : Nat → Nat) (s : PState), (∀ m ∈ L, m < v.n) →
      Inv v devs K (fun j => pend2 j + L.count j) s →
      Inv v devs K pend2 (L.foldl (procFanout v devs) s)
  | [], pend2, s, _, h => by
      refine ⟨h.pid_pos, h.log_waves, h.nodes_once, h.seen_ready, h.nodes_lt, h.stack_dev,
        ?_, h.prio_log, h.prio_notlog, h.counts_eq, h.counts_le, h.mono⟩
      intro j hjn
      have := h.numReady_eq j hjn
      simpa using this
  | m :: L, pend2, s, hL, h => by
      have hstep := @procFanout_inv v devs K
        (fun j => pend2 j + (m :: L).count j)
        (fun j => pend2 j + L.count j) s m
        (hL m (List.mem_cons_self m L))
        (by
          show pend2 m + List.count m (m :: L) = pend2 m + List.count m L + 1
          simp [List.count_cons]
          omega)
        (by
          intro j hj
          show pend2 j + List.count j (m :: L) = pend2 j + List.count j L
          simp [List.count_cons, hj])
        h
      exact foldProc_inv L pend2 (procFanout v devs s m)
        (fun x hx => hL x (List.mem_cons_of_mem m hx)) hstep

end GraphPart

namespace GraphPart

/-- The pending function of the invariant is only used pointwise. -/
theorem inv_pending_congr {v : PGView} {devs : List String} {K : Nat}
    {pend pend2 : Nat → Nat} {s : PState} (hp : ∀ j, pend j = pend2 j)
    (h : Inv v devs K pend s) : Inv v devs K pend2 s := by
  refine ⟨h.pid_pos, h.log_waves, h.nodes_once, h.seen_ready, h.nodes_lt, h.stack_dev,
    ?_, h.prio_log, h.prio_notlog, h.counts_eq, h.counts_le, h.mono⟩
  intro j hjn
  rw [← hp j]
  exact h.numReady_eq j hjn

/-- `execMark` preserves the invariant, with all the increments of the
fanout loop pending. -/
theorem execMark_inv {v : PGView} {devs : List String} {K : Nat}
    {d i : Nat} {rest : List Nat} {s : PState}
    (hv : VOk v) (hd : d < devs.length) (hready : s.ready d = i :: rest)
    (hcnt : s.counts d < K) (h : Inv0 v devs K s) :
    Inv v devs K (fun j => (v.outputs i).count j) (execMark d i rest s) := by
  have himem : i ∈ s.ready d := by
    rw [hready]
    exact List.mem_cons_self i rest
  have hiSeen : Seen devs s i :=
    Or.inr ((stackCount_pos_iff devs s i).mpr ⟨d, hd, himem⟩)
  have hin : i < v.n := h.nodes_lt i hiSeen
  have hstpos : 0 < stackCount devs s i := (stackCount_pos_iff devs s i).mpr ⟨d, hd, himem⟩
  have hlogcount : (logNodes s).count i = 0 := by
    have := h.nodes_once i
    omega
  have hinotlog : i ∉ logNodes s := List.count_eq_zero.mp hlogcount
  have hdevi : devIndex devs (v.device i) = d := h.stack_dev d hd i himem
  have hlogB : logNodes (execMark d i rest s) = logNodes s ++ [i] := by
    unfold logNodes execMark
    simp
  have hreadyB : (execMark d i rest s).numReady = s.numReady := rfl
  have hsc : ∀ j, stackCount devs (execMark d i rest s) j + (s.ready d).count j
      = stackCount devs s j + rest.count j := by
    intro j
    have h1 := @stackCount_set devs s d hd rest j
    have h2 : stackCount devs (execMark d i rest s) j =
        stackCount devs { s with ready := fun e => if e = d then rest else s.ready e } j :=
      stackCount_eq_of_ready rfl j
    rw [h2]
    exact h1
  have hsc1 : ∀ j, j ≠ i → stackCount devs (execMark d i rest s) j = stackCount devs s j := by
    intro j hj
    have := hsc j
    rw [hready, List.count_cons] at this
    have hne : ¬ (i == j) = true := by simp [Ne.symm hj]
    simp [hne] at this
    omega
  have hsci : stackCount devs (execMark d i rest s) i + 1 = stackCount devs s i := by
    have := hsc i
    rw [hready, List.count_cons] at this
    simp at this
    omega
  have hrsB : ∀ j, readySum v (execMark d i rest s) j =
      readySum v s j + (v.outputs i).count j := by
    intro j
    unfold readySum
    rw [hlogB, List.map_append, List.sum_append]
    simp
  have hclB : ∀ e w, countLogIdx v devs (execMark d i rest s) e w =
      countLogIdx v devs s e w + (if d = e ∧ s.pid = w then 1 else 0) := by
    intro e w
    unfold countLogIdx execMark
    simp only [List.countP_append]
    rw [List.countP_cons]
    simp only [List.countP_nil]
    by_cases h1 : d = e ∧ s.pid = w
    · simp [hdevi, h1.1, h1.2]
    · have : ¬ (devIndex devs (v.device i) = e ∧ s.pid = w) := by
        rw [hdevi]
        exact h1
      simp [this, h1]
  refine ⟨h.pid_pos, ?_, ?_, ?_, ?_, ?_, ?_, ?_, ?_, ?_, ?_, ?_⟩
  · intro e he
    show 1 ≤ e.2 ∧ e.2 ≤ s.pid
    rcases List.mem_append.mp he with he | he
    · exact h.log_waves e he
    · simp at he
      subst he
      exact ⟨h.pid_pos, Nat.le_refl _⟩
  · intro j
    rw [hlogB, List.count_append]
    by_cases hj : j = i
    · subst hj
      have hc1 : List.count j [j] = 1 := by simp
      rw [hc1, hlogcount]
      have h1 := h.nodes_once j
      have h2 := hsci
      omega
    · have hc0 : List.count j [i] = 0 := by simp [hj]
      rw [hc0, hsc1 j hj]
      have := h.nodes_once j
      omega
  · intro j hseen
    rw [hreadyB]
    apply h.seen_ready j
    by_cases hj : j = i
    · subst hj
      exact hiSeen
    · rcases hseen with hl | hst
      · rw [hlogB] at hl
        rcases List.mem_append.mp hl with hl | hl
        · exact Or.inl hl
        · simp at hl
          exact absurd hl hj
      · rw [hsc1 j hj] at hst
        exact Or.inr hst
  · intro j hseen
    by_cases hj : j = i
    · subst hj
      exact hin
    · apply h.nodes_lt j
      rcases hseen with hl | hst
      · rw [hlogB] at hl
        rcases List.mem_append.mp hl with hl | hl
        · exact Or.inl hl
        · simp at hl
          exact absurd hl hj
      · rw [hsc1 j hj] at hst
        exact Or.inr hst
  · intro e he j hj
    show devIndex devs (v.device j) = e
    have hre : (execMark d i rest s).ready e = if e = d then rest else s.ready e := rfl
    rw [hre] at hj
    by_cases hde : e = d
    · rw [if_pos hde] at hj
      have hj2 : j ∈ s.ready d := by
        rw [hready]
        exact List.mem_cons_of_mem i hj
      rw [hde]
      exact h.stack_dev d hd j hj2
    · rw [if_neg hde] at hj
      exact h.stack_dev e he j hj
  · intro j hjn
    rw [hreadyB, hrsB j]
    have := h.numReady_eq j hjn
    omega
  · intro e he
    rcases List.mem_append.mp he with he | he
    · have he1 : e.1 ≠ i := by
        intro hc
        exact hinotlog (hc ▸ List.mem_map_of_mem Prod.fst he)
      show (if e.1 = i then s.pid else s.prio e.1) = e.2
      rw [if_neg he1]
      exact h.prio_log e he
    · simp at he
      subst he
      show (if (i, s.pid).1 = i then s.pid else s.prio (i, s.pid).1) = (i, s.pid).2
      simp
  · intro j hj
    rw [hlogB] at hj
    have hj1 : j ∉ logNodes s := fun hc => hj (List.mem_append.mpr (Or.inl hc))
    have hj2 : j ≠ i := by
      intro hc
      exact hj (List.mem_append.mpr (Or.inr (by simp [hc])))
    show (if j = i then s.pid else s.prio j) = 0
    rw [if_neg hj2]
    exact h.prio_notlog j hj1
  · intro e
    have hpidB : (execMark d i rest s).pid = s.pid := rfl
    rw [hpidB, hclB e s.pid]
    show (if e = d then s.counts e + 1 else s.counts e) = _
    by_cases hde : e = d
    · rw [if_pos hde, hde]
      simp [h.counts_eq d]
    · rw [if_neg hde]
      have hne : ¬ (d = e ∧ s.pid = s.pid) := fun hc => hde hc.1.symm
      simp [hne, h.counts_eq e]
      exact fun hc => hde hc.symm
  · intro e w
    rw [hclB e w]
    by_cases h1 : d = e ∧ s.pid = w
    · rw [if_pos h1, ← h1.1, ← h1.2]
      have := h.counts_eq d
      omega
    · rw [if_neg h1]
      simpa using h.counts_le e w
  · intro e he hpre u hu
    rcases List.mem_append.mp he with he | he
    · rcases h.mono e he hpre u hu with ⟨w', hw1, hw2⟩
      exact ⟨w', List.mem_append.mpr (Or.inl hw1), hw2⟩
    · simp at he
      subst he
      have hpre2 : preseedEff v i = 0 := hpre
      -- every input of `i` is already executed
      have hlen : (v.inputs i).length ≤ s.numReady i := h.seen_ready i hiSeen
      have hnum := h.numReady_eq i hin
      have hnodup : (logNodes s).Nodup := by
        rw [List.nodup_iff_count_le_one]
        intro a
        have := h.nodes_once a
        omega
      have hmapc : (logNodes s).map (fun u => (v.outputs u).count i)
          = (logNodes s).map (fun u => (v.inputs i).count u) := by
        apply List.map_congr_left
        intro a ha
        exact hv.hsym a (h.nodes_lt a (Or.inl ha)) i hin
      have hrs : readySum v s i = (v.inputs i).countP (fun a => decide (a ∈ logNodes s)) := by
        unfold readySum
        rw [hmapc, ← countP_mem_sum hnodup]
      have hcle : (v.inputs i).countP (fun a => decide (a ∈ logNodes s))
          ≤ (v.inputs i).length := List.countP_le_length _
      have hall : ∀ a ∈ v.inputs i, a ∈ logNodes s := by
        have heq : (v.inputs i).countP (fun a => decide (a ∈ logNodes s))
            = (v.inputs i).length := by
          rw [hrs] at hnum
          rw [hpre2] at hnum
          omega
        intro a ha
        have := List.countP_eq_length.mp heq a ha
        simpa using this
      rcases List.mem_map.mp (hall u hu) with ⟨e', he', hfst⟩
      rcases e' with ⟨a, b⟩
      have hau : a = u := hfst
      subst hau
      exact ⟨b, List.mem_append.mpr (Or.inl he'), (h.log_waves _ he').2⟩

end GraphPart

namespace GraphPart

theorem execNode_inv {v : PGView} {devs : List String} {K : Nat}
    {d i : Nat} {rest : List Nat} {s : PState}
    (hv : VOk v) (hd : d < devs.length) (hready : s.ready d = i :: rest)
    (hcnt : s.counts d < K) (h : Inv0 v devs K s) :
    Inv0 v devs K (execNode v devs d i rest s) := by
  unfold execNode
  have hmark := execMark_inv hv hd hready hcnt h
  have hin : i < v.n := by
    apply h.nodes_lt i
    exact Or.inr ((stackCount_pos_iff devs s i).mpr
      ⟨d, hd, by rw [hready]; exact List.mem_cons_self i rest⟩)
  apply foldProc_inv (v.outputs i) (fun _ => 0) (execMark d i rest s)
    (fun m hm => hv.hout i hin m hm)
  exact inv_pending_congr (fun j => by omega) hmark

/-- Closing the current wave preserves the invariant. -/
theorem closeWave_inv {v : PGView} {devs : List String} {K : Nat} {s : PState}
    (h : Inv0 v devs K s) :
    Inv0 v devs K { s with pid := s.pid + 1, counts := fun _ => 0 } := by
  refine ⟨?_, ?_, h.nodes_once, h.seen_ready, h.nodes_lt, h.stack_dev, h.numReady_eq,
    h.prio_log, h.prio_notlog, ?_, h.counts_le, h.mono⟩
  · show 1 ≤ s.pid + 1
    omega
  · intro e he
    have := h.log_waves e he
    show 1 ≤ e.2 ∧ e.2 ≤ s.pid + 1
    omega
  · intro d
    show 0 = countLogIdx v devs s d (s.pid + 1)
    unfold countLogIdx
    symm
    rw [List.countP_eq_zero]
    intro e he
    have := (h.log_waves e he).2
    simp
    intro _
    omega

/-- `closeWave` keeps the device counter strictly below the capacity. -/
theorem closeWave_counts_lt {v : PGView} {devs : List String} {K : Nat} {d : Nat}
    (hK : 1 ≤ K) {s : PState} (h : Inv0 v devs K s) :
    (closeWave K d s).counts d < K := by
  unfold closeWave
  by_cases hc : s.counts d = K
  · rw [if_pos hc]
    show (0:Nat) < K
    omega
  · rw [if_neg hc]
    have h1 := h.counts_eq d
    have h2 := h.counts_le d s.pid
    omega

theorem closeWave_inv0 {v : PGView} {devs : List String} {K : Nat} {d : Nat}
    {s : PState} (h : Inv0 v devs K s) : Inv0 v devs K (closeWave K d s) := by
  unfold closeWave
  by_cases hc : s.counts d = K
  · rw [if_pos hc]
    exact closeWave_inv h
  · rw [if_neg hc]
    exact h

theorem stepDev_inv {v : PGView} {devs : List String} {K : Nat}
    (hv : VOk v) (hK : 1 ≤ K) {acc : PState × Bool} {d : Nat}
    (hd : d < devs.length) (h : Inv0 v devs K acc.1) :
    Inv0 v devs K (stepDev v devs K acc d).1 := by
  have hcl := @closeWave_inv0 v devs K d _ h
  have hcnt := @closeWave_counts_lt v devs K d hK _ h
  unfold stepDev
  cases hready : (closeWave K d acc.1).ready d with
  | nil => exact hcl
  | cons i rest => exact execNode_inv hv hd hready hcnt hcl

theorem foldStep_inv {v : PGView} {devs : List String} {K : Nat}
    (hv : VOk v) (hK : 1 ≤ K) :
    ∀ (L : List Nat) (acc : PState × Bool), (∀ d ∈ L, d < devs.length) →
      Inv0 v devs K acc.1 → Inv0 v devs K ((L.foldl (stepDev v devs K) acc)).1
  | [], acc, _, h => h
  | d :: L, acc, hL, h => by
      have h1 := stepDev_inv hv hK (hL d (List.mem_cons_self d L)) h
      exact foldStep_inv hv hK L (stepDev v devs K acc d)
        (fun e he => hL e (List.mem_cons_of_mem d he)) h1

theorem passAll_inv {v : PGView} {devs : List String} {K : Nat}
    (hv : VOk v) (hK : 1 ≤ K) {s : PState} (h : Inv0 v devs K s) :
    Inv0 v devs K (passAll v devs K s).1 := by
  unfold passAll
  exact foldStep_inv hv hK (List.range devs.length) (s, true)
    (fun d hd => List.mem_range.mp hd) h

theorem runLoop_inv {v : PGView} {devs : List String} {K : Nat}
    (hv : VOk v) (hK : 1 ≤ K) :
    ∀ (fuel : Nat) (s : PState), Inv0 v devs K s →
      Inv0 v devs K (runLoop v devs K fuel s)
  | 0, s, h => h
  | fuel + 1, s, h => by
      unfold runLoop
      have h1 := passAll_inv hv hK h
      by_cases hr : (passAll v devs K s).2
      · simpa [hr] using h1
      · simpa [hr] using runLoop_inv hv hK fuel (passAll v devs K s).1 h1

/-- The invariant holds of the final state of `PartitionGraph`. -/
theorem core_inv {v : PGView} {devs : List String} {K : Nat}
    (hv : VOk v) (hK : 1 ≤ K) :
    Inv0 v devs K (PartitionGraphCore v devs K) :=
  runLoop_inv hv hK (v.n + 1) (initState v devs) (inv_initState v devs K)

end GraphPart

namespace GraphPart

theorem length_le_sum_map {f : Nat → Nat} :
    ∀ {l : List Nat}, (∀ x ∈ l, 1 ≤ f x) → l.length ≤ (l.map f).sum
  | [], _ => Nat.le_refl 0
  | x :: l, h => by
      have h1 := h x (List.mem_cons_self x l)
      have h2 := @length_le_sum_map f l (fun y hy => h y (List.mem_cons_of_mem x hy))
      simp only [List.length_cons, List.map_cons, List.sum_cons]
      omega

/-- C3 (wave capacity), stated for an arbitrary wave capacity `K`:
`PartitionGraphCore v devs K` assigns priority `w` to at most `K` nodes of
any given device. -/
theorem PartitionGraph_wave_capacity (v : PGView) (devs : List String) (K : Nat)
    (hK : 1 ≤ K) (hv : VOk v) (hcover : ∀ i, i < v.n → v.device i ∈ devs)
    (dev : String) (w : Nat) (hw : 1 ≤ w) :
    (List.range v.n).countP (fun i =>
      decide ((PartitionGraphCore v devs K).prio i = w ∧ v.device i = dev)) ≤ K := by
  set s := PartitionGraphCore v devs K with hs
  have h := @core_inv v devs K hv hK
  rw [← hs] at h
  by_cases hdev : dev ∈ devs
  · set SL := (List.range v.n).filter
      (fun i => decide (s.prio i = w ∧ v.device i = dev)) with hSL
    rw [List.countP_eq_length_filter, ← hSL]
    have hSLnd : SL.Nodup := (List.nodup_range v.n).filter _
    have hSLmem : ∀ i ∈ SL, s.prio i = w ∧ v.device i = dev ∧ i ∈ logNodes s := by
      intro i hi
      rw [hSL, List.mem_filter] at hi
      have hp : s.prio i = w ∧ v.device i = dev := by simpa using hi.2
      refine ⟨hp.1, hp.2, ?_⟩
      by_contra hc
      have := h.prio_notlog i hc
      omega
    have hstep1 : SL.length ≤ (logNodes s).countP (fun a => decide (a ∈ SL)) := by
      rw [countP_mem_sum hSLnd]
      apply length_le_sum_map
      intro x hx
      exact List.count_pos_iff.mpr (hSLmem x hx).2.2
    have hstep2 : (logNodes s).countP (fun a => decide (a ∈ SL)) ≤
        countLogIdx v devs s (devIndex devs dev) w := by
      unfold logNodes countLogIdx
      rw [List.countP_map]
      apply List.countP_mono_left
      intro e he hme
      have heSL : e.1 ∈ SL := by simpa using hme
      have hp := hSLmem e.1 heSL
      have hw2 : e.2 = w := by
        have := h.prio_log e he
        rw [this] at hp
        exact hp.1
      simp [hp.2.1, hw2]
    have hstep3 := h.counts_le (devIndex devs dev) w
    omega
  · have hz : (List.range v.n).countP
        (fun i => decide (s.prio i = w ∧ v.device i = dev)) = 0 := by
      rw [List.countP_eq_zero]
      intro i hi
      simp only [decide_eq_true_eq, not_and]
      intro _ hdi
      exact absurd (hdi ▸ hcover i (List.mem_range.mp hi)) hdev
    omega

/-- Amended C2 (priority monotonicity): for a data edge `u → v` where `v` is
not a `Merge` node with a `NextIteration` data input (`preseedEff v = 0`),
and `v` was scheduled, `priority(u) ≤ priority(v)`. -/
theorem PartitionGraph_priority_monotone (v : PGView) (devs : List String) (K : Nat)
    (hK : 1 ≤ K) (hv : VOk v) (u i : Nat) (hedge : u ∈ v.inputs i)
    (hexc : preseedEff v i = 0)
    (hassigned : (PartitionGraphCore v devs K).prio i ≠ 0) :
    (PartitionGraphCore v devs K).prio u ≤ (PartitionGraphCore v devs K).prio i := by
  set s := PartitionGraphCore v devs K with hs
  have h := @core_inv v devs K hv hK
  rw [← hs] at h
  have hilog : i ∈ logNodes s := by
    by_contra hc
    exact hassigned (h.prio_notlog i hc)
  rcases List.mem_map.mp hilog with ⟨e, he, hfst⟩
  rcases e with ⟨a, w⟩
  have hau : a = i := hfst
  subst hau
  rcases h.mono (a, w) he hexc u hedge with ⟨w', hw'mem, hw'le⟩
  have h1 : s.prio u = w' := h.prio_log (u, w') hw'mem
  have h2 : s.prio a = w := h.prio_log (a, w) he
  omega

/-- The graph of the C2 counterexample: node 2 is a `NextIteration` source
feeding the `Merge` node 3, whose other data input is node 1 (fed by the
source node 0).  Everything lives on one device. -/
def cxView : PGView where
  n := 4
  op := fun i => if i = 2 then "NextIteration" else if i = 3 then "Merge" else "Nop"
  device := fun _ => "gpu0"
  inputs := fun i => if i = 1 then [0] else if i = 3 then [1, 2] else []
  outputs := fun i => if i = 0 then [1] else if i = 1 then [3] else if i = 2 then [3] else []

/-- C2 (counterexample): on `cxView` with `K = 1`, the data edge `1 → 3` is
not loop feedback (its source is not a `NextIteration` node), both endpoints
are on the same device, yet `priority(1) = 4 > 2 = priority(3)`: the `Merge`
preseeding lets node 3 schedule before its forward input when the
`NextIteration` producer is executed first. -/
theorem PartitionGraph_priority_monotone_cx :
    1 ∈ cxView.inputs 3 ∧
    IsNextIterationOp (cxView.op 1) = false ∧
    IsMergeOp (cxView.op 3) = true ∧
    cxView.device 1 = cxView.device 3 ∧
    (PartitionGraphCore cxView ["gpu0"] 1).prio 3 = 2 ∧
    (PartitionGraphCore cxView ["gpu0"] 1).prio 1 = 4 ∧
    ¬ ((PartitionGraphCore cxView ["gpu0"] 1).prio 1 ≤
        (PartitionGraphCore cxView ["gpu0"] 1).prio 3) := by
  decide

/-- A two-node chain `0 → 1` on one device, used as a concrete witness. -/
def chainView : PGView where
  n := 2
  op := fun _ => "Nop"
  device := fun _ => "d"
  inputs := fun i => if i = 1 then [0] else []
  outputs := fun i => if i = 0 then [1] else []

theorem chainView_vok : VOk chainView := by
  refine ⟨?_, ?_, ?_⟩ <;> decide

/-- Witness for the amended C2 on the concrete chain. -/
theorem PartitionGraph_priority_monotone_witness :
    (PartitionGraphCore chainView ["d"] 1).prio 0 ≤
      (PartitionGraphCore chainView ["d"] 1).prio 1 :=
  PartitionGraph_priority_monotone chainView ["d"] 1 (by decide)
    ⟨by decide, by decide, by decide⟩ 0 1 (by decide) (by decide) (by decide)

/-- Witness for C3 on the concrete chain. -/
theorem PartitionGraph_wave_capacity_witness :
    (List.range chainView.n).countP (fun i =>
      decide ((PartitionGraphCore chainView ["d"] 1).prio i = 1 ∧
        chainView.device i = "d")) ≤ 1 :=
  PartitionGraph_wave_capacity chainView ["d"] 1 (by decide)
    ⟨by decide, by decide, by decide⟩ (by decide) "d" 1 (by decide)

/-- A process environment defining only `KPART`. -/
def envKPart (val : String) : String → Option String :=
  fun name => if name = "KPART" then some val else none

/-- C9 (environment interference): `PartitionGraph` reads the wave capacity
from the `KPART` environment variable, so two runs on identical
configuration but different environments assign different priorities, and a
run without `KPART` dereferences a null pointer.  This contradicts the
spec's "no environment-driven runtime behavior". -/
theorem PartitionGraph_env_dependent :
    (PartitionGraph (envKPart "1") chainView ["d"]).map (fun st => st.prio 1) = some 2 ∧
    (PartitionGraph (envKPart "2") chainView ["d"]).map (fun st => st.prio 1) = some 1 ∧
    (PartitionGraph (fun _ => none) chainView ["d"]).isNone = true := by
  decide

end GraphPart

namespace GraphRw

/-! ## Part B: swap planning and rewriting (`IsSwappable`, `SwapTensors`,
`AddSwapNodesForOneNode`)

The rewriter works on the protobuf graph: nodes with string names, string
input references (`"producer:port"`, `"producer"`, or control `"^producer"`),
an `int32` priority field and an attribute map.  Node pointers (`NodeDef*`)
are modelled as indices into the node list; `graph->add_node()` appends, and
`RepeatedPtrField` keeps existing pointers (indices) stable. -/

/-- The fragment of `AttrValue` the rewriter uses: a string list
(`mutable_list()->add_s`) or a `DataType` (`set_type`).  `DataType` values
are opaque numeric codes of the framework. -/
inductive AttrValue where
  | strList : List String → AttrValue
  | dtype : Nat → AttrValue
deriving DecidableEq, Repr

structure NodeDef where
  name : String
  op : String
  device : String
  input : List String
  priority : Int
  attr : List (String × AttrValue)
deriving DecidableEq, Repr

/-- `GraphDef`: the node list. -/
abbrev GraphDef := List NodeDef

/-- One decimal digit. -/
def digitChar (d : Nat) : Char :=
  match d % 10 with
  | 0 => '0'
  | 1 => '1'
  | 2 => '2'
  | 3 => '3'
  | 4 => '4'
  | 5 => '5'
  | 6 => '6'
  | 7 => '7'
  | 8 => '8'
  | _ => '9'

/-- The decimal digits of `n`, most significant first (fuel-indexed). -/
def natChars : Nat → Nat → List Char
  | 0, _ => []
  | fuel + 1, n =>
      if n < 10 then [digitChar n] else natChars fuel (n / 10) ++ [digitChar (n % 10)]

/-- Decimal rendering of a `Nat` (what `strings::StrCat` prints). -/
def natToStr (n : Nat) : String := String.mk (natChars (n + 1) n)

/-- Decimal rendering of an `int32` (ports are non-negative in practice). -/
def intToStr (i : Int) : String :=
  if i < 0 then String.mk ('-' :: natChars (i.natAbs + 1) i.natAbs) else natToStr i.toNat

def digitVal (c : Char) : Nat := c.toNat - 48

def digitsVal (cs : List Char) : Nat := cs.foldl (fun a c => a * 10 + digitVal c) 0

/-- Is this input reference a control dependency (`"^name"`)? -/
def isControlRef (r : String) : Bool :=
  match r.data with
  | '^' :: _ => true
  | _ => false

/-- Modelled from the spec (§3, §4.1): parse a data input reference
`"producer:port"`; a reference without a trailing `:digits` suffix denotes
port 0 of the named node. -/
def parseRefData (cs : List Char) : List Char × Int :=
  let rev := cs.reverse
  let digs := rev.takeWhile (fun c => c.isDigit)
  let rest := rev.dropWhile (fun c => c.isDigit)
  match rest with
  | ':' :: more =>
      if digs.isEmpty then (cs, 0) else (more.reverse, (digitsVal digs.reverse : Int))
  | _ => (cs, 0)

def parseRef (r : String) : String × Int :=
  let p := parseRefData r.data
  (String.mk p.1, p.2)

/-- The data (non-control) input references of a node, in order. -/
def dataInputs (inputs : List String) : List String :=
  inputs.filter (fun r => ¬ isControlRef r)

/-- First node with the given name (`GraphView::GetNode` / name resolution
of input references). -/
def findNodeIdx (g : GraphDef) (nm : String) : Option Nat :=
  (List.range (List.length g)).find? (fun i =>
    match List.get? g i with
    | some nd => nd.name = nm
    | none => false)

def getNode (g : GraphDef) (i : Nat) : Option NodeDef := List.get? g i

/-- Modelled from the spec (§4.1): `GraphView::GetRegularFanin` on input
`slot` of node `cIdx`: the producer's output port referenced by that data
input, resolved by name. -/
def getRegularFanin (g : GraphDef) (cIdx slot : Nat) : Option (Nat × Int) := do
  let cnd ← getNode g cIdx
  let r ← List.get? cnd.input slot
  if isControlRef r then none
  else
    let p := parseRef r
    let i ← findNodeIdx g p.1
    some (i, p.2)

/-- Modelled from the spec (§4.1, §5): `GraphView::GetFanoutEdges(node,
include_control=false)`: all data edges `(srcPort, consumerIdx, consumerSlot)`
out of node `nIdx`, enumerated by consumer index and input slot. -/
def fanoutEdges (g : GraphDef) (nIdx : Nat) : List (Int × Nat × Nat) :=
  match getNode g nIdx with
  | none => []
  | some nd =>
      (List.range (List.length g)).flatMap (fun c =>
        match getNode g c with
        | none => []
        | some cnd =>
            (List.range cnd.input.length).filterMap (fun q =>
              match List.get? cnd.input q with
              | none => none
              | some r =>
                  if isControlRef r then none
                  else
                    let p := parseRef r
                    if p.1 = nd.name then some (p.2, c, q) else none))

/-- The host framework services used by the rewriter: the op registry
(`OpRegistry::Global()->LookUpOpDef`, `OutputTypeForNode`, `IsRefType`,
`IsPersistent`) and the device-name parser
(`DeviceNameUtils::ParseFullName(...).type`).  `OpDef` handles and
`DataType` codes are opaque `Nat`s. -/
structure Framework where
  lookUpOpDef : String → Option Nat
  outputTypeForNode : NodeDef → Nat → Int → Option Nat
  isRefType : Nat → Bool
  isPersistent : NodeDef → Bool
  parseDeviceType : String → String

/-- `IsSwappable(graph, output)` (the output-port overload).  The C++
recursion through `Identity`/`Reshape` fan-ins is unbounded; `fuel` models
the call stack, and `none` models divergence (a pass-through cycle) or the
`CHECK(fanin.node)` abort when input 0 cannot be resolved. -/
def IsSwappable (F : Framework) (g : GraphDef) : Nat → Nat × Int → Option Bool
  | 0, _ => none
  | fuel + 1, (nIdx, port) => do
      let nd ← getNode g nIdx
      if F.isPersistent nd then some false
      else
        match F.lookUpOpDef nd.op with
        | none => some false
        | some opDef =>
            match F.outputTypeForNode nd opDef port with
            | none => some false
            | some dtype =>
                if F.isRefType dtype then some false
                else
                  if nd.op = "Identity" ∨ nd.op = "Reshape" then
                    match getRegularFanin g nIdx 0 with
                    | none => none
                    | some (fIdx, fPort) => do
                        let fnd ← getNode g fIdx
                        if fnd.device = nd.device then
                          IsSwappable F g fuel (fIdx, fPort)
                        else some true
                  else some true

end GraphRw

namespace GraphRw

def isSwapOp (op : String) : Bool :=
  op == "_CopyFromHostToGpu" || op == "_CopyFromGpuToHost"

/-- Append use `u` under output port `p` of the
`output_port_to_uses_after_swap` map (an `unordered_map` keyed by port,
modelled as an association list in first-insertion order; `emplace_back`
appends to the vector). -/
def insertCand : List (Int × List (Nat × Nat)) → Int → Nat × Nat →
    List (Int × List (Nat × Nat))
  | [], p, u => [(p, [u])]
  | (q, us) :: rest, p, u =>
      if q = p then (q, us ++ [u]) :: rest else (q, us) :: insertCand rest p u

/-- One step of the candidate-collection loop of `SwapTensors`: skip
cross-device consumers, and register consumers more than
`partition_distance = 2` waves later under the edge's source port. -/
def candStep (g : GraphDef) (nd : NodeDef) (pid : Int)
    (acc : List (Int × List (Nat × Nat))) (e : Int × Nat × Nat) :
    List (Int × List (Nat × Nat)) :=
  match getNode g e.2.1 with
  | none => acc
  | some dst =>
      if dst.device ≠ nd.device then acc
      else if dst.priority - pid > 2 then insertCand acc e.1 (e.2.1, e.2.2)
      else acc

/-- The candidate-collection loop of `SwapTensors` for one producer. -/
def candidatesFor (g : GraphDef) (nd : NodeDef) (nIdx : Nat) (pid : Int) :
    List (Int × List (Nat × Nat)) :=
  (fanoutEdges g nIdx).foldl (candStep g nd pid) []

/-- The eligibility filter of `SwapTensors`: erase every port whose output
is not swappable.  `none` propagates a crash/divergence of `IsSwappable`. -/
def filterPorts (F : Framework) (g : GraphDef) (fuel : Nat) (nIdx : Nat) :
    List (Int × List (Nat × Nat)) → Option (List (Int × List (Nat × Nat)))
  | [] => some []
  | (p, us) :: rest => do
      let b ← IsSwappable F g fuel (nIdx, p)
      let rest2 ← filterPorts F g fuel nIdx rest
      if b then some ((p, us) :: rest2) else some rest2

/-- The planning work of `SwapTensors` for one partitioned node: skip swap
ops and non-GPU nodes, then collect and filter the port map. -/
def planForNode (F : Framework) (g : GraphDef) (fuel : Nat) (pid : Int)
    (nIdx : Nat) : Option (List (Int × List (Nat × Nat))) := do
  let nd ← getNode g nIdx
  if isSwapOp nd.op then some []
  else if F.parseDeviceType nd.device ≠ "GPU" ∧ F.parseDeviceType nd.device ≠ "gpu" then
    some []
  else filterPorts F g fuel nIdx (candidatesFor g nd nIdx pid)

/-- Accumulate `node_to_swap_map` entries for the nodes of one partition:
a node enters the plan when its filtered port map is non-empty, and
`emplace` does not overwrite an existing key. -/
def buildPlanNodes (F : Framework) (g : GraphDef) (fuel : Nat) (pid : Int) :
    List Nat → List (Nat × List (Int × List (Nat × Nat))) →
    Option (List (Nat × List (Int × List (Nat × Nat))))
  | [], acc => some acc
  | n :: ns, acc => do
      let pm ← planForNode F g fuel pid n
      let acc2 := if pm ≠ [] ∧ ¬ acc.any (fun e => e.1 == n) then acc ++ [(n, pm)] else acc
      buildPlanNodes F g fuel pid ns acc2

/-- Phase 1 of `SwapTensors`: build `node_to_swap_map` over all partitions. -/
def buildPlan (F : Framework) (g : GraphDef) (fuel : Nat) :
    List (Int × List Nat) → List (Nat × List (Int × List (Nat × Nat))) →
    Option (List (Nat × List (Int × List (Nat × Nat))))
  | [], acc => some acc
  | (pid, ns) :: rest, acc => do
      let acc2 ← buildPlanNodes F g fuel pid ns acc
      buildPlan F g fuel rest acc2

/-- Apply `f` to the node at index `i` (mutation through a `NodeDef*`). -/
def updNode : GraphDef → Nat → (NodeDef → NodeDef) → GraphDef
  | [], _, _ => []
  | nd :: rest, 0, f => f nd :: rest
  | nd :: rest, i + 1, f => nd :: updNode rest i f

/-- `*(node->mutable_input(slot)) = s`. -/
def setInputStr (nd : NodeDef) (slot : Nat) (s : String) : NodeDef :=
  { nd with input := nd.input.set slot s }

/-- `attr_value.mutable_list()->add_s(s)`: appends to the string list
(clearing any other payload first, as the protobuf oneof does). -/
def addS (a : AttrValue) (s : String) : AttrValue :=
  match a with
  | .strList l => .strList (l ++ [s])
  | .dtype _ => .strList [s]

/-- `(*node->mutable_attr())["_class"].mutable_list()->add_s(tag)`:
get-or-create the `_class` entry and append the tag. -/
def appendClass : List (String × AttrValue) → String → List (String × AttrValue)
  | [], tag => [("_class", .strList [tag])]
  | (k, a) :: rest, tag =>
      if k = "_class" then (k, addS a tag) :: rest else (k, a) :: appendClass rest tag

/-- The priority a `GraphView::InputPort`'s node pointer reads
(`a.node->priority()`). -/
def prioAt (g : GraphDef) (c : Nat) : Int :=
  match getNode g c with
  | some nd => nd.priority
  | none => 0

/-- Insertion step of sorting the uses by consumer priority (`std::sort`
with comparator `a.node->priority() < b.node->priority()`). -/
def insertByPrio (g : GraphDef) (u : Nat × Nat) :
    List (Nat × Nat) → List (Nat × Nat)
  | [] => [u]
  | v :: rest =>
      if prioAt g u.1 < prioAt g v.1 then u :: v :: rest else v :: insertByPrio g u rest

/-- Sort the uses of one port by ascending consumer priority. -/
def sortUses (g : GraphDef) (us : List (Nat × Nat)) : List (Nat × Nat) :=
  us.foldr (fun u acc => insertByPrio g u acc) []

/-- The generated swap-in node name
`"swap_in_<tensor>_<consumer>_<port>"`. -/
def swapInNameFor (base : String) (cnd : NodeDef) (q : Nat) : String :=
  base ++ "_" ++ cnd.name ++ "_" ++ natToStr q

/-- Create one `_CopyFromHostToGpu` swap-in node for consumer slot
`(cnd, q)`: data input is the swap-out node, optional control input is the
previous consumer, priority is one wave before the consumer (clamped at 0).
Returns the extended graph and the new node's index. -/
def createSwapIn (outName coloc : String) (otype : Nat) (genDevice base : String)
    (g : GraphDef) (prevName : Option String) (cnd : NodeDef) (q : Nat) :
    GraphDef × Nat :=
  let node : NodeDef := {
    name := swapInNameFor base cnd q,
    op := "_CopyFromHostToGpu",
    device := genDevice,
    input := [outName] ++ (match prevName with
      | some nm => ["^" ++ nm]
      | none => []),
    priority := max (cnd.priority - 1) 0,
    attr := [("_class", .strList [coloc]), ("T", .dtype otype)] }
  (g ++ [node], List.length g)

/-- The consumer walk of `AddSwapNodesForOneNode` for one output port:
create or reuse a swap-in for each use in sorted order, rewiring the
consumer's input to it.  `none` models the `CHECK` failure on an unexpected
priority relation (and the null `prev_swap_in_node` dereference). -/
def processUses (outName coloc : String) (otype : Nat) (genDevice base : String) :
    List (Nat × Nat) → GraphDef → Option Nat → Option Nat → Option GraphDef
  | [], g, _, _ => some g
  | (c, q) :: rest, g, prevC, prevS => do
      let cnd ← getNode g c
      match prevC with
      | none =>
          let pr := createSwapIn outName coloc otype genDevice base g none cnd q
          let g2 := updNode pr.1 c (fun nd => setInputStr nd q (swapInNameFor base cnd q))
          processUses outName coloc otype genDevice base rest g2 (some c) (some pr.2)
      | some pIdx => do
          let pnd ← getNode g pIdx
          if pnd.priority + 1 < cnd.priority then
            let pr := createSwapIn outName coloc otype genDevice base g (some pnd.name) cnd q
            let g2 := updNode pr.1 c (fun nd => setInputStr nd q (swapInNameFor base cnd q))
            processUses outName coloc otype genDevice base rest g2 (some c) (some pr.2)
          else
            if pnd.priority = cnd.priority ∨ pnd.priority + 1 = cnd.priority then
              match prevS with
              | none => none
              | some sIdx => do
                  let snd ← getNode g sIdx
                  let g2 := updNode g c (fun nd => setInputStr nd q snd.name)
                  processUses outName coloc otype genDevice base rest g2 (some c) prevS
            else none

/-- `AddSwapNodesForOneNode` for one output port of the generator: resolve
the output type (`CHECK`), refuse reference types (`CHECK`), create the
swap-out node, tag generator and swap-out with the colocation group, sort
the uses, and walk them. -/
def processPort (F : Framework) (opDef : Nat) (genIdx : Nat) (g : GraphDef)
    (entry : Int × List (Nat × Nat)) : Option GraphDef := do
  let gen ← getNode g genIdx
  match F.outputTypeForNode gen opDef entry.1 with
  | none => none
  | some otype =>
      if F.isRefType otype then none
      else
        let tts := gen.name ++ "_" ++ intToStr entry.1
        let outName := "swap_out_" ++ tts
        let base := "swap_in_" ++ tts
        let coloc := "loc@" ++ tts
        let swapOut : NodeDef := {
          name := outName,
          op := "_CopyFromGpuToHost",
          device := gen.device,
          priority := gen.priority,
          input := [gen.name ++ ":" ++ intToStr entry.1],
          attr := [("_class", .strList [coloc]), ("T", .dtype otype)] }
        let g1 := g ++ [swapOut]
        let g2 := updNode g1 genIdx (fun nd => { nd with attr := appendClass nd.attr coloc })
        processUses outName coloc otype gen.device base (sortUses g2 entry.2) g2 none none

def processPorts (F : Framework) (opDef : Nat) (genIdx : Nat) :
    List (Int × List (Nat × Nat)) → GraphDef → Option GraphDef
  | [], g => some g
  | e :: rest, g => do
      let g2 ← processPort F opDef genIdx g e
      processPorts F opDef genIdx rest g2

/-- `AddSwapNodesForOneNode`: look up the generator's op
(`CHECK(LookUpOpDef…)`) and process every planned output port. -/
def AddSwapNodesForOneNode (F : Framework) (genIdx : Nat)
    (portMap : List (Int × List (Nat × Nat))) (g : GraphDef) : Option GraphDef := do
  let gen ← getNode g genIdx
  match F.lookUpOpDef gen.op with
  | none => none
  | some opDef => processPorts F opDef genIdx portMap g

/-- Phase 2 of `SwapTensors`: rewrite each planned node in plan order. -/
def applyPlan (F : Framework) :
    List (Nat × List (Int × List (Nat × Nat))) → GraphDef → Option GraphDef
  | [], g => some g
  | (n, pm) :: rest, g => do
      let g2 ← AddSwapNodesForOneNode F n pm g
      applyPlan F rest g2

/-- `SwapTensors(view, node_partitions, graph)`: plan, then rewrite.  The
`IsSwappable` fuel `|g| + 1` is exact: an acyclic pass-through chain visits
at most `|g|` distinct nodes, and on a cyclic chain the C++ recursion
diverges (`none`). -/
def SwapTensors (F : Framework) (parts : List (Int × List Nat)) (g : GraphDef) :
    Option GraphDef := do
  let plan ← buildPlan F g (List.length g + 1) parts []
  applyPlan F plan g

end GraphRw

namespace GraphRw

/-- Attributes with the colocation tag `_class` removed: the tag only
constrains placement, never kernel results. -/
def stripClass (attr : List (String × AttrValue)) : List (String × AttrValue) :=
  attr.filter (fun e => e.1 ≠ "_class")

/-- The semantic function of an op kind: input values to the tuple of output
port values (`none` = the op cannot execute). -/
def NodeSem (V : Type) := String → List (String × AttrValue) → List V → Option (List V)

/-- Value of one data reference, given an evaluator for node outputs. -/
def evalRefWith {V : Type} (ev : String → Option (List V)) (r : String) : Option V := do
  let p := parseRef r
  let vs ← ev p.1
  List.get? vs p.2.toNat

/-- Values of a list of data references. -/
def evalArgsWith {V : Type} (ev : String → Option (List V)) :
    List String → Option (List V)
  | [] => some []
  | r :: rs => do
      let v ← evalRefWith ev r
      let rest ← evalArgsWith ev rs
      some (v :: rest)

/-- Modelled from the spec (§8, invariant 4): the reference interpreter used
to test swap transparency.  A node's outputs are computed by its op's
semantic function on the values of its data inputs; the swap kernels
`_CopyFromGpuToHost` / `_CopyFromHostToGpu` are ideal: the identity on their
single data input.  Names are resolved to the first node carrying them. -/
def evalPort {V : Type} (sem : NodeSem V) (g : GraphDef) : Nat → String → Option (List V)
  | 0, _ => none
  | fuel + 1, nm => do
      let i ← findNodeIdx g nm
      let nd ← getNode g i
      let args ← evalArgsWith (evalPort sem g fuel) (dataInputs nd.input)
      if isSwapOp nd.op then
        match args with
        | v :: _ => some [v]
        | [] => none
      else sem nd.op nd.attr args

/-- The value carried by one data reference at the given fuel. -/
def evalRef {V : Type} (sem : NodeSem V) (g : GraphDef) (fuel : Nat) (r : String) :
    Option V :=
  evalRefWith (evalPort sem g fuel) r

/-- The tensor value arriving at input slot `q` of the node at index `c`
(`none` for control inputs and missing slots). -/
def inputValue {V : Type} (sem : NodeSem V) (g : GraphDef) (fuel : Nat) (c q : Nat) :
    Option V := do
  let nd ← getNode g c
  let r ← List.get? nd.input q
  if isControlRef r then none
  else evalRef sem g fuel r

/-- A semantic function that cannot observe the `_class` colocation tag. -/
def SemOk {V : Type} (sem : NodeSem V) : Prop :=
  ∀ op a1 a2 vs, stripClass a1 = stripClass a2 → sem op a1 vs = sem op a2 vs

end GraphRw

namespace GraphRw

/-- C5 (pass-through eligibility): on a non-persistent `Identity`/`Reshape`
output whose op and output type resolve to a non-reference type,
`IsSwappable` returns the result of `IsSwappable` on the input-0 producer
port when that producer is on the same device, and `true` otherwise;
consequently an `Identity` whose same-device input-0 source is non-swappable
is itself non-swappable.  (`fuel + 1` vs `fuel` renders the C++ recursive
call.) -/
theorem IsSwappable_passthrough (F : Framework) (g : GraphDef) (fuel : Nat)
    (nIdx : Nat) (port : Int) (nd : NodeDef)
    (hnd : getNode g nIdx = some nd)
    (hop : nd.op = "Identity" ∨ nd.op = "Reshape")
    (hpers : F.isPersistent nd = false)
    (opDef : Nat) (hlook : F.lookUpOpDef nd.op = some opDef)
    (dtype : Nat) (hty : F.outputTypeForNode nd opDef port = some dtype)
    (href : F.isRefType dtype = false)
    (fIdx : Nat) (fPort : Int) (hfan : getRegularFanin g nIdx 0 = some (fIdx, fPort))
    (fnd : NodeDef) (hfnd : getNode g fIdx = some fnd) :
    IsSwappable F g (fuel + 1) (nIdx, port) =
      (if fnd.device = nd.device then IsSwappable F g fuel (fIdx, fPort) else some true) ∧
    ((fnd.device = nd.device ∧ IsSwappable F g fuel (fIdx, fPort) = some false) →
      IsSwappable F g (fuel + 1) (nIdx, port) = some false) := by
  have hmain : IsSwappable F g (fuel + 1) (nIdx, port) =
      (if fnd.device = nd.device then IsSwappable F g fuel (fIdx, fPort) else some true) := by
    rw [IsSwappable.eq_def]
    by_cases hdev : fnd.device = nd.device <;>
      simp [hnd, hpers, hlook, hty, href, hop, hfan, hfnd, hdev]
  refine ⟨hmain, ?_⟩
  rintro ⟨hdev, hrec⟩
  rw [hmain, if_pos hdev, hrec]

end GraphRw

namespace GraphRw

/-- A concrete framework model for witnesses: every op resolves, type 1 is
not a reference type, only `VariableV2` nodes are persistent, and devices
named `gpu0` parse as GPU. -/
def Fw : Framework where
  lookUpOpDef := fun _ => some 0
  outputTypeForNode := fun _ _ _ => some 1
  isRefType := fun _ => false
  isPersistent := fun nd => nd.op == "VariableV2"
  parseDeviceType := fun d => if d = "gpu0" then "GPU" else "CPU"

/-- A persistent variable feeding a same-device `Identity`. -/
def gIdent : GraphDef :=
  [⟨"V", "VariableV2", "gpu0", [], 1, []⟩,
   ⟨"I", "Identity", "gpu0", ["V"], 1, []⟩]

/-- Witness for C5: the `Identity` over a same-device persistent variable is
not swappable. -/
theorem IsSwappable_passthrough_witness :
    IsSwappable Fw gIdent 2 (1, 0) = some false := by
  have h := IsSwappable_passthrough Fw gIdent 1 1 0
    ⟨"I", "Identity", "gpu0", ["V"], 1, []⟩ (by decide) (Or.inl rfl) (by decide)
    0 (by decide) 1 (by decide) (by decide) 0 0 (by decide)
    ⟨"V", "VariableV2", "gpu0", [], 1, []⟩ (by decide)
  exact h.2 ⟨rfl, by decide⟩

end GraphRw

namespace GraphRw

theorem length_updNode : ∀ (g : GraphDef) (i : Nat) (f : NodeDef → NodeDef),
    List.length (updNode g i f) = List.length g
  | [], _, _ => rfl
  | _ :: rest, 0, f => rfl
  | _ :: rest, i + 1, f => by
      show List.length (updNode rest i f) + 1 = _
      rw [length_updNode rest i f]
      rfl

theorem getNode_updNode_ne : ∀ (g : GraphDef) (i : Nat) (f : NodeDef → NodeDef)
    (j : Nat), j ≠ i → getNode (updNode g i f) j = getNode g j
  | [], _, _, _, _ => rfl
  | nd :: rest, 0, f, 0, h => absurd rfl h
  | nd :: rest, 0, f, j + 1, _ => rfl
  | nd :: rest, i + 1, f, 0, _ => rfl
  | nd :: rest, i + 1, f, j + 1, h => by
      show getNode (updNode rest i f) j = getNode rest j
      exact getNode_updNode_ne rest i f j (fun hc => h (by omega))

theorem getNode_updNode_eq : ∀ (g : GraphDef) (i : Nat) (f : NodeDef → NodeDef),
    getNode (updNode g i f) i = (getNode g i).map f
  | [], _, _ => rfl
  | nd :: rest, 0, f => rfl
  | nd :: rest, i + 1, f => by
      show getNode (updNode rest i f) i = _
      exact getNode_updNode_eq rest i f

theorem getNode_append_lt (g l : GraphDef) (j : Nat) (h : j < List.length g) :
    getNode (g ++ l) j = getNode g j := by
  unfold getNode
  exact List.get?_append h

theorem getNode_append_self (g : GraphDef) (nd : NodeDef) :
    getNode (g ++ [nd]) (List.length g) = some nd := by
  unfold getNode
  rw [List.get?_append_right (Nat.le_refl _)]
  simp

theorem getNode_lt_isSome (g : GraphDef) (j : Nat) (h : j < List.length g) :
    ∃ nd, getNode g j = some nd := by
  unfold getNode
  rw [List.get?_eq_get h]
  exact ⟨_, rfl⟩

/-- `setInputStr` and the colocation update leave the priority unchanged. -/
theorem prioAt_updNode_setInput (g : GraphDef) (c q : Nat) (str : String) (x : Nat) :
    prioAt (updNode g c (fun nd => setInputStr nd q str)) x = prioAt g x := by
  unfold prioAt
  by_cases hx : x = c
  · subst hx
    rw [getNode_updNode_eq]
    cases getNode g x with
    | none => rfl
    | some nd => rfl
  · rw [getNode_updNode_ne g c _ x hx]

theorem prioAt_append_lt (g l : GraphDef) (x : Nat) (h : x < List.length g) :
    prioAt (g ++ l) x = prioAt g x := by
  unfold prioAt
  rw [getNode_append_lt g l x h]

theorem mem_insertByPrio (g : GraphDef) (u : Nat × Nat) :
    ∀ (l : List (Nat × Nat)) (x : Nat × Nat),
      x ∈ insertByPrio g u l ↔ x = u ∨ x ∈ l
  | [], x => by simp [insertByPrio]
  | v :: rest, x => by
      unfold insertByPrio
      by_cases hc : prioAt g u.1 < prioAt g v.1
      · simp [hc]
      · simp [hc, mem_insertByPrio g u rest x]
        tauto

theorem insertByPrio_pairwise (g : GraphDef) (u : Nat × Nat) :
    ∀ {l : List (Nat × Nat)},
      l.Pairwise (fun a b => prioAt g a.1 ≤ prioAt g b.1) →
      (insertByPrio g u l).Pairwise (fun a b => prioAt g a.1 ≤ prioAt g b.1)
  | [], _ => by simp [insertByPrio]
  | v :: rest, h => by
      unfold insertByPrio
      rcases List.pairwise_cons.mp h with ⟨hv, hrest⟩
      by_cases hc : prioAt g u.1 < prioAt g v.1
      · rw [if_pos hc]
        refine List.pairwise_cons.mpr ⟨?_, h⟩
        intro x hx
        rcases List.mem_cons.mp hx with hx | hx
        · subst hx
          omega
        · have := hv x hx
          omega
      · rw [if_neg hc]
        refine List.pairwise_cons.mpr ⟨?_, insertByPrio_pairwise g u hrest⟩
        intro x hx
        rcases (mem_insertByPrio g u (rest) x).mp hx with hx | hx
        · subst hx
          omega
        · exact hv x hx

theorem sortUses_pairwise (g : GraphDef) (us : List (Nat × Nat)) :
    (sortUses g us).Pairwise (fun a b => prioAt g a.1 ≤ prioAt g b.1) := by
  unfold sortUses
  induction us with
  | nil => simp
  | cons u rest ih => exact insertByPrio_pairwise g u ih

theorem mem_sortUses (g : GraphDef) (us : List (Nat × Nat)) (x : Nat × Nat) :
    x ∈ sortUses g us → x ∈ us := by
  unfold sortUses
  induction us with
  | nil => simp
  | cons u rest ih =>
      intro hx
      rcases (mem_insertByPrio g u _ x).mp hx with hx | hx
      · simp [hx]
      · exact List.mem_cons_of_mem u (ih hx)

end GraphRw

namespace GraphRw

/-- Defining equation of `processUses` on a first consumer. -/
theorem processUses_cons_none (outName coloc : String) (otype : Nat)
    (genDevice base : String) (c q : Nat) (rest : List (Nat × Nat))
    (g : GraphDef) (prevS : Option Nat) :
    processUses outName coloc otype genDevice base ((c, q) :: rest) g none prevS =
      (getNode g c).bind (fun cnd =>
        processUses outName coloc otype genDevice base rest
          (updNode (createSwapIn outName coloc otype genDevice base g none cnd q).1 c
            (fun nd => setInputStr nd q (swapInNameFor base cnd q)))
          (some c)
          (some (createSwapIn outName coloc otype genDevice base g none cnd q).2)) := rfl

/-- Defining equation of `processUses` on a later consumer. -/
theorem processUses_cons_some (outName coloc : String) (otype : Nat)
    (genDevice base : String) (c q : Nat) (rest : List (Nat × Nat))
    (g : GraphDef) (pIdx : Nat) (prevS : Option Nat) :
    processUses outName coloc otype genDevice base ((c, q) :: rest) g (some pIdx) prevS =
      (getNode g c).bind (fun cnd =>
        (getNode g pIdx).bind (fun pnd =>
          if pnd.priority + 1 < cnd.priority then
            processUses outName coloc otype genDevice base rest
              (updNode (createSwapIn outName coloc otype genDevice base g
                  (some pnd.name) cnd q).1 c
                (fun nd => setInputStr nd q (swapInNameFor base cnd q)))
              (some c)
              (some (createSwapIn outName coloc otype genDevice base g
                  (some pnd.name) cnd q).2)
          else
            if pnd.priority = cnd.priority ∨ pnd.priority + 1 = cnd.priority then
              match prevS with
              | none => none
              | some sIdx =>
                  (getNode g sIdx).bind (fun snd =>
                    processUses outName coloc otype genDevice base rest
                      (updNode g c (fun nd => setInputStr nd q snd.name))
                      (some c) prevS)
            else none)) := rfl

/-- The consumer walk succeeds on any priority-sorted use list: the reuse
branch's `CHECK` and the `prev_swap_in_node` dereference cannot fail.
`p` is the (stable) priority assignment of the consumers. -/
theorem processUses_ok (outName coloc : String) (otype : Nat) (genDevice base : String)
    (p : Nat → Int) :
    ∀ (us : List (Nat × Nat)) (g : GraphDef) (prevC prevS : Option Nat),
    (∀ u ∈ us, u.1 < List.length g ∧ prioAt g u.1 = p u.1) →
    us.Pairwise (fun a b => p a.1 ≤ p b.1) →
    ((prevC = none ∧ prevS = none) ∨
      (∃ pc ps, prevC = some pc ∧ prevS = some ps ∧ pc < List.length g ∧
        prioAt g pc = p pc ∧ (∀ u ∈ us, p pc ≤ p u.1) ∧ ps < List.length g)) →
    (processUses outName coloc otype genDevice base us g prevC prevS).isSome
  | [], g, prevC, prevS, _, _, _ => by simp [processUses]
  | (c, q) :: rest, g, prevC, prevS, hlt, hpair, hprev => by
      have hc : c < List.length g := (hlt (c, q) (List.mem_cons_self _ _)).1
      have hcp : prioAt g c = p c := (hlt (c, q) (List.mem_cons_self _ _)).2
      obtain ⟨cnd, hcnd⟩ := getNode_lt_isSome g c hc
      have hcndp : cnd.priority = p c := by
        have : prioAt g c = cnd.priority := by
          unfold prioAt
          rw [hcnd]
        omega
      have hpairtail := (List.pairwise_cons.mp hpair).2
      have hheadle := (List.pairwise_cons.mp hpair).1
      rcases hprev with ⟨hpc0, hps0⟩ | ⟨pc, ps, hpc0, hps0, hpclt, hpcp, hple, hpslt⟩
      · subst hpc0
        subst hps0
        rw [processUses_cons_none, hcnd]
        simp only [Option.some_bind, createSwapIn]
        apply processUses_ok outName coloc otype genDevice base p rest
        · intro u hu
          have h1 := hlt u (List.mem_cons_of_mem _ hu)
          constructor
          · rw [length_updNode, List.length_append]
            simp
            omega
          · rw [prioAt_updNode_setInput, prioAt_append_lt g _ u.1 h1.1]
            exact h1.2
        · exact hpairtail
        · right
          refine ⟨c, List.length g, rfl, rfl, ?_, ?_, ?_, ?_⟩
          · rw [length_updNode, List.length_append]
            simp
            omega
          · rw [prioAt_updNode_setInput, prioAt_append_lt g _ c hc]
            exact hcp
          · intro u hu
            exact hheadle u hu
          · rw [length_updNode, List.length_append]
            simp
      · subst hpc0
        subst hps0
        obtain ⟨pnd, hpnd⟩ := getNode_lt_isSome g pc hpclt
        have hpndp : pnd.priority = p pc := by
          have : prioAt g pc = pnd.priority := by
            unfold prioAt
            rw [hpnd]
          omega
        rw [processUses_cons_some, hcnd]
        simp only [Option.some_bind]
        rw [hpnd]
        simp only [Option.some_bind]
        by_cases hfar : pnd.priority + 1 < cnd.priority
        · rw [if_pos hfar]
          simp only [createSwapIn]
          apply processUses_ok outName coloc otype genDevice base p rest
          · intro u hu
            have h1 := hlt u (List.mem_cons_of_mem _ hu)
            constructor
            · rw [length_updNode, List.length_append]
              simp
              omega
            · rw [prioAt_updNode_setInput, prioAt_append_lt g _ u.1 h1.1]
              exact h1.2
          · exact hpairtail
          · right
            refine ⟨c, List.length g, rfl, rfl, ?_, ?_, ?_, ?_⟩
            · rw [length_updNode, List.length_append]
              simp
              omega
            · rw [prioAt_updNode_setInput, prioAt_append_lt g _ c hc]
              exact hcp
            · intro u hu
              exact hheadle u hu
            · rw [length_updNode, List.length_append]
              simp
        · rw [if_neg hfar]
          have hplec : p pc ≤ p c := hple (c, q) (List.mem_cons_self _ _)
          have hok : pnd.priority = cnd.priority ∨ pnd.priority + 1 = cnd.priority := by
            omega
          rw [if_pos hok]
          obtain ⟨snd, hsnd⟩ := getNode_lt_isSome g ps hpslt
          rw [hsnd]
          simp only [Option.some_bind]
          apply processUses_ok outName coloc otype genDevice base p rest
          · intro u hu
            have h1 := hlt u (List.mem_cons_of_mem _ hu)
            constructor
            · rw [length_updNode]
              exact h1.1
            · rw [prioAt_updNode_setInput]
              exact h1.2
          · exact hpairtail
          · right
            refine ⟨c, ps, rfl, rfl, ?_, ?_, ?_, ?_⟩
            · rw [length_updNode]
              exact hc
            · rw [prioAt_updNode_setInput]
              exact hcp
            · intro u hu
              exact hheadle u hu
            · rw [length_updNode]
              exact hpslt

/-- C6 (reuse-rule assertion validity): after sorting the consumers by
ascending priority, the walk of `AddSwapNodesForOneNode` never hits the
`CHECK` failure (nor a null `prev_swap_in_node`): it returns a rewritten
graph for every use list whose consumers exist. -/
theorem processUses_sorted_never_checks (outName coloc : String) (otype : Nat)
    (genDevice base : String) (g : GraphDef) (us : List (Nat × Nat))
    (hlt : ∀ u ∈ us, u.1 < List.length g) :
    (processUses outName coloc otype genDevice base (sortUses g us) g none none).isSome := by
  apply processUses_ok outName coloc otype genDevice base (fun x => prioAt g x)
  · intro u hu
    exact ⟨hlt u (mem_sortUses g us u hu), rfl⟩
  · exact sortUses_pairwise g us
  · exact Or.inl ⟨rfl, rfl⟩

/-- Witness for C6: a generator with two distant consumers in the same wave
and one much later; the walk succeeds. -/
theorem processUses_sorted_never_checks_witness :
    (processUses "swap_out_A_0" "loc@A_0" 1 "gpu0" "swap_in_A_0"
      (sortUses
        [⟨"A", "Src", "gpu0", [], 1, []⟩,
         ⟨"B", "Use", "gpu0", ["A:0"], 5, []⟩,
         ⟨"C", "Use", "gpu0", ["A:0"], 5, []⟩,
         ⟨"D", "Use", "gpu0", ["A:0"], 9, []⟩] [(1, 0), (2, 0), (3, 0)])
      [⟨"A", "Src", "gpu0", [], 1, []⟩,
       ⟨"B", "Use", "gpu0", ["A:0"], 5, []⟩,
       ⟨"C", "Use", "gpu0", ["A:0"], 5, []⟩,
       ⟨"D", "Use", "gpu0", ["A:0"], 9, []⟩] none none).isSome :=
  processUses_sorted_never_checks "swap_out_A_0" "loc@A_0" 1 "gpu0" "swap_in_A_0"
    _ _ (by decide)

end GraphRw

namespace GraphRw

/-- First port-map entry with the given key (the `unordered_map` cell). -/
def lookupPort (p : Int) : List (Int × List (Nat × Nat)) → List (Nat × Nat)
  | [] => []
  | (r, us) :: rest => if r = p then us else lookupPort p rest

theorem lookupPort_insertCand (p r : Int) (u : Nat × Nat) :
    ∀ (cands : List (Int × List (Nat × Nat))),
      lookupPort p (insertCand cands r u) =
        if r = p then lookupPort p cands ++ [u] else lookupPort p cands
  | [] => by
      unfold insertCand lookupPort
      by_cases hrp : r = p
      · simp [hrp, lookupPort]
      · simp [hrp, lookupPort]
  | (k, us) :: rest => by
      unfold insertCand
      by_cases hkr : k = r
      · rw [if_pos hkr]
        unfold lookupPort
        by_cases hkp : k = p
        · have hrp : r = p := hkr ▸ hkp
          simp [hkp, hrp]
        · have hrp' : ¬ (r = p) := fun hc => hkp (hkr.trans hc)
          simp [hkp, hrp', lookupPort_insertCand p r u rest]
      · rw [if_neg hkr]
        unfold lookupPort
        by_cases hkp : k = p
        · have hrp' : ¬ (r = p) := fun hc => hkr (by rw [hkp, hc])
          simp [hkp, hrp']
        · simp [hkp, lookupPort_insertCand p r u rest]

/-- The registration condition of one fanout edge, as the code tests it. -/
def candCond (g : GraphDef) (nd : NodeDef) (pid : Int) (m : Nat) : Bool :=
  match getNode g m with
  | none => false
  | some dst => dst.device == nd.device && dst.priority - pid > 2

theorem candStep_eq (g : GraphDef) (nd : NodeDef) (pid : Int)
    (acc : List (Int × List (Nat × Nat))) (e : Int × Nat × Nat) :
    candStep g nd pid acc e =
      if candCond g nd pid e.2.1 then insertCand acc e.1 (e.2.1, e.2.2) else acc := by
  unfold candStep candCond
  rcases hdst : getNode g e.2.1 with _ | dst
  · simp
  · by_cases hdev : dst.device = nd.device <;> by_cases hfar : dst.priority - pid > 2 <;>
      simp [hdev, hfar]

theorem candCond_iff (g : GraphDef) (nd : NodeDef) (pid : Int) (m : Nat) :
    candCond g nd pid m = true ↔
      ∃ dst, getNode g m = some dst ∧ dst.device = nd.device ∧ dst.priority - pid > 2 := by
  unfold candCond
  rcases hdst : getNode g m with _ | dst
  · simp
  · simp

theorem mem_lookupPort_candFold (g : GraphDef) (nd : NodeDef) (pid : Int)
    (p : Int) (x : Nat × Nat) :
    ∀ (L : List (Int × Nat × Nat)) (acc : List (Int × List (Nat × Nat))),
      (x ∈ lookupPort p (L.foldl (candStep g nd pid) acc) ↔
        x ∈ lookupPort p acc ∨ ∃ e ∈ L, e.1 = p ∧ (e.2.1, e.2.2) = x ∧
          candCond g nd pid e.2.1 = true)
  | [], acc => by simp
  | e :: L, acc => by
      rw [List.foldl_cons]
      rw [mem_lookupPort_candFold g nd pid p x L (candStep g nd pid acc e)]
      have hstep : x ∈ lookupPort p (candStep g nd pid acc e) ↔
          (x ∈ lookupPort p acc ∨
            (e.1 = p ∧ (e.2.1, e.2.2) = x ∧ candCond g nd pid e.2.1 = true)) := by
        rw [candStep_eq]
        by_cases hcond : candCond g nd pid e.2.1 = true
        · rw [if_pos hcond, lookupPort_insertCand]
          by_cases hep : e.1 = p
          · rw [if_pos hep]
            simp [hep, hcond, eq_comm]
          · rw [if_neg hep]
            simp [hep]
        · rw [if_neg (by simpa using hcond)]
          simp [hcond]
      rw [hstep]
      constructor
      · rintro (⟨h | h⟩ | ⟨e2, he2, h⟩)
        · exact Or.inl h
        · exact Or.inr ⟨e, List.mem_cons_self _ _, h⟩
        · exact Or.inr ⟨e2, List.mem_cons_of_mem _ he2, h⟩
      · rintro (h | ⟨e2, he2, h⟩)
        · exact Or.inl (Or.inl h)
        · rcases List.mem_cons.mp he2 with he2 | he2
          · subst he2
            exact Or.inl (Or.inr h)
          · exact Or.inr ⟨e2, he2, h⟩

end GraphRw

namespace GraphRw

theorem filterPorts_cons (F : Framework) (g : GraphDef) (fuel nIdx : Nat)
    (r : Int) (vs : List (Nat × Nat)) (rest : List (Int × List (Nat × Nat))) :
    filterPorts F g fuel nIdx ((r, vs) :: rest) =
      (IsSwappable F g fuel (nIdx, r)).bind (fun b =>
        (filterPorts F g fuel nIdx rest).bind (fun rest2 =>
          if b then some ((r, vs) :: rest2) else some rest2)) := rfl

theorem buildPlanNodes_cons (F : Framework) (g : GraphDef) (fuel : Nat) (pid : Int)
    (n : Nat) (ns : List Nat) (acc : List (Nat × List (Int × List (Nat × Nat)))) :
    buildPlanNodes F g fuel pid (n :: ns) acc =
      (planForNode F g fuel pid n).bind (fun pm =>
        buildPlanNodes F g fuel pid ns
          (if pm ≠ [] ∧ ¬ acc.any (fun e => e.1 == n) then acc ++ [(n, pm)] else acc)) := rfl

theorem buildPlan_cons (F : Framework) (g : GraphDef) (fuel : Nat) (pid : Int)
    (ns : List Nat) (parts : List (Int × List Nat))
    (acc : List (Nat × List (Int × List (Nat × Nat)))) :
    buildPlan F g fuel ((pid, ns) :: parts) acc =
      (buildPlanNodes F g fuel pid ns acc).bind (fun acc2 =>
        buildPlan F g fuel parts acc2) := rfl

theorem filterPorts_mem (F : Framework) (g : GraphDef) (fuel : Nat) (nIdx : Nat) :
    ∀ (cands kept : List (Int × List (Nat × Nat))),
      filterPorts F g fuel nIdx cands = some kept →
      ∀ p us, ((p, us) ∈ kept ↔
        ((p, us) ∈ cands ∧ IsSwappable F g fuel (nIdx, p) = some true))
  | [], kept, h, p, us => by
      rw [show filterPorts F g fuel nIdx [] = some [] from rfl] at h
      injection h with h
      subst h
      simp
  | (r, vs) :: rest, kept, h, p, us => by
      rw [filterPorts_cons] at h
      rcases hb : IsSwappable F g fuel (nIdx, r) with _ | b
      · rw [hb] at h
        simp at h
      · rw [hb] at h
        simp only [Option.some_bind] at h
        rcases hrest : filterPorts F g fuel nIdx rest with _ | rest2
        · rw [hrest] at h
          simp at h
        · rw [hrest] at h
          simp only [Option.some_bind] at h
          have ih := filterPorts_mem F g fuel nIdx rest rest2 hrest p us
          cases b with
          | false =>
              simp at h
              subst h
              constructor
              · intro hk
                have h2 := ih.mp hk
                exact ⟨List.mem_cons_of_mem _ h2.1, h2.2⟩
              · rintro ⟨hc, hsw⟩
                rcases List.mem_cons.mp hc with hc | hc
                · have hp : p = r := congrArg Prod.fst hc
                  rw [hp] at hsw
                  rw [hb] at hsw
                  simp at hsw
                · exact ih.mpr ⟨hc, hsw⟩
          | true =>
              simp at h
              subst h
              constructor
              · intro hk
                rcases List.mem_cons.mp hk with hk | hk
                · have hp : p = r := congrArg Prod.fst hk
                  have hus : us = vs := congrArg Prod.snd hk
                  subst hp
                  subst hus
                  exact ⟨List.mem_cons_self _ _, hb⟩
                · have h2 := ih.mp hk
                  exact ⟨List.mem_cons_of_mem _ h2.1, h2.2⟩
              · rintro ⟨hc, hsw⟩
                rcases List.mem_cons.mp hc with hc | hc
                · have hp : p = r := congrArg Prod.fst hc
                  have hus : us = vs := congrArg Prod.snd hc
                  subst hp
                  subst hus
                  exact List.mem_cons_self _ _
                · exact List.mem_cons_of_mem _ (ih.mpr ⟨hc, hsw⟩)

/-- `buildPlanNodes` only grows the accumulator, with keys from its list. -/
theorem buildPlanNodes_mem (F : Framework) (g : GraphDef) (fuel : Nat) (pid : Int) :
    ∀ (ns : List Nat) (acc res : List (Nat × List (Int × List (Nat × Nat)))),
      buildPlanNodes F g fuel pid ns acc = some res →
      (∀ e ∈ acc, e ∈ res) ∧ (∀ e ∈ res, e ∈ acc ∨ e.1 ∈ ns)
  | [], acc, res, h => by
      rw [show buildPlanNodes F g fuel pid [] acc = some acc from rfl] at h
      injection h with h
      subst h
      exact ⟨fun e he => he, fun e he => Or.inl he⟩
  | n :: ns, acc, res, h => by
      rw [buildPlanNodes_cons] at h
      rcases hpm : planForNode F g fuel pid n with _ | pm
      · rw [hpm] at h
        simp at h
      · rw [hpm] at h
        simp only [Option.some_bind] at h
        set acc2 := if pm ≠ [] ∧ ¬ acc.any (fun e => e.1 == n) then acc ++ [(n, pm)] else acc
          with hacc2
        have hsub : ∀ e ∈ acc, e ∈ acc2 := by
          intro e he
          rw [hacc2]
          by_cases hc : pm ≠ [] ∧ ¬ acc.any (fun e => e.1 == n)
          · rw [if_pos hc]
            exact List.mem_append_left _ he
          · rw [if_neg hc]
            exact he
        have hsup : ∀ e ∈ acc2, e ∈ acc ∨ e.1 = n := by
          intro e he
          rw [hacc2] at he
          by_cases hc : pm ≠ [] ∧ ¬ acc.any (fun e => e.1 == n)
          · rw [if_pos hc] at he
            rcases List.mem_append.mp he with he | he
            · exact Or.inl he
            · simp at he
              subst he
              exact Or.inr rfl
          · rw [if_neg hc] at he
            exact Or.inl he
        have ih := buildPlanNodes_mem F g fuel pid ns acc2 res h
        constructor
        · intro e he
          exact ih.1 e (hsub e he)
        · intro e he
          rcases ih.2 e he with he2 | he2
          · rcases hsup e he2 with he3 | he3
            · exact Or.inl he3
            · exact Or.inr (by simp [he3])
          · exact Or.inr (List.mem_cons_of_mem _ he2)

/-- `buildPlan` only grows the accumulator, with keys from the partitions. -/
theorem buildPlan_mem (F : Framework) (g : GraphDef) (fuel : Nat) :
    ∀ (parts : List (Int × List Nat)) (acc res : List (Nat × List (Int × List (Nat × Nat)))),
      buildPlan F g fuel parts acc = some res →
      (∀ e ∈ acc, e ∈ res) ∧ (∀ e ∈ res, e ∈ acc ∨ ∃ pr ∈ parts, e.1 ∈ pr.2)
  | [], acc, res, h => by
      rw [show buildPlan F g fuel [] acc = some acc from rfl] at h
      injection h with h
      subst h
      exact ⟨fun e he => he, fun e he => Or.inl he⟩
  | (pid, ns) :: parts, acc, res, h => by
      rw [buildPlan_cons] at h
      rcases hacc2 : buildPlanNodes F g fuel pid ns acc with _ | acc2
      · rw [hacc2] at h
        simp at h
      · rw [hacc2] at h
        simp only [Option.some_bind] at h
        have h1 := buildPlanNodes_mem F g fuel pid ns acc acc2 hacc2
        have ih := buildPlan_mem F g fuel parts acc2 res h
        constructor
        · intro e he
          exact ih.1 e (h1.1 e he)
        · intro e he
          rcases ih.2 e he with he2 | he2
          · rcases h1.2 e he2 with he3 | he3
            · exact Or.inl he3
            · exact Or.inr ⟨(pid, ns), List.mem_cons_self _ _, he3⟩
          · rcases he2 with ⟨pr, hpr, hin⟩
            exact Or.inr ⟨pr, List.mem_cons_of_mem _ hpr, hin⟩

/-- `buildPlan` over an appended partition list runs sequentially. -/
theorem buildPlan_append (F : Framework) (g : GraphDef) (fuel : Nat) :
    ∀ (l1 l2 : List (Int × List Nat)) (acc : List (Nat × List (Int × List (Nat × Nat)))),
      buildPlan F g fuel (l1 ++ l2) acc =
        (buildPlan F g fuel l1 acc).bind (buildPlan F g fuel l2)
  | [], l2, acc => by simp [buildPlan]
  | (pid, ns) :: l1, l2, acc => by
      show buildPlan F g fuel ((pid, ns) :: (l1 ++ l2)) acc = _
      rw [buildPlan_cons, buildPlan_cons]
      rcases hacc2 : buildPlanNodes F g fuel pid ns acc with _ | acc2
      · simp
      · simp only [Option.some_bind]
        exact buildPlan_append F g fuel l1 l2 acc2

end GraphRw

namespace GraphRw

theorem buildPlanNodes_append (F : Framework) (g : GraphDef) (fuel : Nat) (pid : Int) :
    ∀ (l1 l2 : List Nat) (acc : List (Nat × List (Int × List (Nat × Nat)))),
      buildPlanNodes F g fuel pid (l1 ++ l2) acc =
        (buildPlanNodes F g fuel pid l1 acc).bind (buildPlanNodes F g fuel pid l2)
  | [], l2, acc => by
      rw [show buildPlanNodes F g fuel pid [] acc = some acc from rfl]
      simp
  | n :: l1, l2, acc => by
      show buildPlanNodes F g fuel pid (n :: (l1 ++ l2)) acc = _
      rw [buildPlanNodes_cons, buildPlanNodes_cons]
      rcases hpm : planForNode F g fuel pid n with _ | pm
      · simp
      · simp only [Option.some_bind]
        exact buildPlanNodes_append F g fuel pid l1 l2 _

theorem buildPlanNodes_skip (F : Framework) (g : GraphDef) (fuel : Nat) (pid : Int)
    (n : Nat) (ns : List Nat) (acc res : List (Nat × List (Int × List (Nat × Nat))))
    (h : buildPlanNodes F g fuel pid ns acc = some res) (hn : n ∉ ns) :
    ((∃ pm, (n, pm) ∈ res) ↔ (∃ pm, (n, pm) ∈ acc)) := by
  have hm := buildPlanNodes_mem F g fuel pid ns acc res h
  constructor
  · rintro ⟨pm, hpm⟩
    rcases hm.2 (n, pm) hpm with h2 | h2
    · exact ⟨pm, h2⟩
    · exact absurd h2 hn
  · rintro ⟨pm, hpm⟩
    exact ⟨pm, hm.1 (n, pm) hpm⟩

theorem buildPlan_skip (F : Framework) (g : GraphDef) (fuel : Nat)
    (n : Nat) (parts : List (Int × List Nat))
    (acc res : List (Nat × List (Int × List (Nat × Nat))))
    (h : buildPlan F g fuel parts acc = some res) (hn : ∀ pr ∈ parts, n ∉ pr.2) :
    ((∃ pm, (n, pm) ∈ res) ↔ (∃ pm, (n, pm) ∈ acc)) := by
  have hm := buildPlan_mem F g fuel parts acc res h
  constructor
  · rintro ⟨pm, hpm⟩
    rcases hm.2 (n, pm) hpm with h2 | h2
    · exact ⟨pm, h2⟩
    · rcases h2 with ⟨pr, hpr, hin⟩
      exact absurd hin (hn pr hpr)
  · rintro ⟨pm, hpm⟩
    exact ⟨pm, hm.1 (n, pm) hpm⟩

theorem buildPlanNodes_through (F : Framework) (g : GraphDef) (fuel : Nat) (pid : Int)
    (n : Nat) (ns2 : List Nat) (acc res : List (Nat × List (Int × List (Nat × Nat))))
    (kept : List (Int × List (Nat × Nat)))
    (hn2 : n ∉ ns2) (hnoacc : ∀ pm, (n, pm) ∉ acc)
    (hplan : planForNode F g fuel pid n = some kept)
    (h : buildPlanNodes F g fuel pid (n :: ns2) acc = some res) :
    ((∃ pm, (n, pm) ∈ res) ↔ kept ≠ []) := by
  rw [buildPlanNodes_cons, hplan] at h
  simp only [Option.some_bind] at h
  have hany : ¬ acc.any (fun e => e.1 == n) := by
    intro hc
    rcases List.any_eq_true.mp hc with ⟨e, he, heq⟩
    have : e.1 = n := by simpa using heq
    exact hnoacc e.2 (by rw [← this]; exact he)
  by_cases hk : kept = []
  · subst hk
    rw [if_neg (by simp)] at h
    rw [buildPlanNodes_skip F g fuel pid n ns2 acc res h hn2]
    simp
    intro pm
    exact fun hc => hnoacc pm hc
  · rw [if_pos ⟨hk, hany⟩] at h
    rw [buildPlanNodes_skip F g fuel pid n ns2 _ res h hn2]
    constructor
    · intro _
      exact hk
    · intro _
      exact ⟨kept, List.mem_append_right _ (by simp)⟩

theorem planForNode_eq (F : Framework) (g : GraphDef) (fuel : Nat) (pid : Int)
    (nIdx : Nat) :
    planForNode F g fuel pid nIdx = (getNode g nIdx).bind (fun nd =>
      if isSwapOp nd.op then some []
      else if F.parseDeviceType nd.device ≠ "GPU" ∧ F.parseDeviceType nd.device ≠ "gpu" then
        some []
      else filterPorts F g fuel nIdx (candidatesFor g nd nIdx pid)) := rfl

/-- C4 (planner selection rule): for a partitioned producer that is not a
swap op and parses as a GPU node, (1) a fanout data edge `(n:p → m:q)` is
registered under port `p` iff the consumer is on the same device string and
more than 2 waves later; (2) the kept port map retains exactly the
registered entries of ports whose output `IsSwappable`; (3) the node enters
`node_to_swap_map` iff at least one port survives the filter. -/
theorem SwapTensors_planner_rule (F : Framework) (g : GraphDef) (fuel : Nat)
    (pid : Int) (nIdx : Nat) (nd : NodeDef)
    (hnd : getNode g nIdx = some nd)
    (hnswap : isSwapOp nd.op = false)
    (hgpu : F.parseDeviceType nd.device = "GPU" ∨ F.parseDeviceType nd.device = "gpu")
    (kept : List (Int × List (Nat × Nat)))
    (hkept : planForNode F g fuel pid nIdx = some kept) :
    (∀ (p : Int) (m q : Nat) (dst : NodeDef), getNode g m = some dst →
      ((m, q) ∈ lookupPort p (candidatesFor g nd nIdx pid) ↔
        ((p, m, q) ∈ fanoutEdges g nIdx ∧ dst.device = nd.device ∧
          dst.priority - pid > 2))) ∧
    (∀ (p : Int) (us : List (Nat × Nat)), (p, us) ∈ kept ↔
      ((p, us) ∈ candidatesFor g nd nIdx pid ∧
        IsSwappable F g fuel (nIdx, p) = some true)) ∧
    (∀ (parts1 parts2 : List (Int × List Nat)) (ns1 ns2 : List Nat)
        (plan : List (Nat × List (Int × List (Nat × Nat)))),
      nIdx ∉ ns1 → nIdx ∉ ns2 →
      (∀ pr ∈ parts1, nIdx ∉ pr.2) → (∀ pr ∈ parts2, nIdx ∉ pr.2) →
      buildPlan F g fuel (parts1 ++ (pid, ns1 ++ nIdx :: ns2) :: parts2) [] = some plan →
      ((∃ pm, (nIdx, pm) ∈ plan) ↔ kept ≠ [])) := by
  have hfp : filterPorts F g fuel nIdx (candidatesFor g nd nIdx pid) = some kept := by
    rw [planForNode_eq, hnd] at hkept
    simp only [Option.some_bind] at hkept
    rw [if_neg (by simp [hnswap])] at hkept
    rw [if_neg (by
      rintro ⟨h1, h2⟩
      rcases hgpu with h | h
      · exact h1 h
      · exact h2 h)] at hkept
    exact hkept
  refine ⟨?_, ?_, ?_⟩
  · intro p m q dst hdst
    unfold candidatesFor
    rw [mem_lookupPort_candFold g nd pid p (m, q) (fanoutEdges g nIdx) []]
    simp only [lookupPort, List.not_mem_nil, false_or]
    constructor
    · rintro ⟨e, he, hep, hex, hcond⟩
      have he2 : e = (p, m, q) := by
        rcases e with ⟨e1, e2, e3⟩
        simp at hep hex
        simp [hep, hex.1, hex.2]
      subst he2
      rcases (candCond_iff g nd pid m).mp hcond with ⟨dst2, hdst2, hdev, hfar⟩
      rw [hdst] at hdst2
      injection hdst2 with hdst2
      subst hdst2
      exact ⟨he, hdev, hfar⟩
    · rintro ⟨hmem, hdev, hfar⟩
      exact ⟨(p, m, q), hmem, rfl, rfl,
        (candCond_iff g nd pid m).mpr ⟨dst, hdst, hdev, hfar⟩⟩
  · intro p us
    exact filterPorts_mem F g fuel nIdx _ kept hfp p us
  · intro parts1 parts2 ns1 ns2 plan hns1 hns2 hp1 hp2 hbp
    rw [buildPlan_append] at hbp
    rcases Option.bind_eq_some.mp hbp with ⟨acc1, hacc1, hbp2⟩
    have hnoacc1 : ∀ pm, (nIdx, pm) ∉ acc1 := by
      intro pm hc
      have hm := buildPlan_mem F g fuel parts1 [] acc1 hacc1
      rcases hm.2 (nIdx, pm) hc with h2 | h2
      · simp at h2
      · rcases h2 with ⟨pr, hpr, hin⟩
        exact hp1 pr hpr hin
    rw [buildPlan_cons] at hbp2
    rcases Option.bind_eq_some.mp hbp2 with ⟨acc2, hacc2, hbp3⟩
    rw [buildPlanNodes_append] at hacc2
    rcases Option.bind_eq_some.mp hacc2 with ⟨accA, haccA, hacc2b⟩
    have hnoaccA : ∀ pm, (nIdx, pm) ∉ accA := by
      intro pm hc
      have := (buildPlanNodes_skip F g fuel pid nIdx ns1 acc1 accA haccA hns1).mp ⟨pm, hc⟩
      rcases this with ⟨pm2, hpm2⟩
      exact hnoacc1 pm2 hpm2
    have hthrough := buildPlanNodes_through F g fuel pid nIdx ns2 accA acc2 kept
      hns2 hnoaccA hkept hacc2b
    rw [← hthrough]
    exact buildPlan_skip F g fuel nIdx parts2 acc2 plan hbp3 hp2

/-- The running two-node example: a GPU producer and a consumer eight waves
later. -/
def gSwap : GraphDef :=
  [⟨"A", "Src", "gpu0", [], 1, []⟩,
   ⟨"C", "Use", "gpu0", ["A:0"], 9, []⟩]

def partsSwap : List (Int × List Nat) := [(1, [0]), (9, [1])]

/-- Witness for C4: on the running example the edge `A:0 → C:0` is
registered. -/
theorem SwapTensors_planner_rule_witness :
    ((1 : Nat), (0 : Nat)) ∈
      lookupPort 0 (candidatesFor gSwap ⟨"A", "Src", "gpu0", [], 1, []⟩ 0 1) := by
  have h := SwapTensors_planner_rule Fw gSwap 3 1 0 ⟨"A", "Src", "gpu0", [], 1, []⟩
    (by decide) (by decide) (Or.inl (by decide)) [(0, [(1, 0)])] (by decide)
  exact (h.1 0 1 0 ⟨"C", "Use", "gpu0", ["A:0"], 9, []⟩ (by decide)).mpr
    ⟨by decide, by decide, by decide⟩

end GraphRw

namespace GraphDrv

/-! ## Part C: the driver (`SwappingPass`, `GraphPartitioner::Optimize`)

The driver glues the partitioner to the rewriter.  The memory oracle
(`GraphMemory`), its `InferStaticallyAndGetRunMetadata` status and the
cluster's device catalog are external inputs. -/

/-- The `RewriterConfig::MemOptType` values this pass consults
(`NO_MEM_OPT` is "off"). -/
inductive MemOptType where
  | DEFAULT_MEM_OPT
  | NO_MEM_OPT
  | MANUAL
  | SWAPPING_HEURISTICS
  | HEURISTICS
deriving DecidableEq, Repr

/-- The fields of `DeviceProperties` the driver reads. -/
structure DeviceProperties where
  dtype : String
  memorySize : Int
deriving DecidableEq, Repr

/-- The memory oracle: the status of static inference and the per-device
peak usage it reports. -/
structure MemOracle where
  inferOk : Bool
  peakUsage : String → Int

/-- `Status` of an optimizer pass. -/
inductive Status where
  | ok
  | error (msg : String)
deriving DecidableEq, Repr

/-- The `need_swap` computation of `SwappingPass` (computed and then never
consulted by the code). -/
def needSwapOf (devices : List (String × DeviceProperties)) (peak : String → Int) : Bool :=
  devices.any (fun d =>
    d.2.dtype == "GPU" && decide (0 < d.2.memorySize) &&
      decide (d.2.memorySize ≤ peak d.1))

/-- The gate inside `SwappingPass`: note that it does not include
`MANUAL`. -/
def swappingPassGate (l : MemOptType) : Bool :=
  l == .DEFAULT_MEM_OPT || l == .SWAPPING_HEURISTICS || l == .HEURISTICS

/-- The gate inside `GraphPartitioner::Optimize`: it adds `MANUAL`. -/
def optimizeGate (l : MemOptType) : Bool :=
  l == .DEFAULT_MEM_OPT || l == .SWAPPING_HEURISTICS || l == .HEURISTICS ||
    l == .MANUAL

/-- Modelled from the spec (§4.1): the indexed `SimpleGraphView` over a
protobuf graph — data-input adjacency by node index, with the transposed
output lists. -/
def viewInputs (g : GraphRw.GraphDef) (i : Nat) : List Nat :=
  match GraphRw.getNode g i with
  | none => []
  | some nd =>
      (GraphRw.dataInputs nd.input).filterMap
        (fun r => GraphRw.findNodeIdx g (GraphRw.parseRef r).1)

def buildView (g : GraphRw.GraphDef) : GraphPart.PGView where
  n := List.length g
  op := fun i =>
    match GraphRw.getNode g i with
    | some nd => nd.op
    | none => ""
  device := fun i =>
    match GraphRw.getNode g i with
    | some nd => nd.device
    | none => ""
  inputs := viewInputs g
  outputs := fun u =>
    (List.range (List.length g)).flatMap
      (fun c => ((viewInputs g c).filter (fun x => x == u)).map (fun _ => c))

/-- Write the computed priorities back into the graph nodes
(`node->set_priority(partition_id)`). -/
def applyPriorities (g : GraphRw.GraphDef) (prio : Nat → Nat) : GraphRw.GraphDef :=
  g.mapIdx (fun i nd => { nd with priority := (prio i : Int) })

/-- Rebuild `node_partitions` from the assignment log. -/
def insertPart : List (Int × List Nat) → Int → Nat → List (Int × List Nat)
  | [], w, n => [(w, [n])]
  | (v, ns) :: rest, w, n =>
      if v = w then (v, ns ++ [n]) :: rest else (v, ns) :: insertPart rest w n

def partsOf (log : List (Nat × Nat)) : List (Int × List Nat) :=
  log.foldl (fun acc e => insertPart acc (e.2 : Int) e.1) []

/-- The partitioner-plus-rewriter sequence of `SwappingPass`:
`PartitionGraph(&item->graph, devices, &node_partitions)` followed by
`SwapTensors(view, node_partitions, &item->graph)`. -/
def partitionAndSwap (F : GraphRw.Framework) (env : String → Option String)
    (devices : List (String × DeviceProperties)) (g : GraphRw.GraphDef) :
    Option GraphRw.GraphDef := do
  let K ← GraphPart.kPartitionSizeOf env
  let st := GraphPart.PartitionGraphCore (buildView g) (devices.map (fun d => d.1)) K
  let g1 := applyPriorities g st.prio
  GraphRw.SwapTensors F (partsOf st.log) g1

/-- `SwappingPass`.  Returns `some (result, graph)`; `none` models a crash
inside the partitioner or rewriter.  On a failed memory inference it returns
`false` with the graph untouched; otherwise it computes (and ignores)
`need_swap`, partitions, swaps, and returns `true`. -/
def SwappingPass (F : GraphRw.Framework) (env : String → Option String)
    (level : MemOptType) (devices : List (String × DeviceProperties))
    (oracle : MemOracle) (g : GraphRw.GraphDef) :
    Option (Bool × GraphRw.GraphDef) :=
  if swappingPassGate level then
    if oracle.inferOk = false then some (false, g)
    else
      let _needSwap := needSwapOf devices oracle.peakUsage
      match partitionAndSwap F env devices g with
      | none => none
      | some g2 => some (true, g2)
  else some (true, g)

/-- `GraphPartitioner::Optimize`: copies the item, logs stats, runs
`SwappingPass` when the level (including `MANUAL`) and the cluster allow,
discards its boolean result, and always returns `Status::OK()`. -/
def Optimize (F : GraphRw.Framework) (env : String → Option String)
    (level : MemOptType) (clusterNonNull : Bool)
    (devices : List (String × DeviceProperties)) (oracle : MemOracle)
    (g : GraphRw.GraphDef) : Option (Status × GraphRw.GraphDef) :=
  if optimizeGate level ∧ clusterNonNull then
    match SwappingPass F env level devices oracle g with
    | none => none
    | some (_, g2) => some (.ok, g2)
  else some (.ok, g)

end GraphDrv

namespace GraphDrv

/-- A one-node GPU graph with priority 0 (unassigned), its device catalog
and two memory-oracle states. -/
def gOne : GraphRw.GraphDef := [⟨"A", "Src", "gpu0", [], 0, []⟩]

def devsOne : List (String × DeviceProperties) := [("gpu0", ⟨"GPU", 100⟩)]

def oracleOk : MemOracle := ⟨true, fun _ => 0⟩

def oracleBad : MemOracle := ⟨false, fun _ => 0⟩

/-- C8 (counterexample): with a non-null cluster and level `MANUAL` — a
non-off level — `Optimize` reaches `SwappingPass`, but the pass's own gate
excludes `MANUAL`, so neither the wave partitioner nor the rewriter runs:
the node keeps priority 0, while `HEURISTICS` assigns wave 1. -/
theorem Optimize_manual_skips_swapping :
    (Optimize GraphRw.Fw (GraphPart.envKPart "1") .MANUAL true devsOne oracleOk gOne).map
        (fun r => (r.1, r.2.map (fun nd => nd.priority))) = some (.ok, [0]) ∧
    (Optimize GraphRw.Fw (GraphPart.envKPart "1") .HEURISTICS true devsOne oracleOk gOne).map
        (fun r => (r.1, r.2.map (fun nd => nd.priority))) = some (.ok, [1]) := by
  decide

/-- Amended C8 (gating): the wave partitioner and the swap planner/rewriter
run exactly for the levels `DEFAULT_MEM_OPT`, `SWAPPING_HEURISTICS` and
`HEURISTICS` with a non-null cluster (and a successful memory inference);
`MANUAL` reaches `SwappingPass` but skips the partition-and-swap block, and
`NO_MEM_OPT` (off) skips the pass entirely — in both cases the graph is
returned unchanged. -/
theorem Optimize_gating (F : GraphRw.Framework) (env : String → Option String)
    (level : MemOptType) (devices : List (String × DeviceProperties))
    (oracle : MemOracle) (g : GraphRw.GraphDef)
    (hlevel : level = .DEFAULT_MEM_OPT ∨ level = .SWAPPING_HEURISTICS ∨
      level = .HEURISTICS)
    (hinfer : oracle.inferOk = true) :
    Optimize F env level true devices oracle g =
      (match partitionAndSwap F env devices g with
        | none => none
        | some g2 => some (Status.ok, g2)) ∧
    Optimize F env .MANUAL true devices oracle g = some (.ok, g) ∧
    Optimize F env .NO_MEM_OPT true devices oracle g = some (.ok, g) := by
  refine ⟨?_, ?_, ?_⟩
  · rcases hlevel with h | h | h <;> subst h <;>
      · unfold Optimize SwappingPass
        simp [optimizeGate, swappingPassGate, hinfer]
        cases partitionAndSwap F env devices g <;> simp
  · unfold Optimize SwappingPass
    simp [optimizeGate, swappingPassGate]
  · unfold Optimize
    simp [optimizeGate]

/-- Witness for the amended C8 at a concrete configuration. -/
theorem Optimize_gating_witness :
    Optimize GraphRw.Fw (GraphPart.envKPart "1") .HEURISTICS true devsOne oracleOk gOne =
      (match partitionAndSwap GraphRw.Fw (GraphPart.envKPart "1") devsOne gOne with
        | none => none
        | some g2 => some (Status.ok, g2)) ∧
    Optimize GraphRw.Fw (GraphPart.envKPart "1") .MANUAL true devsOne oracleOk gOne =
      some (.ok, gOne) ∧
    Optimize GraphRw.Fw (GraphPart.envKPart "1") .NO_MEM_OPT true devsOne oracleOk gOne =
      some (.ok, gOne) :=
  Optimize_gating GraphRw.Fw (GraphPart.envKPart "1") .HEURISTICS devsOne oracleOk gOne
    (Or.inr (Or.inr rfl)) rfl

/-- C10 (counterexample): with level `HEURISTICS` and a failing static
memory inference, `SwappingPass` reports failure (`false`) — but `Optimize`
discards the flag and still returns `Status::OK()`. -/
theorem Optimize_swallows_failure :
    SwappingPass GraphRw.Fw (GraphPart.envKPart "1") .HEURISTICS devsOne oracleBad gOne =
      some (false, gOne) ∧
    Optimize GraphRw.Fw (GraphPart.envKPart "1") .HEURISTICS true devsOne oracleBad gOne =
      some (.ok, gOne) := by
  decide

/-- Amended C10 (failure atomicity): when static memory inference fails,
`SwappingPass` returns `false` with the graph untouched (no priorities set,
no swap nodes added), and `Optimize` ignores the flag and returns
`Status::OK()` with the unchanged graph. -/
theorem SwappingPass_failure_atomic (F : GraphRw.Framework)
    (env : String → Option String) (level : MemOptType)
    (devices : List (String × DeviceProperties)) (oracle : MemOracle)
    (g : GraphRw.GraphDef)
    (hgate : swappingPassGate level = true) (hfail : oracle.inferOk = false) :
    SwappingPass F env level devices oracle g = some (false, g) ∧
    Optimize F env level true devices oracle g = some (.ok, g) := by
  have hs : SwappingPass F env level devices oracle g = some (false, g) := by
    unfold SwappingPass
    simp [hgate, hfail]
  refine ⟨hs, ?_⟩
  have hog : optimizeGate level = true := by
    cases level <;> simp_all [swappingPassGate, optimizeGate]
  unfold Optimize
  simp [hog, hs]

/-- Witness for the amended C10 at a concrete configuration. -/
theorem SwappingPass_failure_atomic_witness :
    SwappingPass GraphRw.Fw (GraphPart.envKPart "1") .HEURISTICS devsOne oracleBad gOne =
      some (false, gOne) ∧
    Optimize GraphRw.Fw (GraphPart.envKPart "1") .HEURISTICS true devsOne oracleBad gOne =
      some (.ok, gOne) :=
  SwappingPass_failure_atomic GraphRw.Fw (GraphPart.envKPart "1") .HEURISTICS devsOne
    oracleBad gOne rfl rfl

end GraphDrv

namespace GraphRw

theorem takeWhile_append_all {p : Char → Bool} :
    ∀ {l1 l2 : List Char}, (∀ c ∈ l1, p c = true) →
      (l1 ++ l2).takeWhile p = l1 ++ l2.takeWhile p
  | [], l2, _ => rfl
  | c :: l1, l2, h => by
      have hc := h c (List.mem_cons_self _ _)
      simp only [List.cons_append, List.takeWhile_cons, hc, if_true]
      rw [takeWhile_append_all (fun d hd => h d (List.mem_cons_of_mem c hd))]

theorem dropWhile_append_all {p : Char → Bool} :
    ∀ {l1 l2 : List Char}, (∀ c ∈ l1, p c = true) →
      (l1 ++ l2).dropWhile p = l2.dropWhile p
  | [], l2, _ => rfl
  | c :: l1, l2, h => by
      have hc := h c (List.mem_cons_self _ _)
      simp only [List.cons_append, List.dropWhile_cons, hc, if_true]
      exact dropWhile_append_all (fun d hd => h d (List.mem_cons_of_mem c hd))

theorem digitChar_digit (d : Nat) : (digitChar d).isDigit = true := by
  unfold digitChar
  have h : d % 10 < 10 := Nat.mod_lt _ (by omega)
  interval_cases h2 : d % 10 <;> decide

theorem natChars_digits : ∀ (fuel n : Nat), ∀ c ∈ natChars fuel n, c.isDigit = true
  | 0, n => by
      intro c hc
      simp [natChars] at hc
  | fuel + 1, n => by
      intro c hc
      unfold natChars at hc
      by_cases h : n < 10
      · rw [if_pos h] at hc
        simp at hc
        rw [hc]
        exact digitChar_digit n
      · rw [if_neg h] at hc
        rcases List.mem_append.mp hc with hc | hc
        · exact natChars_digits fuel (n / 10) c hc
        · simp at hc
          rw [hc]
          exact digitChar_digit (n % 10)

theorem natChars_ne_nil (fuel n : Nat) (h : 0 < fuel) : natChars fuel n ≠ [] := by
  cases fuel with
  | zero => omega
  | succ fuel =>
      unfold natChars
      by_cases hn : n < 10
      · simp [hn]
      · rw [if_neg hn]
        intro hc
        rcases List.append_eq_nil.mp hc with ⟨-, h2⟩
        simp at h2

theorem digitVal_digitChar (d : Nat) : digitVal (digitChar d) = d % 10 := by
  unfold digitChar digitVal
  have h : d % 10 < 10 := Nat.mod_lt _ (by omega)
  interval_cases h2 : d % 10 <;> decide

theorem digitsVal_append (l : List Char) (c : Char) :
    digitsVal (l ++ [c]) = digitsVal l * 10 + digitVal c := by
  unfold digitsVal
  rw [List.foldl_append]
  rfl

theorem digitsVal_natChars : ∀ (fuel n : Nat), n < 10 ^ fuel →
    digitsVal (natChars fuel n) = n
  | 0, n, h => by
      simp at h
      simp [h, natChars, digitsVal]
  | fuel + 1, n, h => by
      unfold natChars
      by_cases hn : n < 10
      · rw [if_pos hn]
        show digitsVal [digitChar n] = n
        unfold digitsVal
        simp [digitVal_digitChar]
        omega
      · rw [if_neg hn]
        rw [digitsVal_append]
        have hdiv : n / 10 < 10 ^ fuel := by
          rw [pow_succ] at h
          omega
        rw [digitsVal_natChars fuel (n / 10) hdiv, digitVal_digitChar]
        omega

theorem n_lt_ten_pow (n : Nat) : n < 10 ^ (n + 1) := by
  induction n with
  | zero => simp
  | succ n ih =>
      have : 10 ^ (n + 1) ≥ 1 := Nat.one_le_pow _ _ (by omega)
      calc n + 1 < 10 ^ (n + 1) + 1 := by omega
        _ ≤ 10 ^ (n + 1) + 10 ^ (n + 1) := by omega
        _ ≤ 10 ^ (n + 1 + 1) := by
            rw [pow_succ]
            omega

theorem digitsVal_natToStr (n : Nat) : digitsVal (natToStr n).data = n := by
  unfold natToStr
  show digitsVal (natChars (n + 1) n) = n
  exact digitsVal_natChars (n + 1) n (n_lt_ten_pow n)

end GraphRw

namespace GraphRw

theorem get?_set_self {α : Type} : ∀ (l : List α) (i : Nat) (a : α), i < l.length →
    (l.set i a).get? i = some a
  | [], i, a, h => by simp at h
  | x :: l, 0, a, _ => rfl
  | x :: l, i + 1, a, h => by
      simp only [List.set_cons_succ, List.get?_cons_succ]
      exact get?_set_self l i a (by simpa using h)

theorem get?_set_ne {α : Type} : ∀ (l : List α) (i j : Nat) (a : α), i ≠ j →
    (l.set i a).get? j = l.get? j
  | [], _, _, _, _ => by simp
  | x :: l, 0, 0, a, h => absurd rfl h
  | x :: l, 0, j + 1, a, _ => rfl
  | x :: l, i + 1, 0, a, _ => rfl
  | x :: l, i + 1, j + 1, a, h => by
      simp only [List.set_cons_succ, List.get?_cons_succ]
      exact get?_set_ne l i j a (by omega)

theorem ctlHead (c : Char) (t : List Char) :
    (match c :: t with | '^' :: _ => true | _ => false) = decide (c = '^') := by
  by_cases hc : c = '^'
  · subst hc
    simp
  · rw [decide_eq_false hc]
    split
    · rename_i heq
      injection heq with h1 h2
      exact absurd h1 hc
    · rfl

theorem isControl_append_left (x y : String) (hx : x.data ≠ []) :
    isControlRef (x ++ y) = isControlRef x := by
  unfold isControlRef
  rw [String.data_append]
  cases hxd : x.data with
  | nil => exact absurd hxd hx
  | cons c l =>
      simp only [List.cons_append]
      rw [ctlHead, ctlHead]

theorem data_append_ne (x y : String) (hx : x.data ≠ []) : (x ++ y).data ≠ [] := by
  rw [String.data_append]
  cases hxd : x.data with
  | nil => exact absurd hxd hx
  | cons c l => simp

theorem isControl_caret (nm : String) : isControlRef ("^" ++ nm) = true := by
  unfold isControlRef
  rw [String.data_append]
  rfl

theorem parseRefData_eq (cs : List Char) :
    parseRefData cs =
      match cs.reverse.dropWhile (fun c => c.isDigit) with
      | ':' :: more =>
          if (cs.reverse.takeWhile (fun c => c.isDigit)).isEmpty then (cs, 0)
          else (more.reverse,
            ((digitsVal (cs.reverse.takeWhile (fun c => c.isDigit)).reverse : Nat) : Int))
      | _ => (cs, 0) := rfl

theorem rev_mid (a d : List Char) (c : Char) :
    (a ++ c :: d).reverse = d.reverse ++ c :: a.reverse := by
  simp

end GraphRw

namespace GraphRw

theorem parseRef_colon (s : String) (n : Nat) :
    parseRef (s ++ ":" ++ natToStr n) = (s, (n : Int)) := by
  have hdata : (s ++ ":" ++ natToStr n).data = s.data ++ ':' :: (natToStr n).data := by
    rw [String.data_append, String.data_append]
    simp
  have hds : (natToStr n).data = natChars (n + 1) n := rfl
  have hdig : ∀ c ∈ (natChars (n + 1) n).reverse, c.isDigit = true := by
    intro c hc
    exact natChars_digits (n + 1) n c (List.mem_reverse.mp hc)
  have hne : natChars (n + 1) n ≠ [] := natChars_ne_nil (n + 1) n (by omega)
  unfold parseRef
  rw [hdata, parseRefData_eq, hds, rev_mid]
  rw [takeWhile_append_all hdig, dropWhile_append_all hdig]
  have htw : List.takeWhile (fun c => c.isDigit) (':' :: s.data.reverse) = [] := by
    simp [List.takeWhile_cons]
  have hdw : List.dropWhile (fun c => c.isDigit) (':' :: s.data.reverse) =
      ':' :: s.data.reverse := by
    simp [List.dropWhile_cons]
  rw [htw, hdw]
  have hemp : ((natChars (n + 1) n).reverse ++ ([] : List Char)).isEmpty = false := by
    rw [List.append_nil]
    cases hcs : (natChars (n + 1) n).reverse with
    | nil =>
        exact absurd (by simpa using congrArg List.reverse hcs) hne
    | cons c l => rfl
  simp only [hemp, if_false, Bool.false_eq_true]
  simp only [List.append_nil, List.reverse_reverse]
  have hval : digitsVal (natChars (n + 1) n) = n := digitsVal_natChars (n + 1) n (n_lt_ten_pow n)
  rw [hval]

theorem parseRef_underscore (s : String) (n : Nat) :
    parseRef (s ++ "_" ++ natToStr n) = (s ++ "_" ++ natToStr n, 0) := by
  have hdata : (s ++ "_" ++ natToStr n).data = s.data ++ '_' :: (natToStr n).data := by
    rw [String.data_append, String.data_append]
    simp
  have hds : (natToStr n).data = natChars (n + 1) n := rfl
  have hdig : ∀ c ∈ (natChars (n + 1) n).reverse, c.isDigit = true := by
    intro c hc
    exact natChars_digits (n + 1) n c (List.mem_reverse.mp hc)
  conv_lhs => rw [parseRef]
  rw [hdata, parseRefData_eq, hds, rev_mid]
  rw [dropWhile_append_all hdig]
  have hdw : List.dropWhile (fun c => c.isDigit) ('_' :: s.data.reverse) =
      '_' :: s.data.reverse := by
    simp [List.dropWhile_cons]
  rw [hdw]
  show (String.mk (s.data ++ '_' :: (natToStr n).data), (0 : Int)) = _
  rw [← hdata]

theorem intToStr_nonneg (p : Int) (hp : 0 ≤ p) : intToStr p = natToStr p.toNat := by
  unfold intToStr
  rw [if_neg (by omega)]

theorem parseRef_port_nonneg (r : String) : 0 ≤ (parseRef r).2 := by
  unfold parseRef
  rw [parseRefData_eq]
  split
  · split
    · simp
    · simp
  · simp

end GraphRw

namespace GraphRw

theorem find_range_some {p : Nat → Bool} : ∀ {n i : Nat},
    (List.range n).find? p = some i → p i = true ∧ i < n ∧ ∀ j < i, p j = false := by
  intro n
  induction n with
  | zero => intro i h; simp [List.range_zero] at h
  | succ n ih =>
      intro i h
      rw [List.range_succ, List.find?_append] at h
      cases hf : (List.range n).find? p with
      | some j =>
          rw [hf] at h
          have hji : j = i := by
            have : Option.or (some j) ((List.find? p [n])) = some j := rfl
            rw [this] at h
            exact Option.some.inj h
          subst hji
          rcases ih hf with ⟨h1, h2, h3⟩
          exact ⟨h1, by omega, h3⟩
      | none =>
          rw [hf, Option.none_or] at h
          have hall : ∀ j < n, p j = false := by
            intro j hj
            have := List.find?_eq_none.mp hf j (List.mem_range.mpr hj)
            simpa using this
          by_cases hp : p n = true
          · rw [List.find?_cons_of_pos _ hp] at h
            have : n = i := Option.some.inj h
            subst this
            exact ⟨hp, by omega, hall⟩
          · rw [List.find?_cons_of_neg _ (by simpa using hp)] at h
            simp at h

theorem find_range_eq {p : Nat → Bool} {n i : Nat} (hi : i < n) (hp : p i = true)
    (hmin : ∀ j < i, p j = false) : (List.range n).find? p = some i := by
  induction n with
  | zero => omega
  | succ n ih =>
      rw [List.range_succ, List.find?_append]
      by_cases hin : i < n
      · rw [ih hin]
        rfl
      · have hieq : i = n := by omega
        subst hieq
        have hnone : (List.range i).find? p = none :=
          List.find?_eq_none.mpr (fun j hj => by
            rw [hmin j (List.mem_range.mp hj)]
            simp)
        rw [hnone, Option.none_or, List.find?_cons_of_pos _ hp]

theorem findNodeIdx_mem {g : GraphDef} {nm : String} {i : Nat}
    (h : findNodeIdx g nm = some i) :
    i < List.length g ∧ ∃ nd, getNode g i = some nd ∧ nd.name = nm ∧
      ∀ j, j < i → ∀ nd', getNode g j = some nd' → nd'.name ≠ nm := by
  unfold findNodeIdx at h
  rcases find_range_some h with ⟨hp, hin, hmin⟩
  refine ⟨hin, ?_⟩
  cases hnd : List.get? g i with
  | none =>
      rw [hnd] at hp
      simp at hp
  | some nd =>
      rw [hnd] at hp
      refine ⟨nd, hnd, by simpa using hp, ?_⟩
      intro j hj nd' hnd' hcon
      have hj2 := hmin j hj
      rw [show getNode g j = List.get? g j from rfl] at hnd'
      rw [hnd'] at hj2
      simp [hcon] at hj2

theorem findNodeIdx_ext {g g2 : GraphDef} {nm : String} {i : Nat}
    (hlen : List.length g ≤ List.length g2)
    (hnames : ∀ j, j < List.length g → ∃ nd nd2, List.get? g j = some nd ∧
        List.get? g2 j = some nd2 ∧ nd2.name = nd.name)
    (h : findNodeIdx g nm = some i) : findNodeIdx g2 nm = some i := by
  unfold findNodeIdx at h ⊢
  rcases find_range_some h with ⟨hp, hin, hmin⟩
  apply find_range_eq (lt_of_lt_of_le hin hlen)
  · rcases hnames i hin with ⟨nd, nd2, hnd, hnd2, hname⟩
    show (match List.get? g2 i with
      | some nd => decide (nd.name = nm)
      | none => false) = true
    rw [hnd2]
    rw [hnd] at hp
    simpa [hname] using hp
  · intro j hj
    rcases hnames j (lt_of_lt_of_le (hj.trans hin) le_rfl) with ⟨nd, nd2, hnd, hnd2, hname⟩
    have hj2 := hmin j hj
    show (match List.get? g2 j with
      | some nd => decide (nd.name = nm)
      | none => false) = false
    rw [hnd2]
    rw [hnd] at hj2
    simpa [hname] using hj2

theorem get?_some_lt {α : Type} {l : List α} {j : Nat} {a : α}
    (h : l.get? j = some a) : j < l.length := by
  by_contra hcon
  rw [List.get?_eq_none.mpr (by omega)] at h
  exact Option.noConfusion h

theorem findNodeIdx_nodup {g : GraphDef} (hnd : (g.map NodeDef.name).Nodup)
    {j : Nat} {nd : NodeDef} (hj : List.get? g j = some nd) :
    findNodeIdx g nd.name = some j := by
  unfold findNodeIdx
  have hjlen : j < List.length g := get?_some_lt hj
  apply find_range_eq hjlen
  · show (match List.get? g j with
      | some nd2 => decide (nd2.name = nd.name)
      | none => false) = true
    rw [hj]
    simp
  · intro j2 hj2
    show (match List.get? g j2 with
      | some nd2 => decide (nd2.name = nd.name)
      | none => false) = false
    cases hg2 : List.get? g j2 with
    | none => rfl
    | some nd2 =>
        simp only [decide_eq_false_iff_not]
        intro hcon
        have h1 : (g.map NodeDef.name).get? j2 = some nd.name := by
          rw [List.get?_map, hg2]
          simp [hcon]
        have h2 : (g.map NodeDef.name).get? j = some nd.name := by
          rw [List.get?_map, hj]
          rfl
        have hlen2 : j2 < (g.map NodeDef.name).length := by
          rw [List.length_map]
          omega
        have := List.get?_inj hlen2 hnd (h1.trans h2.symm)
        omega

theorem stripClass_appendClass : ∀ (a : List (String × AttrValue)) (tag : String),
    stripClass (appendClass a tag) = stripClass a
  | [], tag => by
      unfold appendClass stripClass
      simp
  | (k, v) :: rest, tag => by
      unfold appendClass
      by_cases hk : k = "_class"
      · rw [if_pos hk]
        unfold stripClass
        subst hk
        simp
      · rw [if_neg hk]
        have hr := stripClass_appendClass rest tag
        unfold stripClass at hr ⊢
        simp only [List.filter_cons]
        rw [hr]

end GraphRw

namespace GraphRw

theorem mem_fanoutEdges {g : GraphDef} {nIdx : Nat} {nd : NodeDef}
    (hnd : getNode g nIdx = some nd) (p : Int) (c q : Nat) :
    (p, c, q) ∈ fanoutEdges g nIdx ↔
      ∃ cnd r, getNode g c = some cnd ∧ List.get? cnd.input q = some r ∧
        isControlRef r = false ∧ parseRef r = (nd.name, p) := by
  unfold fanoutEdges
  rw [hnd]
  rw [List.mem_flatMap]
  constructor
  · rintro ⟨c2, hc2, hmem⟩
    rcases hgc : getNode g c2 with _ | cnd
    · rw [hgc] at hmem
      simp at hmem
    · rw [hgc] at hmem
      rw [List.mem_filterMap] at hmem
      rcases hmem with ⟨q2, hq2, heq⟩
      rcases hr : List.get? cnd.input q2 with _ | r
      · rw [hr] at heq
        exact Option.noConfusion heq
      · rw [hr] at heq
        dsimp only at heq
        by_cases hctrl : isControlRef r = true
        · rw [if_pos hctrl] at heq
          exact Option.noConfusion heq
        · rw [if_neg hctrl] at heq
          by_cases hname : (parseRef r).1 = nd.name
          · rw [if_pos hname] at heq
            injection heq with heq
            have hp : (parseRef r).2 = p := congrArg Prod.fst heq
            have hc : c2 = c := congrArg (fun x => x.2.1) heq
            have hq : q2 = q := congrArg (fun x => x.2.2) heq
            subst hc
            subst hq
            refine ⟨cnd, r, hgc, hr, by simpa using hctrl, ?_⟩
            exact Prod.ext hname hp
          · rw [if_neg hname] at heq
            exact Option.noConfusion heq
  · rintro ⟨cnd, r, hgc, hr, hctrl, hparse⟩
    refine ⟨c, List.mem_range.mpr (get?_some_lt hgc), ?_⟩
    rw [show (getNode g c : Option NodeDef) = some cnd from hgc]
    rw [List.mem_filterMap]
    refine ⟨q, List.mem_range.mpr (get?_some_lt hr), ?_⟩
    rw [hr]
    dsimp only
    have hcf : ¬ (isControlRef r = true) := by
      rw [hctrl]
      simp
    rw [if_neg hcf]
    have h1 : (parseRef r).1 = nd.name := by rw [hparse]
    have h2 : (parseRef r).2 = p := by rw [hparse]
    rw [h1, h2, if_pos rfl]

/-- Validity of one planned use `(consumer, slot)` for generator `genName`
port `p`: the consumer slot exists in `g` and holds a non-control reference
parsing to `(genName, p)`. -/
def UseOk (g : GraphDef) (genName : String) (p : Int) (u : Nat × Nat) : Prop :=
  ∃ cnd r, getNode g u.1 = some cnd ∧ List.get? cnd.input u.2 = some r ∧
    isControlRef r = false ∧ parseRef r = (genName, p)

theorem insertCand_use : ∀ (acc : List (Int × List (Nat × Nat))) (p : Int) (u : Nat × Nat)
    (p2 : Int) (us2 : List (Nat × Nat)) (x : Nat × Nat),
    (p2, us2) ∈ insertCand acc p u → x ∈ us2 →
    (∃ us3, (p2, us3) ∈ acc ∧ x ∈ us3) ∨ (p2 = p ∧ x = u)
  | [], p, u, p2, us2, x, hmem, hx => by
      unfold insertCand at hmem
      simp at hmem
      rcases hmem with ⟨hp2, hus⟩
      subst hp2
      subst hus
      simp at hx
      exact Or.inr ⟨rfl, hx⟩
  | (q, us) :: rest, p, u, p2, us2, x, hmem, hx => by
      unfold insertCand at hmem
      by_cases hq : q = p
      · rw [if_pos hq] at hmem
        rcases List.mem_cons.mp hmem with heq | hmem2
        · injection heq with h1 h2
          subst h1
          subst h2
          rcases List.mem_append.mp hx with hxin | hxin
          · exact Or.inl ⟨us, List.mem_cons_self _ _, hxin⟩
          · simp at hxin
            subst hxin
            exact Or.inr ⟨hq, rfl⟩
        · exact Or.inl ⟨us2, List.mem_cons_of_mem _ hmem2, hx⟩
      · rw [if_neg hq] at hmem
        rcases List.mem_cons.mp hmem with heq | hmem2
        · refine Or.inl ⟨us2, ?_, hx⟩
          rw [heq]
          exact List.mem_cons_self _ _
        · rcases insertCand_use rest p u p2 us2 x hmem2 hx with ⟨us3, hin, hx3⟩ | hr
          · exact Or.inl ⟨us3, List.mem_cons_of_mem _ hin, hx3⟩
          · exact Or.inr hr

theorem candFold_use (g : GraphDef) (nd : NodeDef) (nIdx : Nat) (pid : Int)
    (hnd : getNode g nIdx = some nd) :
    ∀ (L : List (Int × Nat × Nat)) (acc : List (Int × List (Nat × Nat))),
      (∀ e ∈ L, e ∈ fanoutEdges g nIdx) →
      (∀ p us, (p, us) ∈ acc → ∀ u ∈ us, UseOk g nd.name p u) →
      ∀ p us, (p, us) ∈ L.foldl (candStep g nd pid) acc → ∀ u ∈ us, UseOk g nd.name p u
  | [], acc, _, hacc => hacc
  | e :: L, acc, hL, hacc => by
      show ∀ p us, (p, us) ∈ List.foldl (candStep g nd pid) (candStep g nd pid acc e) L → _
      apply candFold_use g nd nIdx pid hnd L (candStep g nd pid acc e)
        (fun e2 he2 => hL e2 (List.mem_cons_of_mem _ he2))
      intro p us hmem u hu
      unfold candStep at hmem
      rcases hdst : getNode g e.2.1 with _ | dst
      · rw [hdst] at hmem
        exact hacc p us hmem u hu
      · rw [hdst] at hmem
        dsimp only at hmem
        by_cases hdev : dst.device ≠ nd.device
        · rw [if_pos hdev] at hmem
          exact hacc p us hmem u hu
        · rw [if_neg hdev] at hmem
          by_cases hdist : dst.priority - pid > 2
          · rw [if_pos hdist] at hmem
            rcases insertCand_use acc e.1 (e.2.1, e.2.2) p us u hmem hu with
              ⟨us3, hin, hu3⟩ | ⟨hp, hx⟩
            · exact hacc p us3 hin u hu3
            · subst hp
              subst hx
              have he2 : (e.1, e.2.1, e.2.2) ∈ fanoutEdges g nIdx :=
                hL e (List.mem_cons_self _ _)
              rcases (mem_fanoutEdges hnd e.1 e.2.1 e.2.2).mp he2 with ⟨cnd, r, h1, h2, h3, h4⟩
              exact ⟨cnd, r, h1, h2, h3, h4⟩
          · rw [if_neg hdist] at hmem
            exact hacc p us hmem u hu

theorem candidatesFor_use {g : GraphDef} {nd : NodeDef} {nIdx : Nat} {pid : Int}
    (hnd : getNode g nIdx = some nd) :
    ∀ p us, (p, us) ∈ candidatesFor g nd nIdx pid → ∀ u ∈ us, UseOk g nd.name p u :=
  candFold_use g nd nIdx pid hnd (fanoutEdges g nIdx) [] (fun _ he => he) (by simp)

theorem planForNode_use {F : Framework} {g : GraphDef} {fuel : Nat} {pid : Int}
    {nIdx : Nat} {pm : List (Int × List (Nat × Nat))}
    (h : planForNode F g fuel pid nIdx = some pm) :
    ∃ nd, getNode g nIdx = some nd ∧
      ∀ p us, (p, us) ∈ pm → ∀ u ∈ us, UseOk g nd.name p u := by
  rw [planForNode_eq] at h
  rcases hnd : getNode g nIdx with _ | nd
  · rw [hnd] at h
    simp at h
  · rw [hnd] at h
    simp only [Option.some_bind] at h
    refine ⟨nd, rfl, ?_⟩
    by_cases hsw : isSwapOp nd.op = true
    · rw [if_pos hsw] at h
      injection h with h
      subst h
      simp
    · rw [if_neg hsw] at h
      by_cases hdev : F.parseDeviceType nd.device ≠ "GPU" ∧ F.parseDeviceType nd.device ≠ "gpu"
      · rw [if_pos hdev] at h
        injection h with h
        subst h
        simp
      · rw [if_neg hdev] at h
        intro p us hmem u hu
        have hmem2 := (filterPorts_mem F g fuel nIdx _ pm h p us).mp hmem
        exact candidatesFor_use hnd p us hmem2.1 u hu

/-- Validity of a whole plan relative to the (pre-rewrite) graph `g`. -/
def PlanOk (g : GraphDef) (plan : List (Nat × List (Int × List (Nat × Nat)))) : Prop :=
  ∀ n pm, (n, pm) ∈ plan → ∃ nd, getNode g n = some nd ∧
    ∀ p us, (p, us) ∈ pm → ∀ u ∈ us, UseOk g nd.name p u

theorem buildPlanNodes_use (F : Framework) (g : GraphDef) (fuel : Nat) (pid : Int) :
    ∀ (ns : List Nat) (acc res : List (Nat × List (Int × List (Nat × Nat)))),
      buildPlanNodes F g fuel pid ns acc = some res → PlanOk g acc → PlanOk g res
  | [], acc, res, h, hacc => by
      rw [show buildPlanNodes F g fuel pid [] acc = some acc from rfl] at h
      injection h with h
      subst h
      exact hacc
  | n :: ns, acc, res, h, hacc => by
      rw [buildPlanNodes_cons] at h
      rcases hpm : planForNode F g fuel pid n with _ | pm
      · rw [hpm] at h
        simp at h
      · rw [hpm] at h
        simp only [Option.some_bind] at h
        apply buildPlanNodes_use F g fuel pid ns _ res h
        by_cases hcond : pm ≠ [] ∧ ¬ acc.any (fun e => e.1 == n)
        · rw [if_pos hcond]
          intro n2 pm2 hmem
          rcases List.mem_append.mp hmem with hin | hin
          · exact hacc n2 pm2 hin
          · simp at hin
            rcases hin with ⟨h1, h2⟩
            subst h1
            subst h2
            rcases planForNode_use hpm with ⟨nd, hnd, huse⟩
            exact ⟨nd, hnd, huse⟩
        · rw [if_neg hcond]
          exact hacc

theorem buildPlan_use (F : Framework) (g : GraphDef) (fuel : Nat) :
    ∀ (parts : List (Int × List Nat)) (acc res : List (Nat × List (Int × List (Nat × Nat)))),
      buildPlan F g fuel parts acc = some res → PlanOk g acc → PlanOk g res
  | [], acc, res, h, hacc => by
      rw [show buildPlan F g fuel [] acc = some acc from rfl] at h
      injection h with h
      subst h
      exact hacc
  | (pid, ns) :: parts, acc, res, h, hacc => by
      rw [buildPlan_cons] at h
      rcases hacc2 : buildPlanNodes F g fuel pid ns acc with _ | acc2
      · rw [hacc2] at h
        simp at h
      · rw [hacc2] at h
        simp only [Option.some_bind] at h
        exact buildPlan_use F g fuel parts acc2 res h
          (buildPlanNodes_use F g fuel pid ns acc acc2 hacc2 hacc)

end GraphRw

namespace GraphRw

/-- A complete swap chain sitting in `g` above the original region
`[0, len0)`: the node at `jIdx` is a freshly added `_CopyFromHostToGpu`
swap-in named `nm` whose single data input references a freshly added
`_CopyFromGpuToHost` swap-out, whose single data input parses to
`(genName, p)` — the generator output the chain forwards. -/
def SwapInChain (len0 : Nat) (g : GraphDef) (jIdx : Nat) (nm genName : String)
    (p : Int) : Prop :=
  ∃ sj outr kIdx sk rr,
    len0 ≤ jIdx ∧ getNode g jIdx = some sj ∧ sj.name = nm ∧
    sj.op = "_CopyFromHostToGpu" ∧ isControlRef nm = false ∧
    parseRef nm = (nm, 0) ∧ dataInputs sj.input = [outr] ∧
    isControlRef outr = false ∧ parseRef outr = (sk.name, 0) ∧
    len0 ≤ kIdx ∧ getNode g kIdx = some sk ∧ sk.op = "_CopyFromGpuToHost" ∧
    dataInputs sk.input = [rr] ∧ isControlRef rr = false ∧
    parseRef rr = (genName, p)

/-- Slot rewiring: the non-control original reference `r0` has been replaced
by the name of a new swap-in whose chain forwards exactly the output `r0`
referenced. -/
def RewiredTo (len0 : Nat) (g : GraphDef) (r0 r : String) : Prop :=
  isControlRef r0 = false ∧
  ∃ jIdx genName p, parseRef r0 = (genName, p) ∧ SwapInChain len0 g jIdx r genName p

/-- Correspondence between an original node `nd0` and its post-rewrite
version `nd` inside the rewritten graph `g`: all scalar fields are
preserved (attributes up to the `_class` colocation tag), and every input
slot is unchanged or rewired to a new swap-in. -/
def ExtNode (len0 : Nat) (g : GraphDef) (nd0 nd : NodeDef) : Prop :=
  nd.name = nd0.name ∧ nd.op = nd0.op ∧ nd.device = nd0.device ∧
  nd.priority = nd0.priority ∧ stripClass nd.attr = stripClass nd0.attr ∧
  nd.input.length = nd0.input.length ∧
  ∀ q r0, List.get? nd0.input q = some r0 →
    List.get? nd.input q = some r0 ∨
    ∃ r, List.get? nd.input q = some r ∧ RewiredTo len0 g r0 r

/-- The rewrite relation: `g` extends `g0` with swap nodes only, preserving
every original node up to slot rewiring. -/
def Ext (g0 g : GraphDef) : Prop :=
  List.length g0 ≤ List.length g ∧
  (∀ i nd0, getNode g0 i = some nd0 →
    ∃ nd, getNode g i = some nd ∧ ExtNode (List.length g0) g nd0 nd) ∧
  (∀ j nd, List.length g0 ≤ j → getNode g j = some nd → isSwapOp nd.op = true)

theorem chain_append {len0 : Nat} {g : GraphDef} {jIdx : Nat} {nm genName : String}
    {p : Int} (h : SwapInChain len0 g jIdx nm genName p) (l : GraphDef) :
    SwapInChain len0 (g ++ l) jIdx nm genName p := by
  rcases h with ⟨sj, outr, kIdx, sk, rr, h1, h2, h3, h4, h5, h6, h7, h8, h9, h10, h11,
    h12, h13, h14, h15⟩
  exact ⟨sj, outr, kIdx, sk, rr, h1, by
    rw [← h2]
    exact getNode_append_lt g l jIdx (get?_some_lt h2), h3, h4, h5, h6, h7, h8, h9, h10, by
    rw [← h11]
    exact getNode_append_lt g l kIdx (get?_some_lt h11), h12, h13, h14, h15⟩

theorem chain_updNode {len0 : Nat} {g : GraphDef} {jIdx : Nat} {nm genName : String}
    {p : Int} (h : SwapInChain len0 g jIdx nm genName p) {c : Nat} (hc : c < len0)
    (f : NodeDef → NodeDef) :
    SwapInChain len0 (updNode g c f) jIdx nm genName p := by
  rcases h with ⟨sj, outr, kIdx, sk, rr, h1, h2, h3, h4, h5, h6, h7, h8, h9, h10, h11,
    h12, h13, h14, h15⟩
  refine ⟨sj, outr, kIdx, sk, rr, h1, ?_, h3, h4, h5, h6, h7, h8, h9, h10, ?_, h12, h13,
    h14, h15⟩
  · rw [getNode_updNode_ne g c f jIdx (by omega)]
    exact h2
  · rw [getNode_updNode_ne g c f kIdx (by omega)]
    exact h11

theorem rewired_append {len0 : Nat} {g : GraphDef} {r0 r : String}
    (h : RewiredTo len0 g r0 r) (l : GraphDef) : RewiredTo len0 (g ++ l) r0 r := by
  rcases h with ⟨hc, jIdx, genName, p, hp, hchain⟩
  exact ⟨hc, jIdx, genName, p, hp, chain_append hchain l⟩

theorem rewired_updNode {len0 : Nat} {g : GraphDef} {r0 r : String}
    (h : RewiredTo len0 g r0 r) {c : Nat} (hc : c < len0) (f : NodeDef → NodeDef) :
    RewiredTo len0 (updNode g c f) r0 r := by
  rcases h with ⟨hcc, jIdx, genName, p, hp, hchain⟩
  exact ⟨hcc, jIdx, genName, p, hp, chain_updNode hchain hc f⟩

theorem extNode_append {len0 : Nat} {g : GraphDef} {nd0 nd : NodeDef}
    (h : ExtNode len0 g nd0 nd) (l : GraphDef) : ExtNode len0 (g ++ l) nd0 nd := by
  rcases h with ⟨h1, h2, h3, h4, h5, h6, h7⟩
  refine ⟨h1, h2, h3, h4, h5, h6, ?_⟩
  intro q r0 hq
  rcases h7 q r0 hq with hsame | ⟨r, hr, hrw⟩
  · exact Or.inl hsame
  · exact Or.inr ⟨r, hr, rewired_append hrw l⟩

theorem extNode_updNode {len0 : Nat} {g : GraphDef} {nd0 nd : NodeDef}
    (h : ExtNode len0 g nd0 nd) {c : Nat} (hc : c < len0) (f : NodeDef → NodeDef) :
    ExtNode len0 (updNode g c f) nd0 nd := by
  rcases h with ⟨h1, h2, h3, h4, h5, h6, h7⟩
  refine ⟨h1, h2, h3, h4, h5, h6, ?_⟩
  intro q r0 hq
  rcases h7 q r0 hq with hsame | ⟨r, hr, hrw⟩
  · exact Or.inl hsame
  · exact Or.inr ⟨r, hr, rewired_updNode hrw hc f⟩

theorem Ext_refl (g : GraphDef) : Ext g g := by
  refine ⟨le_rfl, ?_, ?_⟩
  · intro i nd0 hnd0
    exact ⟨nd0, hnd0, rfl, rfl, rfl, rfl, rfl, rfl, fun q r0 hq => Or.inl hq⟩
  · intro j nd hj hnd
    have := get?_some_lt hnd
    omega

theorem Ext_append_swap {g0 g : GraphDef} (h : Ext g0 g) {nd : NodeDef}
    (hsw : isSwapOp nd.op = true) : Ext g0 (g ++ [nd]) := by
  rcases h with ⟨hlen, horig, hnew⟩
  refine ⟨by rw [List.length_append]; simp; omega, ?_, ?_⟩
  · intro i nd0 hnd0
    rcases horig i nd0 hnd0 with ⟨nd2, hnd2, hext⟩
    refine ⟨nd2, ?_, extNode_append hext [nd]⟩
    rw [← hnd2]
    exact getNode_append_lt g [nd] i (get?_some_lt hnd2)
  · intro j nd2 hj hnd2
    have hjlen : j < List.length g + 1 := by
      have := get?_some_lt hnd2
      rw [List.length_append] at this
      simpa using this
    by_cases hjg : j < List.length g
    · rw [getNode_append_lt g [nd] j hjg] at hnd2
      exact hnew j nd2 hj hnd2
    · have hje : j = List.length g := by omega
      subst hje
      rw [getNode_append_self] at hnd2
      injection hnd2 with hnd2
      subst hnd2
      exact hsw

theorem Ext_upd_rewire {g0 g : GraphDef} (h : Ext g0 g) {c : Nat} {cnd0 : NodeDef}
    (hc : getNode g0 c = some cnd0) {q : Nat} {r0 : String}
    (hq : List.get? cnd0.input q = some r0) {r : String}
    (hrw : RewiredTo (List.length g0) g r0 r) :
    Ext g0 (updNode g c (fun nd => setInputStr nd q r)) := by
  have hclen : c < List.length g0 := get?_some_lt hc
  rcases h with ⟨hlen, horig, hnew⟩
  refine ⟨by rw [length_updNode]; omega, ?_, ?_⟩
  · intro i nd0 hnd0
    rcases horig i nd0 hnd0 with ⟨nd2, hnd2, hext⟩
    by_cases hic : i = c
    · subst hic
      refine ⟨setInputStr nd2 q r, ?_, ?_⟩
      · rw [getNode_updNode_eq, hnd2]
        rfl
      · rcases hext with ⟨h1, h2, h3, h4, h5, h6, h7⟩
        have hcnd0 : cnd0 = nd0 := by
          rw [hc] at hnd0
          exact Option.some.inj hnd0
        subst hcnd0
        refine ⟨h1, h2, h3, h4, h5, by
          show (nd2.input.set q r).length = _
          rw [List.length_set]
          exact h6, ?_⟩
        intro q2 r2 hq2
        by_cases hqq : q2 = q
        · subst hqq
          have hr2 : r2 = r0 := by
            rw [hq] at hq2
            exact (Option.some.inj hq2).symm
          subst hr2
          refine Or.inr ⟨r, ?_, rewired_updNode hrw hclen _⟩
          show (nd2.input.set q2 r).get? q2 = some r
          apply get?_set_self
          rw [h6]
          exact get?_some_lt hq2
        · rcases h7 q2 r2 hq2 with hsame | ⟨r3, hr3, hrw3⟩
          · refine Or.inl ?_
            show (nd2.input.set q r).get? q2 = some r2
            rw [get?_set_ne nd2.input q q2 r (by omega)]
            exact hsame
          · refine Or.inr ⟨r3, ?_, rewired_updNode hrw3 hclen _⟩
            show (nd2.input.set q r).get? q2 = some r3
            rw [get?_set_ne nd2.input q q2 r (by omega)]
            exact hr3
    · rcases horig i nd0 hnd0 with ⟨nd3, hnd3, hext3⟩
      refine ⟨nd3, ?_, extNode_updNode hext3 hclen _⟩
      rw [getNode_updNode_ne g c _ i (by omega)]
      exact hnd3
  · intro j nd2 hj hnd2
    rw [getNode_updNode_ne g c _ j (by omega)] at hnd2
    exact hnew j nd2 hj hnd2

theorem Ext_upd_attr {g0 g : GraphDef} (h : Ext g0 g) {c : Nat}
    (hc : c < List.length g0) (tag : String) :
    Ext g0 (updNode g c (fun nd => { nd with attr := appendClass nd.attr tag })) := by
  rcases h with ⟨hlen, horig, hnew⟩
  refine ⟨by rw [length_updNode]; omega, ?_, ?_⟩
  · intro i nd0 hnd0
    rcases horig i nd0 hnd0 with ⟨nd2, hnd2, hext⟩
    by_cases hic : i = c
    · subst hic
      refine ⟨{ nd2 with attr := appendClass nd2.attr tag }, ?_, ?_⟩
      · rw [getNode_updNode_eq, hnd2]
        rfl
      · rcases hext with ⟨h1, h2, h3, h4, h5, h6, h7⟩
        refine ⟨h1, h2, h3, h4, ?_, h6, ?_⟩
        · show stripClass (appendClass nd2.attr tag) = _
          rw [stripClass_appendClass]
          exact h5
        · intro q2 r2 hq2
          rcases h7 q2 r2 hq2 with hsame | ⟨r3, hr3, hrw3⟩
          · exact Or.inl hsame
          · exact Or.inr ⟨r3, hr3, rewired_updNode hrw3 hc _⟩
    · rcases horig i nd0 hnd0 with ⟨nd3, hnd3, hext3⟩
      refine ⟨nd3, ?_, extNode_updNode hext3 hc _⟩
      rw [getNode_updNode_ne g c _ i (by omega)]
      exact hnd3
  · intro j nd2 hj hnd2
    rw [getNode_updNode_ne g c _ j (by omega)] at hnd2
    exact hnew j nd2 hj hnd2

end GraphRw

namespace GraphRw

/-- The swap-out node of the current port sits in `g` above `len0` under the
name `outName` and forwards generator output `(genName, p)`. -/
def OutNodeAt (len0 : Nat) (g : GraphDef) (outName genName : String) (p : Int) : Prop :=
  isControlRef outName = false ∧ parseRef outName = (outName, 0) ∧
  ∃ kIdx sk, len0 ≤ kIdx ∧ getNode g kIdx = some sk ∧ sk.name = outName ∧
    sk.op = "_CopyFromGpuToHost" ∧
    ∃ rr, dataInputs sk.input = [rr] ∧ isControlRef rr = false ∧
      parseRef rr = (genName, p)

theorem outNodeAt_append {len0 : Nat} {g : GraphDef} {outName genName : String} {p : Int}
    (h : OutNodeAt len0 g outName genName p) (l : GraphDef) :
    OutNodeAt len0 (g ++ l) outName genName p := by
  rcases h with ⟨h1, h2, kIdx, sk, h3, h4, h5, h6, rr, h7, h8, h9⟩
  refine ⟨h1, h2, kIdx, sk, h3, ?_, h5, h6, rr, h7, h8, h9⟩
  rw [← h4]
  exact getNode_append_lt g l kIdx (get?_some_lt h4)

theorem outNodeAt_updNode {len0 : Nat} {g : GraphDef} {outName genName : String}
    {p : Int} (h : OutNodeAt len0 g outName genName p) {c : Nat} (hc : c < len0)
    (f : NodeDef → NodeDef) : OutNodeAt len0 (updNode g c f) outName genName p := by
  rcases h with ⟨h1, h2, kIdx, sk, h3, h4, h5, h6, rr, h7, h8, h9⟩
  refine ⟨h1, h2, kIdx, sk, h3, ?_, h5, h6, rr, h7, h8, h9⟩
  rw [getNode_updNode_ne g c f kIdx (by omega)]
  exact h4

theorem swapInName_eq (base : String) (cnd : NodeDef) (q : Nat) :
    swapInNameFor base cnd q = (base ++ "_" ++ cnd.name) ++ "_" ++ natToStr q := rfl

theorem swapInName_ctrl {base : String} (hbase : isControlRef base = false)
    (hbne : base.data ≠ []) (cnd : NodeDef) (q : Nat) :
    isControlRef (swapInNameFor base cnd q) = false := by
  rw [swapInName_eq]
  rw [isControl_append_left _ _ (data_append_ne _ _ (data_append_ne _ _
    (data_append_ne _ _ hbne)))]
  rw [isControl_append_left _ _ (data_append_ne _ _ (data_append_ne _ _ hbne))]
  rw [isControl_append_left _ _ (data_append_ne _ _ hbne)]
  rw [isControl_append_left _ _ hbne]
  exact hbase

theorem swapInName_parse (base : String) (cnd : NodeDef) (q : Nat) :
    parseRef (swapInNameFor base cnd q) = (swapInNameFor base cnd q, 0) :=
  parseRef_underscore (base ++ "_" ++ cnd.name) q

/-- The node `createSwapIn` appends. -/
def swapInNodeFor (outName coloc : String) (otype : Nat) (genDevice base : String)
    (prevName : Option String) (cnd : NodeDef) (q : Nat) : NodeDef where
  name := swapInNameFor base cnd q
  op := "_CopyFromHostToGpu"
  device := genDevice
  input := [outName] ++ (match prevName with
    | some nm => ["^" ++ nm]
    | none => [])
  priority := max (cnd.priority - 1) 0
  attr := [("_class", .strList [coloc]), ("T", .dtype otype)]

theorem createSwapIn_eq (outName coloc : String) (otype : Nat) (genDevice base : String)
    (g : GraphDef) (prevName : Option String) (cnd : NodeDef) (q : Nat) :
    createSwapIn outName coloc otype genDevice base g prevName cnd q =
      (g ++ [swapInNodeFor outName coloc otype genDevice base prevName cnd q],
        List.length g) := rfl

/-- The chain facts of a freshly appended swap-in node. -/
theorem chain_createSwapIn {len0 : Nat} {g : GraphDef} {outName : String}
    (coloc : String) (otype : Nat) (genDevice : String) {base : String}
    {genName : String} {p : Int}
    (hout : OutNodeAt len0 g outName genName p)
    (hbase : isControlRef base = false) (hbne : base.data ≠ [])
    (hlen : len0 ≤ List.length g)
    (prevName : Option String) (cnd : NodeDef) (q : Nat) :
    SwapInChain len0 (createSwapIn outName coloc otype genDevice base g prevName cnd q).1
      (createSwapIn outName coloc otype genDevice base g prevName cnd q).2
      (swapInNameFor base cnd q) genName p := by
  rcases hout with ⟨hoc, hop, kIdx, sk, hk1, hk2, hk3, hk4, rr, hk5, hk6, hk7⟩
  rw [createSwapIn_eq]
  refine ⟨swapInNodeFor outName coloc otype genDevice base prevName cnd q,
    outName, kIdx, sk, rr, hlen, ?_, rfl, rfl,
    swapInName_ctrl hbase hbne cnd q, swapInName_parse base cnd q, ?_, hoc, ?_,
    hk1, ?_, hk4, hk5, hk6, hk7⟩
  · exact getNode_append_self g _
  · show dataInputs ([outName] ++ (match prevName with
      | some nm => ["^" ++ nm]
      | none => [])) = [outName]
    cases prevName with
    | none =>
        unfold dataInputs
        simp [hoc]
    | some nm =>
        unfold dataInputs
        simp [hoc, isControl_caret]
  · rw [hk3]
    exact hop
  · rw [← hk2]
    exact getNode_append_lt g _ kIdx (get?_some_lt hk2)

end GraphRw

namespace GraphRw

theorem processUses_ext {g0 : GraphDef} {outName coloc : String} {otype : Nat}
    {genDevice base : String} {genName : String} {p : Int}
    (hbase : isControlRef base = false) (hbne : base.data ≠ []) :
    ∀ (uses : List (Nat × Nat)) (g : GraphDef) (prevC prevS : Option Nat)
      (g2 : GraphDef),
    processUses outName coloc otype genDevice base uses g prevC prevS = some g2 →
    Ext g0 g →
    OutNodeAt (List.length g0) g outName genName p →
    (∀ sIdx, prevS = some sIdx → ∃ snd, getNode g sIdx = some snd ∧
        SwapInChain (List.length g0) g sIdx snd.name genName p) →
    (∀ u ∈ uses, UseOk g0 genName p u) →
    Ext g0 g2
  | [], g, prevC, prevS, g2, h, hext, _, _, _ => by
      rw [show processUses outName coloc otype genDevice base [] g prevC prevS = some g
        from rfl] at h
      injection h with h
      subst h
      exact hext
  | (c, q) :: rest, g, none, prevS, g2, h, hext, hout, hprev, huses => by
      rw [processUses_cons_none] at h
      rcases huses (c, q) (List.mem_cons_self _ _) with ⟨cnd0, r0, hc0, hq0, hctrl0, hparse0⟩
      have hclt : c < List.length g0 := get?_some_lt hc0
      rcases hcnd : getNode g c with _ | cnd
      · rw [hcnd] at h
        exact Option.noConfusion h
      · rw [hcnd] at h
        simp only [Option.some_bind] at h
        rw [createSwapIn_eq] at h
        dsimp only at h
        have hchain : SwapInChain (List.length g0)
            (g ++ [swapInNodeFor outName coloc otype genDevice base none cnd q])
            (List.length g) (swapInNameFor base cnd q) genName p := by
          have := chain_createSwapIn coloc otype genDevice hout hbase hbne
            hext.1 none cnd q
          rw [createSwapIn_eq] at this
          exact this
        have hrw : RewiredTo (List.length g0)
            (g ++ [swapInNodeFor outName coloc otype genDevice base none cnd q])
            r0 (swapInNameFor base cnd q) :=
          ⟨hctrl0, List.length g, genName, p, hparse0, hchain⟩
        have hextA : Ext g0 (g ++ [swapInNodeFor outName coloc otype genDevice base
            none cnd q]) := Ext_append_swap hext rfl
        have hextB := Ext_upd_rewire hextA hc0 hq0 hrw
        refine processUses_ext hbase hbne rest _ (some c) _ g2 h hextB ?_ ?_
          (fun u hu => huses u (List.mem_cons_of_mem _ hu))
        · exact outNodeAt_updNode (outNodeAt_append hout _) hclt _
        · intro sIdx hs
          injection hs with hs
          subst hs
          refine ⟨swapInNodeFor outName coloc otype genDevice base none cnd q, ?_, ?_⟩
          · rw [getNode_updNode_ne _ _ _ _ (by
              have := hext.1
              omega)]
            exact getNode_append_self g _
          · exact chain_updNode hchain (by omega) _
  | (c, q) :: rest, g, some pIdx, prevS, g2, h, hext, hout, hprev, huses => by
      rw [processUses_cons_some] at h
      rcases huses (c, q) (List.mem_cons_self _ _) with ⟨cnd0, r0, hc0, hq0, hctrl0, hparse0⟩
      have hclt : c < List.length g0 := get?_some_lt hc0
      rcases hcnd : getNode g c with _ | cnd
      · rw [hcnd] at h
        exact Option.noConfusion h
      · rw [hcnd] at h
        simp only [Option.some_bind] at h
        rcases hpnd : getNode g pIdx with _ | pnd
        · rw [hpnd] at h
          exact Option.noConfusion h
        · rw [hpnd] at h
          simp only [Option.some_bind] at h
          by_cases hlt : pnd.priority + 1 < cnd.priority
          · rw [if_pos hlt] at h
            rw [createSwapIn_eq] at h
            dsimp only at h
            have hchain : SwapInChain (List.length g0)
                (g ++ [swapInNodeFor outName coloc otype genDevice base
                  (some pnd.name) cnd q])
                (List.length g) (swapInNameFor base cnd q) genName p := by
              have := chain_createSwapIn coloc otype genDevice hout hbase hbne
                hext.1 (some pnd.name) cnd q
              rw [createSwapIn_eq] at this
              exact this
            have hrw : RewiredTo (List.length g0)
                (g ++ [swapInNodeFor outName coloc otype genDevice base
                  (some pnd.name) cnd q])
                r0 (swapInNameFor base cnd q) :=
              ⟨hctrl0, List.length g, genName, p, hparse0, hchain⟩
            have hextA : Ext g0 (g ++ [swapInNodeFor outName coloc otype genDevice base
                (some pnd.name) cnd q]) := Ext_append_swap hext rfl
            have hextB := Ext_upd_rewire hextA hc0 hq0 hrw
            refine processUses_ext hbase hbne rest _ (some c) _ g2 h hextB ?_ ?_
              (fun u hu => huses u (List.mem_cons_of_mem _ hu))
            · exact outNodeAt_updNode (outNodeAt_append hout _) hclt _
            · intro sIdx hs
              injection hs with hs
              subst hs
              refine ⟨swapInNodeFor outName coloc otype genDevice base
                (some pnd.name) cnd q, ?_, ?_⟩
              · rw [getNode_updNode_ne _ _ _ _ (by
                  have := hext.1
                  omega)]
                exact getNode_append_self g _
              · exact chain_updNode hchain (by omega) _
          · rw [if_neg hlt] at h
            by_cases heq : pnd.priority = cnd.priority ∨ pnd.priority + 1 = cnd.priority
            · rw [if_pos heq] at h
              cases prevS with
              | none => exact Option.noConfusion h
              | some sIdx =>
                  dsimp only at h
                  rcases hprev sIdx rfl with ⟨snd, hsnd, hchainS⟩
                  rw [hsnd] at h
                  simp only [Option.some_bind] at h
                  have hrw : RewiredTo (List.length g0) g r0 snd.name :=
                    ⟨hctrl0, sIdx, genName, p, hparse0, hchainS⟩
                  have hextB := Ext_upd_rewire hext hc0 hq0 hrw
                  have hsle : List.length g0 ≤ sIdx := by
                    rcases hchainS with ⟨sj, outr, kIdx, sk, rr, h1, -⟩
                    exact h1
                  refine processUses_ext hbase hbne rest _ (some c) (some sIdx) g2 h
                    hextB ?_ ?_ (fun u hu => huses u (List.mem_cons_of_mem _ hu))
                  · exact outNodeAt_updNode hout hclt _
                  · intro sIdx2 hs
                    injection hs with hs
                    subst hs
                    refine ⟨snd, ?_, chain_updNode hchainS (by omega) _⟩
                    rw [getNode_updNode_ne _ _ _ _ (by omega)]
                    exact hsnd
            · rw [if_neg heq] at h
              exact Option.noConfusion h

end GraphRw

namespace GraphRw

theorem parseRefData_fst (cs : List Char) :
    (parseRefData cs).1 = cs ∨ ∃ t, cs = (parseRefData cs).1 ++ ':' :: t := by
  rw [parseRefData_eq]
  split
  · rename_i more heq
    by_cases hemp : (cs.reverse.takeWhile (fun c => c.isDigit)).isEmpty = true
    · rw [if_pos hemp]
      exact Or.inl rfl
    · rw [if_neg hemp]
      refine Or.inr ⟨(cs.reverse.takeWhile (fun c => c.isDigit)).reverse, ?_⟩
      have hsplit : List.takeWhile (fun c => c.isDigit) cs.reverse ++ ':' :: more
          = cs.reverse := by
        rw [← heq]
        exact List.takeWhile_append_dropWhile _ _
      have h2 := congrArg List.reverse hsplit
      rw [List.reverse_reverse] at h2
      conv_lhs => rw [← h2]
      simp
  · exact Or.inl rfl

theorem isControl_data_congr {a b : String} (h : a.data = b.data) :
    isControlRef a = isControlRef b := by
  unfold isControlRef
  rw [h]

theorem ctrl_colon {nm : String} {n : Nat} {r0 : String}
    (hctrl0 : isControlRef r0 = false) (hparse0 : (parseRef r0).1 = nm) :
    isControlRef (nm ++ ":" ++ natToStr n) = false := by
  have hdata : (parseRefData r0.data).1 = nm.data := by
    have := congrArg String.data hparse0
    exact this
  cases hd : nm.data with
  | nil =>
      have hall : (nm ++ ":" ++ natToStr n).data = ':' :: (natToStr n).data := by
        rw [String.data_append, String.data_append, hd]
        simp
      unfold isControlRef
      rw [hall, ctlHead]
      rfl
  | cons c l =>
      have h1 : isControlRef (nm ++ ":" ++ natToStr n) = isControlRef nm := by
        rw [isControl_append_left _ _ (data_append_ne _ _ (by rw [hd]; simp)),
          isControl_append_left _ _ (by rw [hd]; simp)]
      rw [h1]
      rcases parseRefData_fst r0.data with hsame | ⟨t, hsplit⟩
      · rw [hdata] at hsame
        rw [isControl_data_congr hsame]
        exact hctrl0
      · rw [hdata] at hsplit
        unfold isControlRef at hctrl0 ⊢
        rw [hsplit, hd] at hctrl0
        rw [hd]
        rw [List.cons_append, ctlHead] at hctrl0
        rw [ctlHead]
        exact hctrl0

/-- The swap-out node `AddSwapNodesForOneNode` creates for port `p`. -/
def swapOutNodeFor (gen : NodeDef) (p : Int) (otype : Nat) : NodeDef where
  name := "swap_out_" ++ (gen.name ++ "_" ++ intToStr p)
  op := "_CopyFromGpuToHost"
  device := gen.device
  input := [gen.name ++ ":" ++ intToStr p]
  priority := gen.priority
  attr := [("_class", .strList ["loc@" ++ (gen.name ++ "_" ++ intToStr p)]),
    ("T", .dtype otype)]

/-- `(*node->mutable_attr())["_class"]...add_s(tag)` as a node transform. -/
def tagAttr (tag : String) (nd : NodeDef) : NodeDef :=
  { nd with attr := appendClass nd.attr tag }

theorem processPort_eq (F : Framework) (opDef genIdx : Nat) (g : GraphDef)
    (entry : Int × List (Nat × Nat)) :
    processPort F opDef genIdx g entry = (getNode g genIdx).bind (fun gen =>
      match F.outputTypeForNode gen opDef entry.1 with
      | none => none
      | some otype =>
          if F.isRefType otype then none
          else
            processUses ("swap_out_" ++ (gen.name ++ "_" ++ intToStr entry.1))
              ("loc@" ++ (gen.name ++ "_" ++ intToStr entry.1)) otype gen.device
              ("swap_in_" ++ (gen.name ++ "_" ++ intToStr entry.1))
              (sortUses (updNode (g ++ [swapOutNodeFor gen entry.1 otype]) genIdx
                  (tagAttr ("loc@" ++ (gen.name ++ "_" ++ intToStr entry.1)))) entry.2)
              (updNode (g ++ [swapOutNodeFor gen entry.1 otype]) genIdx
                (tagAttr ("loc@" ++ (gen.name ++ "_" ++ intToStr entry.1))))
              none none) := rfl

end GraphRw

namespace GraphRw

theorem processPort_ext {F : Framework} {opDef genIdx : Nat} {g0 g g2 : GraphDef}
    {entry : Int × List (Nat × Nat)} {gen0 : NodeDef}
    (hgen0 : getNode g0 genIdx = some gen0)
    (huse : ∀ u ∈ entry.2, UseOk g0 gen0.name entry.1 u)
    (hext : Ext g0 g)
    (h : processPort F opDef genIdx g entry = some g2) : Ext g0 g2 := by
  rw [processPort_eq] at h
  rcases hext.2.1 genIdx gen0 hgen0 with ⟨gen, hgen, hgenext⟩
  rw [hgen] at h
  simp only [Option.some_bind] at h
  rcases hot : F.outputTypeForNode gen opDef entry.1 with _ | otype
  · rw [hot] at h
    exact Option.noConfusion h
  · rw [hot] at h
    dsimp only at h
    by_cases href : F.isRefType otype = true
    · rw [if_pos href] at h
      exact Option.noConfusion h
    · rw [if_neg href] at h
      have hglt : genIdx < List.length g0 := get?_some_lt hgen0
      have hname : gen.name = gen0.name := hgenext.1
      have hextA : Ext g0 (g ++ [swapOutNodeFor gen entry.1 otype]) :=
        Ext_append_swap hext rfl
      have hextB : Ext g0 (updNode (g ++ [swapOutNodeFor gen entry.1 otype]) genIdx
          (tagAttr ("loc@" ++ (gen.name ++ "_" ++ intToStr entry.1)))) :=
        Ext_upd_attr hextA hglt _
      rcases hsu : sortUses (updNode (g ++ [swapOutNodeFor gen entry.1 otype]) genIdx
          (tagAttr ("loc@" ++ (gen.name ++ "_" ++ intToStr entry.1)))) entry.2 with
        _ | ⟨u0, us2⟩
      · rw [hsu] at h
        rw [show ∀ (gb : GraphDef) (oN cl gd bs : String),
            processUses oN cl otype gd bs [] gb none none = some gb
          from fun _ _ _ _ _ => rfl] at h
        injection h with h
        subst h
        exact hextB
      · rw [hsu] at h
        have hu0 : u0 ∈ entry.2 := by
          apply mem_sortUses _ entry.2 u0
          rw [hsu]
          exact List.mem_cons_self _ _
        rcases huse u0 hu0 with ⟨cnd0, r0, hc0, hq0, hctrl0, hparse0⟩
        have hp : 0 ≤ entry.1 := by
          have := parseRef_port_nonneg r0
          rw [hparse0] at this
          exact this
        have hparse1 : (parseRef r0).1 = gen0.name := by
          rw [hparse0]
        have hrrctrl : isControlRef (gen.name ++ ":" ++ intToStr entry.1) = false := by
          rw [intToStr_nonneg entry.1 hp, hname]
          exact ctrl_colon hctrl0 hparse1
        have hrrparse : parseRef (gen.name ++ ":" ++ intToStr entry.1)
            = (gen0.name, entry.1) := by
          rw [intToStr_nonneg entry.1 hp, hname, parseRef_colon]
          rw [Int.toNat_of_nonneg hp]
        have houtassoc : "swap_out_" ++ (gen.name ++ "_" ++ intToStr entry.1)
            = ("swap_out_" ++ gen.name) ++ "_" ++ natToStr entry.1.toNat := by
          rw [intToStr_nonneg entry.1 hp]
          rw [← String.append_assoc, ← String.append_assoc]
        have houtparse : parseRef ("swap_out_" ++ (gen.name ++ "_" ++ intToStr entry.1))
            = ("swap_out_" ++ (gen.name ++ "_" ++ intToStr entry.1), 0) := by
          rw [houtassoc]
          exact parseRef_underscore ("swap_out_" ++ gen.name) entry.1.toNat
        have houtctrl : isControlRef ("swap_out_" ++ (gen.name ++ "_" ++ intToStr entry.1))
            = false := by
          rw [isControl_append_left _ _ (by decide)]
          rfl
        have hout : OutNodeAt (List.length g0)
            (updNode (g ++ [swapOutNodeFor gen entry.1 otype]) genIdx
              (tagAttr ("loc@" ++ (gen.name ++ "_" ++ intToStr entry.1))))
            ("swap_out_" ++ (gen.name ++ "_" ++ intToStr entry.1)) gen0.name entry.1 := by
          refine ⟨houtctrl, houtparse, List.length g, swapOutNodeFor gen entry.1 otype,
            hext.1, ?_, rfl, rfl, gen.name ++ ":" ++ intToStr entry.1, ?_, hrrctrl,
            hrrparse⟩
          · rw [getNode_updNode_ne _ _ _ _ (by
              have := hext.1
              omega)]
            exact getNode_append_self g _
          · show dataInputs [gen.name ++ ":" ++ intToStr entry.1] = _
            unfold dataInputs
            simp [hrrctrl]
        refine processUses_ext ?_ ?_ (u0 :: us2) _ none none g2 h hextB hout
          (fun sIdx hs => Option.noConfusion hs) ?_
        · rw [isControl_append_left _ _ (by decide)]
          rfl
        · exact data_append_ne _ _ (by decide)
        · intro u hu
          have hu2 : u ∈ entry.2 := by
            apply mem_sortUses _ entry.2 u
            rw [hsu]
            exact hu
          exact huse u hu2

end GraphRw

namespace GraphRw

theorem processPorts_ext {F : Framework} {opDef genIdx : Nat} {g0 : GraphDef}
    {gen0 : NodeDef} (hgen0 : getNode g0 genIdx = some gen0) :
    ∀ (pm : List (Int × List (Nat × Nat))) (g g2 : GraphDef),
    (∀ p us, (p, us) ∈ pm → ∀ u ∈ us, UseOk g0 gen0.name p u) →
    Ext g0 g →
    processPorts F opDef genIdx pm g = some g2 →
    Ext g0 g2
  | [], g, g2, _, hext, h => by
      rw [show processPorts F opDef genIdx [] g = some g from rfl] at h
      injection h with h
      subst h
      exact hext
  | e :: rest, g, g2, huse, hext, h => by
      rw [show processPorts F opDef genIdx (e :: rest) g =
        (processPort F opDef genIdx g e).bind (processPorts F opDef genIdx rest)
        from rfl] at h
      rcases hpp : processPort F opDef genIdx g e with _ | g3
      · rw [hpp] at h
        exact Option.noConfusion h
      · rw [hpp] at h
        simp only [Option.some_bind] at h
        have hexte : Ext g0 g3 :=
          processPort_ext hgen0 (fun u hu => huse e.1 e.2 (by
            rw [show (e.1, e.2) = e from rfl]
            exact List.mem_cons_self _ _) u hu) hext hpp
        exact processPorts_ext hgen0 rest g3 g2
          (fun p us hm u hu => huse p us (List.mem_cons_of_mem _ hm) u hu) hexte h

theorem AddSwapNodesForOneNode_ext {F : Framework} {genIdx : Nat} {g0 : GraphDef}
    {gen0 : NodeDef} (hgen0 : getNode g0 genIdx = some gen0)
    {pm : List (Int × List (Nat × Nat))} {g g2 : GraphDef}
    (huse : ∀ p us, (p, us) ∈ pm → ∀ u ∈ us, UseOk g0 gen0.name p u)
    (hext : Ext g0 g)
    (h : AddSwapNodesForOneNode F genIdx pm g = some g2) : Ext g0 g2 := by
  unfold AddSwapNodesForOneNode at h
  rcases hgen : getNode g genIdx with _ | gen
  · rw [hgen] at h
    exact Option.noConfusion h
  · rw [hgen] at h
    simp only [Option.bind_eq_bind, Option.some_bind] at h
    rcases hop : F.lookUpOpDef gen.op with _ | opDef
    · rw [hop] at h
      exact Option.noConfusion h
    · rw [hop] at h
      dsimp only at h
      exact processPorts_ext hgen0 pm g g2 huse hext h

theorem applyPlan_ext {F : Framework} {g0 : GraphDef} :
    ∀ (plan : List (Nat × List (Int × List (Nat × Nat)))) (g g2 : GraphDef),
    PlanOk g0 plan →
    Ext g0 g →
    applyPlan F plan g = some g2 →
    Ext g0 g2
  | [], g, g2, _, hext, h => by
      rw [show applyPlan F [] g = some g from rfl] at h
      injection h with h
      subst h
      exact hext
  | (n, pm) :: rest, g, g2, hplan, hext, h => by
      rw [show applyPlan F ((n, pm) :: rest) g =
        (AddSwapNodesForOneNode F n pm g).bind (applyPlan F rest) from rfl] at h
      rcases hstep : AddSwapNodesForOneNode F n pm g with _ | g3
      · rw [hstep] at h
        exact Option.noConfusion h
      · rw [hstep] at h
        simp only [Option.some_bind] at h
        rcases hplan n pm (List.mem_cons_self _ _) with ⟨gen0, hgen0, huse⟩
        have hexte : Ext g0 g3 := AddSwapNodesForOneNode_ext hgen0 huse hext hstep
        exact applyPlan_ext rest g3 g2
          (fun n2 pm2 hm => hplan n2 pm2 (List.mem_cons_of_mem _ hm)) hexte h

/-- The full rewrite extends the input graph: original nodes survive with
slots unchanged or rewired through new swap chains, and all new nodes are
swap ops. -/
theorem SwapTensors_ext {F : Framework} {parts : List (Int × List Nat)}
    {g g2 : GraphDef} (h : SwapTensors F parts g = some g2) : Ext g g2 := by
  unfold SwapTensors at h
  rcases hplan : buildPlan F g (List.length g + 1) parts [] with _ | plan
  · rw [hplan] at h
    exact Option.noConfusion h
  · rw [hplan] at h
    simp only [Option.bind_eq_bind, Option.some_bind] at h
    exact applyPlan_ext plan g g2
      (buildPlan_use F g (List.length g + 1) parts [] plan hplan (by
        intro n pm hm
        simp at hm))
      (Ext_refl g) h

end GraphRw

namespace GraphRw

/-- C7 (rewiring postcondition): when `SwapTensors` succeeds, every input
slot of every original node either still holds its original reference, or
holds the name of a node appended by the rewrite (index ≥ `|g|`) whose op is
`_CopyFromHostToGpu` — a newly created swap-in node.  The original node
itself survives at its index with its name. -/
theorem SwapTensors_rewiring (F : Framework) (parts : List (Int × List Nat))
    (g g2 : GraphDef) (hsw : SwapTensors F parts g = some g2)
    (c : Nat) (cnd0 : NodeDef) (hc : getNode g c = some cnd0)
    (q : Nat) (r0 : String) (hq : List.get? cnd0.input q = some r0) :
    ∃ cnd, getNode g2 c = some cnd ∧ cnd.name = cnd0.name ∧
      (List.get? cnd.input q = some r0 ∨
        ∃ r jIdx sj, List.get? cnd.input q = some r ∧
          List.length g ≤ jIdx ∧ getNode g2 jIdx = some sj ∧ r = sj.name ∧
          sj.op = "_CopyFromHostToGpu") := by
  have hext := SwapTensors_ext hsw
  rcases hext.2.1 c cnd0 hc with ⟨cnd, hcnd, hextn⟩
  refine ⟨cnd, hcnd, hextn.1, ?_⟩
  rcases hextn.2.2.2.2.2.2 q r0 hq with hsame | ⟨r, hr, hrw⟩
  · exact Or.inl hsame
  · rcases hrw with ⟨hctrl0, jIdx, genName, p, hparse0, sj, outr, kIdx, sk, rr,
      h1, h2, h3, h4, h5, h6, h7, h8, h9, h10, h11, h12, h13, h14, h15⟩
    exact Or.inr ⟨r, jIdx, sj, hr, h1, h2, h3.symm, h4⟩

/-- A minimal host framework for concrete runs: every op resolves, output
type 1, nothing persistent or by reference, `gpu0` parses as a GPU. -/
def Fc : Framework where
  lookUpOpDef := fun _ => some 0
  outputTypeForNode := fun _ _ _ => some 1
  isRefType := fun _ => false
  isPersistent := fun _ => false
  parseDeviceType := fun d => if d = "gpu0" then "GPU" else "CPU"

def nA : NodeDef := ⟨"A", "Src", "gpu0", [], 1, []⟩

def nC : NodeDef := ⟨"C", "Use", "gpu0", ["A:0"], 9, []⟩

/-- Producer at wave 1 and consumer at wave 9 on the same GPU: the swap
planner fires on edge `A:0 → C:0`. -/
def gAC : GraphDef := [nA, nC]

def partsAC : List (Int × List Nat) := [(1, [0]), (9, [1])]

/-- The graph `SwapTensors Fc partsAC gAC` produces. -/
def gACswapped : GraphDef :=
  [⟨"A", "Src", "gpu0", [], 1, [("_class", .strList ["loc@A_0"])]⟩,
   ⟨"C", "Use", "gpu0", ["swap_in_A_0_C_0"], 9, []⟩,
   ⟨"swap_out_A_0", "_CopyFromGpuToHost", "gpu0", ["A:0"], 1,
     [("_class", .strList ["loc@A_0"]), ("T", .dtype 1)]⟩,
   ⟨"swap_in_A_0_C_0", "_CopyFromHostToGpu", "gpu0", ["swap_out_A_0"], 8,
     [("_class", .strList ["loc@A_0"]), ("T", .dtype 1)]⟩]

/-- Witness for C7: on the concrete two-node GPU graph the consumer's
rewired slot indeed names the new `_CopyFromHostToGpu` node. -/
theorem SwapTensors_rewiring_witness :
    ∃ cnd, getNode gACswapped 1 = some cnd ∧ cnd.name = nC.name ∧
      (List.get? cnd.input 0 = some "A:0" ∨
        ∃ r jIdx sj, List.get? cnd.input 0 = some r ∧
          List.length gAC ≤ jIdx ∧ getNode gACswapped jIdx = some sj ∧ r = sj.name ∧
          sj.op = "_CopyFromHostToGpu") :=
  SwapTensors_rewiring Fc partsAC gAC gACswapped (by decide) 1 nC (by decide) 0 "A:0"
    (by decide)

end GraphRw

namespace GraphRw

theorem evalPort_succ {V : Type} (sem : NodeSem V) (g : GraphDef) (fuel : Nat)
    (nm : String) :
    evalPort sem g (fuel + 1) nm = (findNodeIdx g nm).bind (fun i =>
      (getNode g i).bind (fun nd =>
        (evalArgsWith (evalPort sem g fuel) (dataInputs nd.input)).bind (fun args =>
          if isSwapOp nd.op then
            match args with
            | v :: _ => some [v]
            | [] => none
          else sem nd.op nd.attr args))) := rfl

theorem evalRefWith_eq {V : Type} (ev : String → Option (List V)) (r : String) :
    evalRefWith ev r = (ev (parseRef r).1).bind
      (fun vs => List.get? vs (parseRef r).2.toNat) := rfl

theorem evalArgsWith_cons_eq {V : Type} (ev : String → Option (List V)) (r : String)
    (rs : List String) :
    evalArgsWith ev (r :: rs) = (evalRefWith ev r).bind (fun v =>
      (evalArgsWith ev rs).bind (fun rest => some (v :: rest))) := rfl

theorem evalArgsWith_congr {V : Type} {ev ev2 : String → Option (List V)}
    (h : ∀ nm vs, ev nm = some vs → ev2 nm = some vs) :
    ∀ (rs : List String) (args : List V),
      evalArgsWith ev rs = some args → evalArgsWith ev2 rs = some args
  | [], args, ha => ha
  | r :: rs, args, ha => by
      rw [evalArgsWith_cons_eq] at ha
      rw [evalArgsWith_cons_eq]
      rcases hv : evalRefWith ev r with _ | v
      · rw [hv] at ha
        exact Option.noConfusion ha
      · rw [hv] at ha
        simp only [Option.some_bind] at ha
        have hv2 : evalRefWith ev2 r = some v := by
          rw [evalRefWith_eq] at hv ⊢
          rcases hev : ev (parseRef r).1 with _ | vs
          · rw [hev] at hv
            exact Option.noConfusion hv
          · rw [hev] at hv
            rw [h _ _ hev]
            exact hv
        rw [hv2]
        simp only [Option.some_bind]
        rcases hrest : evalArgsWith ev rs with _ | rest
        · rw [hrest] at ha
          exact Option.noConfusion ha
        · rw [hrest] at ha
          simp only [Option.some_bind] at ha
          rw [evalArgsWith_congr h rs rest hrest]
          simpa using ha

theorem evalPort_mono {V : Type} (sem : NodeSem V) (g : GraphDef) :
    ∀ (fuel fuel2 : Nat), fuel ≤ fuel2 → ∀ (nm : String) (vs : List V),
      evalPort sem g fuel nm = some vs → evalPort sem g fuel2 nm = some vs
  | 0, fuel2, _, nm, vs, h => by
      rw [show evalPort sem g 0 nm = (none : Option (List V)) from rfl] at h
      exact Option.noConfusion h
  | fuel + 1, 0, hle, nm, vs, h => by omega
  | fuel + 1, fuel2 + 1, hle, nm, vs, h => by
      rw [evalPort_succ] at h
      rw [evalPort_succ]
      rcases hi : findNodeIdx g nm with _ | i
      · rw [hi] at h
        exact Option.noConfusion h
      · rw [hi] at h
        simp only [Option.some_bind] at h ⊢
        rcases hnd : getNode g i with _ | nd
        · rw [hnd] at h
          exact Option.noConfusion h
        · rw [hnd] at h
          simp only [Option.some_bind] at h ⊢
          rcases hargs : evalArgsWith (evalPort sem g fuel) (dataInputs nd.input)
            with _ | args
          · rw [hargs] at h
            exact Option.noConfusion h
          · rw [hargs] at h
            simp only [Option.some_bind] at h
            have hargs2 : evalArgsWith (evalPort sem g fuel2) (dataInputs nd.input)
                = some args :=
              evalArgsWith_congr
                (fun nm2 vs2 hv => evalPort_mono sem g fuel fuel2 (by omega) nm2 vs2 hv)
                _ _ hargs
            rw [hargs2]
            simpa using h

theorem Ext_findNodeIdx {g g2 : GraphDef} (hext : Ext g g2) {nm : String} {i : Nat}
    (h : findNodeIdx g nm = some i) : findNodeIdx g2 nm = some i := by
  apply findNodeIdx_ext hext.1 _ h
  intro j hj
  rcases hg : List.get? g j with _ | nd
  · exact absurd (List.get?_eq_none.mp hg) (by omega)
  · rcases hext.2.1 j nd hg with ⟨nd2, hnd2, hextn⟩
    exact ⟨nd, nd2, rfl, hnd2, hextn.1⟩

end GraphRw

namespace GraphRw

theorem dataInputs_rel {len0 : Nat} {g2 : GraphDef} :
    ∀ (a b : List String),
    (∀ q r0, List.get? a q = some r0 →
      List.get? b q = some r0 ∨ ∃ r, List.get? b q = some r ∧ RewiredTo len0 g2 r0 r) →
    List.length b = List.length a →
    List.Forall₂ (fun r0 r => r = r0 ∨ RewiredTo len0 g2 r0 r) (dataInputs a)
      (dataInputs b)
  | [], b, _, hlen => by
      have hb : b = [] := List.length_eq_zero.mp hlen
      subst hb
      exact List.Forall₂.nil
  | r0 :: a, b, hslot, hlen => by
      cases b with
      | nil => simp at hlen
      | cons r b2 =>
          have hrel : r = r0 ∨ RewiredTo len0 g2 r0 r := by
            rcases hslot 0 r0 rfl with hs | ⟨r2, hr2, hrw⟩
            · exact Or.inl (Option.some.inj hs)
            · have hr2e : r2 = r := (Option.some.inj hr2).symm
              subst hr2e
              exact Or.inr hrw
          have htail := dataInputs_rel a b2
            (fun q rr hh => hslot (q + 1) rr hh) (by simpa using hlen)
          unfold dataInputs at htail ⊢
          rcases hrel with hre | hrw
          · subst hre
            by_cases hc : isControlRef r = true
            · rw [List.filter_cons_of_neg (by simp [hc]),
                List.filter_cons_of_neg (by simp [hc])]
              exact htail
            · rw [List.filter_cons_of_pos (by simp [hc]),
                List.filter_cons_of_pos (by simp [hc])]
              exact List.Forall₂.cons (Or.inl rfl) htail
          · have hc0 : isControlRef r0 = false := hrw.1
            have hcr : isControlRef r = false := by
              rcases hrw with ⟨-, jIdx, genName, p, -, sj, outr, kIdx, sk, rr2,
                h1, h2, h3, h4, h5, hrest⟩
              exact h5
            rw [List.filter_cons_of_pos (by simp [hc0]),
              List.filter_cons_of_pos (by simp [hcr])]
            exact List.Forall₂.cons (Or.inr hrw) htail

end GraphRw

namespace GraphRw

theorem evalRef_sim_step {V : Type} {sem : NodeSem V} {g g2 : GraphDef}
    (hnames : (List.map NodeDef.name g2).Nodup) (f : Nat)
    (hsim : ∀ nm vs, evalPort sem g f nm = some vs → evalPort sem g2 (3 * f) nm = some vs)
    {r0 r : String} (hrel : r = r0 ∨ RewiredTo (List.length g) g2 r0 r)
    {v : V} (h : evalRefWith (evalPort sem g f) r0 = some v) :
    evalRefWith (evalPort sem g2 (3 * f + 2)) r = some v := by
  rw [evalRefWith_eq] at h
  rcases hvs : evalPort sem g f (parseRef r0).1 with _ | vs0
  · rw [hvs] at h
    exact Option.noConfusion h
  rw [hvs] at h
  simp only [Option.some_bind] at h
  have hvs2 := hsim _ _ hvs
  rcases hrel with hre | hrw
  · subst hre
    rw [evalRefWith_eq]
    rw [evalPort_mono sem g2 (3 * f) (3 * f + 2) (by omega) _ _ hvs2]
    simpa using h
  · rcases hrw with ⟨hctrl0, jIdx, genName, p, hparse0, sj, outr, kIdx, sk, rr,
      hc1, hc2, hc3, hc4, hc5, hc6, hc7, hc8, hc9, hc10, hc11, hc12, hc13, hc14, hc15⟩
    have hp1 : (parseRef r0).1 = genName := by rw [hparse0]
    have hp2 : (parseRef r0).2 = p := by rw [hparse0]
    rw [hp1] at hvs2
    rw [hp2] at h
    have e2 : evalRefWith (evalPort sem g2 (3 * f)) rr = some v := by
      rw [evalRefWith_eq]
      have hrr1 : (parseRef rr).1 = genName := by rw [hc15]
      have hrr2 : (parseRef rr).2 = p := by rw [hc15]
      rw [hrr1, hvs2, hrr2]
      simpa using h
    have e3 : evalPort sem g2 (3 * f + 1) sk.name = some [v] := by
      rw [show 3 * f + 1 = (3 * f) + 1 from rfl, evalPort_succ]
      rw [findNodeIdx_nodup hnames hc11]
      simp only [Option.some_bind]
      rw [hc11]
      simp only [Option.some_bind]
      rw [hc13, evalArgsWith_cons_eq, e2]
      simp only [Option.some_bind]
      rw [show evalArgsWith (evalPort sem g2 (3 * f)) ([] : List String)
        = some [] from rfl]
      simp only [Option.some_bind]
      rw [hc12]
      rfl
    have e4 : evalRefWith (evalPort sem g2 (3 * f + 1)) outr = some v := by
      rw [evalRefWith_eq]
      have ho1 : (parseRef outr).1 = sk.name := by rw [hc9]
      have ho2 : (parseRef outr).2 = 0 := by rw [hc9]
      rw [ho1, e3, ho2]
      rfl
    have e5 : evalPort sem g2 (3 * f + 2) r = some [v] := by
      rw [show 3 * f + 2 = (3 * f + 1) + 1 from rfl, evalPort_succ]
      have hfr : findNodeIdx g2 r = some jIdx := by
        rw [← hc3]
        exact findNodeIdx_nodup hnames hc2
      rw [hfr]
      simp only [Option.some_bind]
      rw [hc2]
      simp only [Option.some_bind]
      rw [hc7, evalArgsWith_cons_eq, e4]
      simp only [Option.some_bind]
      rw [show evalArgsWith (evalPort sem g2 (3 * f + 1)) ([] : List String)
        = some [] from rfl]
      simp only [Option.some_bind]
      rw [hc4]
      rfl
    rw [evalRefWith_eq]
    have hr1 : (parseRef r).1 = r := by rw [hc6]
    have hr2 : (parseRef r).2 = 0 := by rw [hc6]
    rw [hr1, e5, hr2]
    rfl

end GraphRw


namespace GraphRw

theorem evalArgs_sim {V : Type} {sem : NodeSem V} {g g2 : GraphDef}
    (hnames : (List.map NodeDef.name g2).Nodup) (f : Nat)
    (hsim : ∀ nm vs, evalPort sem g f nm = some vs →
      evalPort sem g2 (3 * f) nm = some vs) :
    ∀ (ins ins2 : List String),
    List.Forall₂ (fun r0 r => r = r0 ∨ RewiredTo (List.length g) g2 r0 r) ins ins2 →
    ∀ (args : List V), evalArgsWith (evalPort sem g f) ins = some args →
      evalArgsWith (evalPort sem g2 (3 * f + 2)) ins2 = some args := by
  intro ins ins2 hf2
  induction hf2 with
  | nil =>
      intro args ha
      exact ha
  | cons hhead htail ihtail =>
      rename_i r0 r ins' ins2'
      intro args ha
      rw [evalArgsWith_cons_eq] at ha
      rw [evalArgsWith_cons_eq]
      rcases hv : evalRefWith (evalPort sem g f) r0 with _ | v
      · rw [hv] at ha
        exact Option.noConfusion ha
      · rw [hv] at ha
        simp only [Option.some_bind] at ha
        rw [evalRef_sim_step hnames f hsim hhead hv]
        simp only [Option.some_bind]
        rcases hrest : evalArgsWith (evalPort sem g f) ins' with _ | rest
        · rw [hrest] at ha
          exact Option.noConfusion ha
        · rw [hrest] at ha
          simp only [Option.some_bind] at ha
          rw [ihtail rest hrest]
          simpa using ha

theorem evalPort_sim {V : Type} {sem : NodeSem V} (hsem : SemOk sem)
    {g g2 : GraphDef} (hext : Ext g g2)
    (hnames : (List.map NodeDef.name g2).Nodup) :
    ∀ (fuel : Nat) (nm : String) (vs : List V),
      evalPort sem g fuel nm = some vs → evalPort sem g2 (3 * fuel) nm = some vs := by
  intro fuel
  induction fuel with
  | zero =>
      intro nm vs h
      rw [show evalPort sem g 0 nm = (none : Option (List V)) from rfl] at h
      exact Option.noConfusion h
  | succ f ih =>
      intro nm vs h
      rw [evalPort_succ] at h
      rcases hi : findNodeIdx g nm with _ | i
      · rw [hi] at h
        exact Option.noConfusion h
      · rw [hi] at h
        simp only [Option.some_bind] at h
        rcases hnd : getNode g i with _ | nd
        · rw [hnd] at h
          exact Option.noConfusion h
        · rw [hnd] at h
          simp only [Option.some_bind] at h
          rcases hargs : evalArgsWith (evalPort sem g f) (dataInputs nd.input)
            with _ | args
          · rw [hargs] at h
            exact Option.noConfusion h
          · rw [hargs] at h
            simp only [Option.some_bind] at h
            rw [show 3 * (f + 1) = (3 * f + 2) + 1 from by ring, evalPort_succ]
            rw [Ext_findNodeIdx hext hi]
            simp only [Option.some_bind]
            rcases hext.2.1 i nd hnd with ⟨nd2, hnd2, hextn⟩
            rw [hnd2]
            simp only [Option.some_bind]
            have hform := dataInputs_rel nd.input nd2.input hextn.2.2.2.2.2.2
              hextn.2.2.2.2.2.1
            have hargs2 := evalArgs_sim hnames f ih _ _ hform args hargs
            rw [hargs2]
            simp only [Option.some_bind]
            rw [hextn.2.1]
            by_cases hswp : isSwapOp nd.op = true
            · rw [if_pos hswp] at h ⊢
              exact h
            · rw [if_neg hswp] at h ⊢
              rw [hsem nd.op nd2.attr nd.attr args hextn.2.2.2.2.1]
              exact h

end GraphRw

namespace GraphRw

theorem inputValue_eq {V : Type} (sem : NodeSem V) (g : GraphDef) (fuel c q : Nat) :
    inputValue sem g fuel c q = (getNode g c).bind (fun nd =>
      (List.get? nd.input q).bind (fun r =>
        if isControlRef r then none else evalRef sem g fuel r)) := rfl

/-- A decoy node whose name collides with the name `SwapTensors` generates
for the swap-in of edge `A:0 → C:0`. -/
def nEvil : NodeDef := ⟨"swap_in_A_0_C_0", "Evil", "cpu", [], 0, []⟩

/-- The collision graph: producer, distant consumer, and the decoy. -/
def gCx : GraphDef := [nA, nC, nEvil]

/-- Op semantics for the examples: `Src` yields 7, the decoy `Evil` yields
42, `Use` yields 0; attributes are ignored. -/
def semC : NodeSem Nat := fun op _ _ =>
  if op = "Src" then some [7]
  else if op = "Evil" then some [42]
  else if op = "Use" then some [0]
  else none

theorem semC_ok : SemOk semC := fun _ _ _ _ _ => rfl

/-- Counterexample to C1 as stated: on the collision graph the consumer
`C`'s input 0 carries 7 before the rewrite, but after `SwapTensors` the
rewired reference `"swap_in_A_0_C_0"` resolves (by first-match name lookup)
to the pre-existing decoy node, and the consumer receives 42 instead. -/
theorem SwapTensors_transparency_cx :
    inputValue semC gCx 3 1 0 = some 7 ∧
    (SwapTensors Fc partsAC gCx).bind (fun g2 => inputValue semC g2 9 1 0) = some 42 :=
  ⟨by decide, by decide⟩

/-- C1 (amended: swap transparency under unique node names): when
`SwapTensors` succeeds and the rewritten graph's node names are pairwise
distinct, every consumer input value of the original graph is reproduced by
the rewritten graph under the reference interpreter (ideal identity swap
kernels, semantics blind to the `_class` colocation tag), at a possibly
larger fuel. -/
theorem SwapTensors_transparent {V : Type} (F : Framework)
    (parts : List (Int × List Nat)) (g g2 : GraphDef) (sem : NodeSem V)
    (hsw : SwapTensors F parts g = some g2)
    (hnames : (List.map NodeDef.name g2).Nodup)
    (hsem : SemOk sem)
    (c q fuel : Nat) (v : V)
    (hval : inputValue sem g fuel c q = some v) :
    ∃ fuel2, inputValue sem g2 fuel2 c q = some v := by
  have hext := SwapTensors_ext hsw
  rw [inputValue_eq] at hval
  rcases hc : getNode g c with _ | nd0
  · rw [hc] at hval
    exact Option.noConfusion hval
  rw [hc] at hval
  simp only [Option.some_bind] at hval
  rcases hq : List.get? nd0.input q with _ | r0
  · rw [hq] at hval
    exact Option.noConfusion hval
  rw [hq] at hval
  simp only [Option.some_bind] at hval
  by_cases hctrl : isControlRef r0 = true
  · rw [if_pos hctrl] at hval
    exact Option.noConfusion hval
  rw [if_neg hctrl] at hval
  rcases hext.2.1 c nd0 hc with ⟨nd, hnd, hextn⟩
  rcases hextn.2.2.2.2.2.2 q r0 hq with hsame | ⟨r, hr, hrw⟩
  · refine ⟨3 * fuel + 2, ?_⟩
    rw [inputValue_eq, hnd]
    simp only [Option.some_bind]
    rw [hsame]
    simp only [Option.some_bind]
    rw [if_neg hctrl]
    exact evalRef_sim_step hnames fuel (evalPort_sim hsem hext hnames fuel)
      (Or.inl rfl) hval
  · refine ⟨3 * fuel + 2, ?_⟩
    rw [inputValue_eq, hnd]
    simp only [Option.some_bind]
    rw [hr]
    simp only [Option.some_bind]
    have hcr : isControlRef r = false := by
      rcases hrw with ⟨-, jIdx, genName, p, -, sj, outr, kIdx, sk, rr,
        h1, h2, h3, h4, h5, hrest⟩
      exact h5
    rw [if_neg (by rw [hcr]; simp)]
    exact evalRef_sim_step hnames fuel (evalPort_sim hsem hext hnames fuel)
      (Or.inr hrw) hval

/-- Witness for the amended C1 on the collision-free graph: the consumer's
value 7 is preserved through the inserted swap chain. -/
theorem SwapTensors_transparent_witness :
    ∃ fuel2, inputValue semC gACswapped fuel2 1 0 = some 7 :=
  SwapTensors_transparent Fc partsAC gAC gACswapped semC (by decide) (by decide)
    semC_ok 1 0 3 7 (by decide)

end GraphRw
